import Mathlib

/-!
# The hubble ring buffer (`pkg/hubble/container2/ringbuffer.go`)

A shallow embedding of `RingBuffer` and of its readers, followed by theorems
about it.

Conventions of the embedding.

* Go's `int` is embedded as `Int` (a 64-bit counter of written events does not
  wrap in practice); `%` is Go's truncated remainder, `Int.tmod`.
* A `*v1.Event` is an `EventRef`: `none` is the nil pointer.
* A function that can panic at run time (index or slice bounds out of range,
  nil dereference, `make` with a negative size or with more slots than it
  allocates, send on or close of a closed channel) returns an `Option`, and
  `none` is the panic.
* The sections that the source runs while holding `rwMutex` are atomic steps
  of the embedding; goroutines and callers interleave between such steps.
-/

namespace Container2

/-! ## Events and time -/

/-- An instant, as far as the buffer looks at a `time.Time`: it only calls
`IsZero` and `Before`. The zero instant is `0`. -/
abbrev Time := Int

/-- Go's `Time.IsZero`. -/
def Time.IsZero (t : Time) : Bool := decide (t = 0)

/-- Go's `Time.Before`: strictly earlier. -/
def Time.Before (t u : Time) : Bool := decide (t < u)

/-- Modelled from the spec: the type `v1.Event` (package `pkg/hubble/api/v1`
is not among the sources). An event is an opaque payload together with the
instant that `event.Timestamp.AsTime()` yields. -/
structure Event where
  payload : Nat
  timestamp : Time
deriving DecidableEq, Repr

/-- A `*v1.Event`; `none` is nil. -/
abbrev EventRef := Option Event

/-- The Go function `eventTime`: `event.Timestamp.AsTime()`, a nil dereference
when `event` is nil. -/
def eventTime (event : EventRef) : Option Time :=
  event.map Event.timestamp

/-! ## Go slices and indexing -/

/-- A `[]*v1.Event`: the backing array from the first element of the slice up
to its capacity, and the length of the slice. -/
structure Slice where
  backing : List EventRef
  len : Nat
deriving DecidableEq, Repr

/-- Go's `cap(s)`. -/
def Slice.cap (s : Slice) : Nat := s.backing.length

/-- The elements of a slice, `s[0], ..., s[len(s)-1]`. -/
def Slice.elems (s : Slice) : List EventRef := s.backing.take s.len

/-- A slice is well formed when its length does not exceed its capacity. -/
def Slice.WF (s : Slice) : Prop := s.len ≤ s.cap

instance (s : Slice) : Decidable s.WF := inferInstanceAs (Decidable (_ ≤ _))

/-- The nil slice (length and capacity 0). -/
def Slice.nil : Slice := ⟨[], 0⟩

/-- Go's `make([]*v1.Event, len, cap)`; panics unless `0 ≤ len ≤ cap`. The
source calls it with the number of slots of the ring as `cap`, a size that
`make` accepted when the ring was made (`WithCapacity`). -/
def makeSlice (len cap : Int) : Option Slice :=
  if 0 ≤ len ∧ len ≤ cap then some ⟨List.replicate cap.toNat none, len.toNat⟩ else none

/-- Go's `append(events, make([]*v1.Event, k)...)`: the slice grows in place
when the capacity suffices and moves to a new array otherwise (the new
capacity is taken to be the new length). -/
def appendNil (events : Slice) (k : Int) : Option Slice :=
  if k < 0 then none
  else if events.len + k.toNat ≤ events.cap then
    some ⟨events.backing.take events.len ++ List.replicate k.toNat none
            ++ events.backing.drop (events.len + k.toNat), events.len + k.toNat⟩
  else
    some ⟨events.backing.take events.len ++ List.replicate k.toNat none, events.len + k.toNat⟩

/-- The bounds check of a slice expression `a[lo:hi]` on an array or slice
whose capacity is `cap`: the two offsets when `0 ≤ lo ≤ hi ≤ cap`. -/
def bounds (lo hi : Int) (cap : Nat) : Option (Nat × Nat) :=
  if 0 ≤ lo ∧ lo ≤ hi ∧ hi ≤ cap then some (lo.toNat, hi.toNat) else none

/-- Go's `copy(events[lo:hi], src)`: the first `min (hi - lo) (len src)`
elements of `src` are written into the array of `events` from offset `lo`. -/
def copyAt (events : Slice) (lo hi : Nat) (src : List EventRef) : Slice :=
  let n := min (hi - lo) src.length
  ⟨events.backing.take lo ++ src.take n ++ events.backing.drop (lo + n), events.len⟩

/-- Go's `a[i]` for reading. -/
def load (a : List EventRef) (i : Int) : Option EventRef :=
  if 0 ≤ i ∧ i < a.length then a[i.toNat]? else none

/-- Go's `a[i] = v`. -/
def store (a : List EventRef) (i : Int) (v : EventRef) : Option (List EventRef) :=
  if 0 ≤ i ∧ i < a.length then some (a.set i.toNat v) else none

/-! ## Channels -/

/-- A `chan *v1.Event` together with what its consumers have taken from it. -/
structure Chan where
  /-- The capacity given to `make`. -/
  capacity : Nat
  /-- The values sitting in the channel's buffer, oldest first. -/
  queue : List EventRef
  /-- The number of goroutines blocked in a receive on the channel. -/
  receivers : Nat
  /-- The values handed to receivers so far, oldest first. -/
  received : List EventRef
  /-- Whether `close` has been called. -/
  closed : Bool
deriving DecidableEq, Repr

/-- Go's `make(chan *v1.Event, capacity)`; panics on a negative capacity. -/
def makeChan (capacity : Int) : Option Chan :=
  if 0 ≤ capacity then some ⟨capacity.toNat, [], 0, [], false⟩ else none

/-- What a send that does not wait can do. -/
inductive SendResult where
  | sent (c : Chan)
  | wouldBlock
  | panic
deriving DecidableEq, Repr

/-- A channel can take a value at once when a receiver is blocked on it or its
buffer has room. -/
def Chan.canAccept (c : Chan) : Bool :=
  decide (0 < c.receivers) || decide (c.queue.length < c.capacity)

/-- The send case of a `select`: the value goes to a blocked receiver if there
is one, else into the buffer if there is room, else the send cannot proceed;
on a closed channel the send panics. -/
def Chan.trySend (c : Chan) (v : EventRef) : SendResult :=
  if c.closed then .panic
  else if 0 < c.receivers then
    .sent { c with receivers := c.receivers - 1, received := c.received ++ [v] }
  else if c.queue.length < c.capacity then
    .sent { c with queue := c.queue ++ [v] }
  else .wouldBlock

/-- Every value put on the channel so far, in order: those already received
followed by those still buffered. -/
def Chan.delivered (c : Chan) : List EventRef := c.received ++ c.queue

/-- Go's `close(ch)`; panics when the channel is already closed. Receivers
blocked on the channel return (with the zero value, which is not recorded). -/
def Chan.close (c : Chan) : Option Chan :=
  if c.closed then none else some { c with closed := true, receivers := 0 }

/-- A consumer starts a receive `<-ch`: it takes the oldest buffered value if
there is one, returns at once on a closed channel, and blocks otherwise. -/
def Chan.recv (c : Chan) : Chan :=
  match c.queue with
  | v :: rest => { c with queue := rest, received := c.received ++ [v] }
  | [] => if c.closed then c else { c with receivers := c.receivers + 1 }

/-- A consumer blocked in a receive gives up (another case of its `select`
fired). -/
def Chan.stopRecv (c : Chan) : Option Chan :=
  if 0 < c.receivers then some { c with receivers := c.receivers - 1 } else none

/-! ## The ring buffer and its readers -/

/-- The Go struct `ReaderStats`. -/
structure ReaderStats where
  Sent : Int
  Dropped : Int
deriving DecidableEq, Repr

/-- The Go struct `RingBufferStatus`. -/
structure RingBufferStatus where
  NumEvents : Int
  SeenEvents : Int
  OldestEventTime : Time
  NewestEventTime : Time
deriving DecidableEq, Repr

/-- The Go struct `RingBuffer` (without the mutex and the test hook). The keys
of the `readers` map are channels; a reader is named by its position in the
heap of readers (`System.rs`), which holds its channel and the `ReaderStats`
the map points to. -/
structure RingBuffer where
  last : Int
  next : Int
  buffer : List EventRef
  readers : List Nat
  sent : Int
  dropped : Int
deriving DecidableEq, Repr

/-- Which constructor made a reader; it decides what its cancel function
does. -/
inductive Kind where
  /-- Made by `ReadNew`. -/
  | new
  /-- Made by `readFrom` (through `ReadAll` or `ReadSince`). -/
  | from
  /-- Made by `ReadCurrent` with a goroutine. -/
  | current
  /-- Made by `ReadCurrent` on a buffer without events: no goroutine. -/
  | currentEmpty
deriving DecidableEq, Repr

/-- Where the goroutine of a reader stands; each value is a point at which the
goroutine holds no lock. -/
inductive Pc where
  /-- In `readFrom`, before `RLock` at the head of the loop. -/
  | top
  /-- In `readFrom`, between `RUnlock` and `Lock` (where `rUnlockLockFunc`
  runs). -/
  | upgrade
  /-- In `readFrom`, between `Unlock` and the `RLock` that follows it. -/
  | relock
  /-- In `readFrom`, at the `select` that sends `event`. -/
  | send
  /-- In `ReadCurrent`, at the `select` that sends `event`. -/
  | curSend
  /-- In `ReadCurrent`, before the `RLock` inside the loop. -/
  | curRelock
  /-- The goroutine has returned (or there never was one). -/
  | exited
deriving DecidableEq, Repr

/-- How far the cancel function of a reader has run. -/
inductive CancelState where
  | notCalled
  /-- The section under the lock is done; `copy` is the local copy of the
  stats made there by the cancel function of `ReadNew` (that of `readFrom`
  makes none). -/
  | unlocked (copy : Option ReaderStats)
  /-- Cancel has returned these stats. -/
  | returned (stats : ReaderStats)
deriving DecidableEq, Repr

/-- One reader: the channel handed to the caller, the `ReaderStats` object,
the `doneCh` of its goroutine, and the goroutine's local variables. -/
structure Reader where
  kind : Kind
  ch : Chan
  stats : ReaderStats
  /-- Whether `doneCh` is closed. -/
  done : Bool
  /-- Whether the constructor has returned to its caller (for `readFrom`:
  `readerReadyCh` is closed). -/
  ready : Bool
  pc : Pc
  seq : Int
  /-- The local `last` of `ReadCurrent`. -/
  last : Int
  event : EventRef
  cancel : CancelState
deriving DecidableEq, Repr

/-- The buffer and the heap of readers. -/
structure System where
  b : RingBuffer
  rs : List Reader
deriving DecidableEq, Repr

/-- A `RingBufferOption`: a function applied to the buffer under construction;
it may panic. -/
abbrev RingBufferOption := RingBuffer → Option RingBuffer

/-- The number of bytes of a `*v1.Event` (a pointer on a 64-bit platform). -/
def ptrSize : Nat := 8

/-- The largest number of bytes that one call of `make` allocates: the
constant `maxAlloc` of the Go runtime, `1 << 48` on a 64-bit platform. The
runtime is not part of the sources; running out of memory below this bound is
not modelled. -/
def maxAlloc : Nat := 2 ^ 48

/-- The Go function `WithCapacity`. Its `make([]*v1.Event, capacity)` panics
("len out of range") when `capacity` is negative and when `capacity` pointers
take more than `maxAlloc` bytes. -/
def WithCapacity (capacity : Int) : RingBufferOption := fun b =>
  if 0 ≤ capacity ∧ capacity * ptrSize ≤ maxAlloc then
    some { b with buffer := List.replicate capacity.toNat none }
  else none

/-- The Go function `NewRingBuffer`. -/
def NewRingBuffer (options : List RingBufferOption) : Option RingBuffer :=
  options.foldlM (fun b o => o b) ⟨0, 0, [], [], 0, 0⟩

/-- The ring part of `Write`: store the event, advance `next`, advance `last`
past an overwritten event. -/
def writeRing (b : RingBuffer) (event : EventRef) : Option RingBuffer := do
  let buffer ←
    if 0 < b.buffer.length then store b.buffer (Int.tmod b.next b.buffer.length) event
    else some b.buffer
  let next := b.next + 1
  let last := if b.last < next - b.buffer.length then next - b.buffer.length else b.last
  some { b with buffer := buffer, next := next, last := last }

/-- The body of the loop over `b.readers` in `Write`, for one reader: a send
that does not wait, counted in the reader's statistics as sent (`true`) or as
dropped (`false`). -/
def Reader.offer (r : Reader) (event : EventRef) : Option (Reader × Bool) :=
  match r.ch.trySend event with
  | .sent c => some ({ r with ch := c, stats := { r.stats with Sent := r.stats.Sent + 1 } }, true)
  | .wouldBlock => some ({ r with stats := { r.stats with Dropped := r.stats.Dropped + 1 } }, false)
  | .panic => none

/-- One iteration of the loop over `b.readers` in `Write`, with the counters
of the buffer. -/
def deliver (event : EventRef) (s : System) (id : Nat) : Option System := do
  let r ← s.rs[id]?
  let (r2, sent) ← r.offer event
  some { b := if sent then { s.b with sent := s.b.sent + 1 }
              else { s.b with dropped := s.b.dropped + 1 },
         rs := s.rs.set id r2 }

/-- The Go method `Write`. -/
def Write (s : System) (event : EventRef) : Option System := do
  let b ← writeRing s.b event
  b.readers.foldlM (deliver event) { s with b := b }

/-- The destination as `Buffer` sizes it (lines 106 to 110): a new slice when
the capacity of `events` is less than the number of slots, `events` extended
with nils when it is shorter than the number of buffered events, `events`
itself otherwise. -/
def resize (b : RingBuffer) (events : Slice) : Option Slice :=
  if (events.cap : Int) < b.buffer.length then makeSlice (b.next - b.last) b.buffer.length
  else if (events.len : Int) < b.next - b.last then appendNil events (b.next - b.last - events.len)
  else some events

/-- The copy out of the ring in `Buffer` (lines 111 to 118). -/
def copyOut (b : RingBuffer) (events : Slice) : Option Slice :=
  let headIndex := Int.tmod b.next b.buffer.length
  let tailIndex := Int.tmod b.last b.buffer.length
  if headIndex > tailIndex then do
    let (lo, hi) ← bounds tailIndex headIndex b.buffer.length
    some (copyAt events 0 events.len ((b.buffer.drop lo).take (hi - lo)))
  else do
    let (_, d) ← bounds 0 (b.buffer.length - headIndex) events.cap
    let (lo, hi) ← bounds tailIndex b.buffer.length b.buffer.length
    let events := copyAt events 0 d ((b.buffer.drop lo).take (hi - lo))
    let (d, e) ← bounds (b.buffer.length - headIndex) events.len events.cap
    let (_, h) ← bounds 0 headIndex b.buffer.length
    some (copyAt events d e (b.buffer.take h))

/-- The Go method `Buffer`. -/
def Buffer (b : RingBuffer) (events : Slice) : Option Slice :=
  if b.buffer.length = 0 then some ⟨events.backing, 0⟩
  else if b.last = b.next then some Slice.nil
  else do
    let events ← resize b events
    copyOut b events

/-- The first loop of `Status`: the time of the first event from sequence `i`
on (at most `fuel` of them) whose time is not zero, the zero time if there is
none. -/
def oldestTime (b : RingBuffer) : Nat → Int → Option Time
  | 0, _ => some 0
  | fuel + 1, i =>
    if i < b.next then do
      let event ← load b.buffer (Int.tmod i b.buffer.length)
      let t ← eventTime event
      if !t.IsZero then some t else oldestTime b fuel (i + 1)
    else some 0

/-- The second loop of `Status`: the same downwards from sequence `i`. -/
def newestTime (b : RingBuffer) : Nat → Int → Option Time
  | 0, _ => some 0
  | fuel + 1, i =>
    if i ≥ b.last then do
      let event ← load b.buffer (Int.tmod i b.buffer.length)
      let t ← eventTime event
      if !t.IsZero then some t else newestTime b fuel (i - 1)
    else some 0

/-- The Go method `Status`. Both loops run over the sequences from `last` to
`next - 1`, so `next - last` iterations are enough fuel. -/
def Status (b : RingBuffer) : Option RingBufferStatus := do
  let oldest ← oldestTime b (b.next - b.last).toNat b.last
  let newest ← newestTime b (b.next - b.last).toNat (b.next - 1)
  some { NumEvents := b.next - b.last, SeenEvents := b.next,
         OldestEventTime := oldest, NewestEventTime := newest }

/-- The first instant of a list that is not the zero instant, the zero
instant if there is none. -/
def firstNonZero (ts : List Time) : Time :=
  (ts.find? (fun t => !t.IsZero)).getD 0

/-- A sequence of calls of `Write`. -/
def writes (s : System) (events : List EventRef) : Option System :=
  events.foldlM Write s

/-! ## Readers -/

/-- The map assignment `b.readers[ch] = ...`: the key is added unless it is
there already. -/
def insertReader (readers : List Nat) (id : Nat) : List Nat :=
  if id ∈ readers then readers else id :: readers

/-- Go's `delete(b.readers, ch)`. -/
def deleteReader (readers : List Nat) (id : Nat) : List Nat :=
  readers.filter (fun j => j ≠ id)

/-- What a step of a reader does to the entry of its channel in
`b.readers`. -/
inductive Reg where
  | keep
  | insert
  | delete
deriving DecidableEq, Repr

/-- The map `b.readers` after a step of reader `id`. -/
def Reg.apply (g : Reg) (readers : List Nat) (id : Nat) : List Nat :=
  match g with
  | .keep => readers
  | .insert => insertReader readers id
  | .delete => deleteReader readers id

/-- A reader as its constructor makes it: no statistics, `doneCh` open, cancel
not called. -/
def newReader (kind : Kind) (ch : Chan) (ready : Bool) (pc : Pc) (seq last : Int)
    (event : EventRef) : Reader :=
  { kind := kind, ch := ch, stats := ⟨0, 0⟩, done := false, ready := ready, pc := pc,
    seq := seq, last := last, event := event, cancel := .notCalled }

/-- The Go method `ReadNew`, up to its return: the reader it makes, registered
as a follower. -/
def ReadNew (capacity : Int) : Option (Reader × Reg) := do
  let ch ← makeChan capacity
  some (newReader .new ch true .exited 0 0 none, .insert)

/-- The Go method `readFrom`, up to the start of its goroutine. The call
returns to its caller once the goroutine has taken the read lock for the first
time (`ready`). -/
def readFrom (seq capacity : Int) : Option (Reader × Reg) := do
  let ch ← makeChan capacity
  some (newReader .from ch false .top seq 0 none, .keep)

/-- The Go method `ReadAll`. -/
def ReadAll (b : RingBuffer) (capacity : Int) : Option (Reader × Reg) :=
  if b.buffer.length = 0 then ReadNew capacity
  else readFrom b.last capacity

/-- The loop of `ReadSince`, from sequence `seq` downwards (at most `fuel`
iterations): the argument it passes to `readFrom`. -/
def sinceLoop (b : RingBuffer) (t : Time) : Nat → Int → Option Int
  | 0, _ => some 0
  | fuel + 1, seq =>
    if seq ≥ b.last then do
      let event ← load b.buffer (Int.tmod seq b.buffer.length)
      let et ← eventTime event
      if !et.IsZero && et.Before t then some (seq + 1) else sinceLoop b t fuel (seq - 1)
    else some 0

/-- The sequence at which `ReadSince` starts `readFrom`. The loop runs over the
sequences from `next - 1` down to `last`, so `next - last` iterations are
enough fuel. -/
def sinceSeq (b : RingBuffer) (t : Time) : Option Int :=
  sinceLoop b t (b.next - b.last).toNat (b.next - 1)

/-- The Go method `ReadSince`. -/
def ReadSince (b : RingBuffer) (t : Time) (capacity : Int) : Option (Reader × Reg) :=
  if b.buffer.length = 0 then ReadNew capacity
  else do
    let seq ← sinceSeq b t
    readFrom seq capacity

/-- The Go method `ReadCurrent`, up to its return; it runs under the read
lock. -/
def ReadCurrent (b : RingBuffer) (capacity : Int) : Option (Reader × Reg) := do
  let ch ← makeChan capacity
  if b.buffer.length = 0 then do
    let ch ← ch.close
    some (newReader .currentEmpty ch true .exited 0 0 none, .keep)
  else
    let seq := b.last
    let last := b.next
    if seq = last then do
      let ch ← ch.close
      some (newReader .currentEmpty ch true .exited 0 0 none, .keep)
    else do
      let event ← load b.buffer (Int.tmod seq b.buffer.length)
      some (newReader .current ch true .curSend seq last event, .keep)

/-- The lines of `readFrom` from the test `seq < b.last` to `RUnlock`: count
the events lost, move to the oldest event, copy the event to send. -/
def replayCopy (b : RingBuffer) (r : Reader) : Option Reader := do
  let r := if r.seq < b.last
    then { r with stats := { r.stats with Dropped := r.stats.Dropped + (b.last - r.seq) },
                  seq := b.last }
    else r
  let event ← load b.buffer (Int.tmod r.seq b.buffer.length)
  some { r with event := event, pc := .send }

/-- One atomic step of the goroutine of a reader, other than the `doneCh` case
of its `select`. `none` when the goroutine cannot move (it has returned, or
its send would block) or panics. -/
def taskStep (b : RingBuffer) (r : Reader) : Option (Reader × Reg) :=
  match r.pc with
  | .top =>
    let r := { r with ready := true }
    if r.seq = b.next then some ({ r with pc := .upgrade }, .keep)
    else do
      let r ← replayCopy b r
      some (r, .keep)
  | .upgrade =>
    if r.seq = b.next then some ({ r with pc := .exited }, .insert)
    else some ({ r with pc := .relock }, .keep)
  | .relock => do
    let r ← replayCopy b r
    some (r, .keep)
  | .send =>
    match r.ch.trySend r.event with
    | .sent c =>
      some ({ r with ch := c, stats := { r.stats with Sent := r.stats.Sent + 1 },
                     seq := r.seq + 1, pc := .top }, .keep)
    | _ => none
  | .curSend =>
    match r.ch.trySend r.event with
    | .sent c =>
      let r := { r with ch := c, stats := { r.stats with Sent := r.stats.Sent + 1 },
                        seq := r.seq + 1 }
      if r.seq ≥ r.last then do
        let c ← r.ch.close
        some ({ r with ch := c, pc := .exited }, .keep)
      else some ({ r with pc := .curRelock }, .keep)
    | _ => none
  | .curRelock =>
    if r.seq < b.last then
      if r.last < b.last then do
        let c ← r.ch.close
        some ({ r with stats := { r.stats with Dropped := r.stats.Dropped + (r.last - r.seq) },
                       ch := c, pc := .exited }, .keep)
      else do
        let r := { r with stats := { r.stats with Dropped := r.stats.Dropped + (b.last - r.seq) },
                          seq := b.last }
        let event ← load b.buffer (Int.tmod r.seq b.buffer.length)
        some ({ r with event := event, pc := .curSend }, .keep)
    else do
      let event ← load b.buffer (Int.tmod r.seq b.buffer.length)
      some ({ r with event := event, pc := .curSend }, .keep)
  | .exited => none

/-- The goroutine of a reader takes the `<-doneCh` case of its `select` and
returns; in `ReadCurrent` the deferred `close(ch)` runs. -/
def taskDone (r : Reader) : Option (Reader × Reg) :=
  if r.done then
    match r.pc with
    | .send => some ({ r with pc := .exited }, .keep)
    | .curSend => do
      let c ← r.ch.close
      some ({ r with ch := c, pc := .exited }, .keep)
    | _ => none
  else none

/-- One atomic step of the cancel function of a reader: the section under the
lock, or what follows it up to the return. `registered` tells whether the
channel is a key of `b.readers`. The function is called once, and only after
the constructor has returned. -/
def cancelStep (registered : Bool) (r : Reader) : Option (Reader × Reg) :=
  if !r.ready then none
  else match r.kind, r.cancel with
    | .currentEmpty, _ => some ({ r with cancel := .returned ⟨0, 0⟩ }, .keep)
    | .current, .notCalled =>
      if r.done then none
      else some ({ r with done := true, cancel := .returned r.stats }, .keep)
    | .new, .notCalled =>
      if registered then some ({ r with cancel := .unlocked (some r.stats) }, .delete)
      else none
    | .new, .unlocked (some copy) => do
      let c ← r.ch.close
      some ({ r with ch := c, cancel := .returned copy }, .keep)
    | .from, .notCalled => some ({ r with cancel := .unlocked none }, .delete)
    | .from, .unlocked _ =>
      if r.done then none
      else some ({ r with done := true, cancel := .returned r.stats }, .keep)
    | _, _ => none

/-- What can move a reader: its goroutine, its cancel function, or the
consumer of its channel. -/
inductive Move where
  /-- A step of the goroutine other than the `doneCh` case. -/
  | task
  /-- The goroutine takes the `doneCh` case. -/
  | taskDone
  /-- A step of the cancel function. -/
  | cancel
  /-- The consumer starts a receive on the channel. -/
  | recv
  /-- The consumer gives up a blocked receive. -/
  | stopRecv
deriving DecidableEq, Repr

/-- One move of a reader. -/
def Reader.move (b : RingBuffer) (registered : Bool) (r : Reader) : Move → Option (Reader × Reg)
  | .task => taskStep b r
  | .taskDone => taskDone r
  | .cancel => cancelStep registered r
  | .recv => if r.ready then some ({ r with ch := r.ch.recv }, .keep) else none
  | .stopRecv => do
    let c ← r.ch.stopRecv
    some ({ r with ch := c }, .keep)

/-- What can happen next: a call of a method of the buffer, or a move of the
reader at position `id` of the heap. -/
inductive Action where
  | write (event : EventRef)
  | readNew (capacity : Int)
  | readAll (capacity : Int)
  | readCurrent (capacity : Int)
  | readSince (t : Time) (capacity : Int)
  | move (id : Nat) (m : Move)
deriving DecidableEq, Repr

/-- The reader made by a constructor joins the heap at the next free position
and is registered if the constructor said so. -/
def System.add (s : System) (made : Option (Reader × Reg)) : Option System := do
  let (r, g) ← made
  some { b := { s.b with readers := g.apply s.b.readers s.rs.length }, rs := s.rs ++ [r] }

/-- One step of the system. -/
def step (s : System) : Action → Option System
  | .write event => Write s event
  | .readNew capacity => s.add (ReadNew capacity)
  | .readAll capacity => s.add (ReadAll s.b capacity)
  | .readCurrent capacity => s.add (ReadCurrent s.b capacity)
  | .readSince t capacity => s.add (ReadSince s.b t capacity)
  | .move id m => do
    let r ← s.rs[id]?
    let (r2, g) ← r.move s.b (decide (id ∈ s.b.readers)) m
    some { b := { s.b with readers := g.apply s.b.readers id }, rs := s.rs.set id r2 }

/-- A run: the steps of a list of actions, one after the other. -/
def run (s : System) (actions : List Action) : Option System :=
  actions.foldlM step s

/-- The system right after `NewRingBuffer(WithCapacity(c), ...)`: no reader
yet. -/
def newSystem (caps : List Int) : Option System :=
  (NewRingBuffer (caps.map WithCapacity)).map (fun b => ⟨b, []⟩)

/-- The system after `NewRingBuffer` and a list of actions. -/
def runNew (caps : List Int) (actions : List Action) : Option System :=
  (newSystem caps).bind (fun s => run s actions)

/-! ## Specification vocabulary -/

/-- The events written by a list of actions, in order. -/
def writtenBy (actions : List Action) : List EventRef :=
  actions.filterMap (fun a => match a with | .write event => some event | _ => none)

/-- The state of the ring after the events `es` have been written, in order,
to a buffer with `b.buffer.length` slots. -/
structure RingInv (b : RingBuffer) (es : List EventRef) : Prop where
  next_eq : b.next = (es.length : Int)
  last_eq : b.last = ((es.length - b.buffer.length : Nat) : Int)
  slot : ∀ k : Nat, es.length - b.buffer.length ≤ k → k < es.length →
    b.buffer[k % b.buffer.length]? = es[k]?


/-- The events of the writes of a run, in order, at which reader `id` was
registered and its channel could take a value at once (`want = true`), or
could not (`want = false`). -/
def offered (id : Nat) (want : Bool) : System → List Action → List EventRef
  | _, [] => []
  | s, a :: actions =>
    (match a, s.rs[id]? with
     | .write event, some r =>
       if id ∈ s.b.readers ∧ r.ch.canAccept = want then [event] else []
     | _, _ => []) ++
    (match step s a with
     | some s2 => offered id want s2 actions
     | none => [])

/-- The state of a reader made by `ReadAll` when `last` was `l0`, in a run in
which no event is overwritten, its channel refuses no delivery and its cancel
function is not called; `es` are the events written so far and `reg` tells
whether the reader is registered as a follower. Nothing was dropped; while the
goroutine replays, the channel got the events with sequences from `l0` up to
the cursor, in order; once the reader follows, it got every event from `l0`
on; and `readFrom` has returned to its caller once the goroutine has left the
head of its loop for the first time. -/
structure ReplayInv (es : List EventRef) (l0 : Nat) (reg : Bool) (r : Reader) : Prop where
  kind : r.kind = .from
  done : r.done = false
  cancel : r.cancel = .notCalled
  dropped : r.stats.Dropped = 0
  sent : r.stats.Sent = (r.ch.delivered.length : Int)
  following : reg = true → r.ch.delivered = es.drop l0
  replaying : reg = false → r.pc ≠ .exited ∧ ∃ j : Nat, r.seq = (j : Int) ∧ l0 ≤ j ∧
    j ≤ es.length ∧ r.ch.delivered = (es.drop l0).take (j - l0) ∧
    (r.pc = .relock → j < es.length) ∧ (r.pc = .send → es[j]? = some r.event)
  ready : r.pc ≠ .top → r.ready = true

/-- Whether the channel of a reader is a key of `b.readers` after a step that
did `g` to its entry, when it was (`reg`) before. -/
def Reg.after (g : Reg) (reg : Bool) : Bool :=
  match g with
  | .keep => reg
  | .insert => true
  | .delete => false

/-- What holds of every reader of a system reached from `NewRingBuffer`;
`reg` tells whether its channel is a key of `b.readers`. A registered reader
has no running goroutine and an open channel; a reader made by `ReadNew` is
registered until its cancel function is called; the channel of a reader made
by `readFrom` is never closed; only `ReadNew` and `readFrom` readers are
registered. -/
def Reader.ok (reg : Bool) (r : Reader) : Prop :=
  (reg = true → r.pc = .exited ∧ r.ch.closed = false ∧ (r.kind = .new ∨ r.kind = .from)) ∧
  (r.kind = .new → (reg = true ↔ r.cancel = .notCalled)) ∧
  (r.kind = .from → r.ch.closed = false) ∧
  (r.pc = .top ∨ r.pc = .upgrade ∨ r.pc = .relock ∨ r.pc = .send → r.kind = .from) ∧
  (r.pc = .curSend ∨ r.pc = .curRelock → r.kind = .current) ∧
  (r.ch.receivers = 0 ∨ r.ch.queue = [])

/-- The invariant of the heap of readers and of the map `b.readers`. -/
structure Sound (s : System) : Prop where
  nodup : s.b.readers.Nodup
  bound : ∀ id ∈ s.b.readers, id < s.rs.length
  ok : ∀ (id : Nat) (r : Reader), s.rs[id]? = some r → r.ok (decide (id ∈ s.b.readers))

/-- The reader `p.1` and the registration `p.2` are what one of the four
constructors returns on the buffer `b`. -/
def Made (b : RingBuffer) (p : Reader × Reg) : Prop :=
  (∃ k, ReadNew k = some p) ∨ (∃ k, ReadAll b k = some p) ∨
  (∃ k, ReadCurrent b k = some p) ∨ (∃ t k, ReadSince b t k = some p)

/-- The state of a reader started by `readFrom` at sequence `q`, in any run;
`es` are the events written so far and `reg` tells whether the reader is
registered as a follower. While the goroutine runs, its cursor is at most
`next` and every sequence from `q` up to the cursor was sent or counted as
dropped; the event it holds at its send is the one written with the sequence
of the cursor; a registered reader has sent or dropped every sequence from `q`
on; and what was put on the channel is, in order, among the events with
sequences from `q` up to the cursor. -/
structure FromInv (es : List EventRef) (q : Int) (reg : Bool) (r : Reader) : Prop where
  kind : r.kind = .from
  nonneg : 0 ≤ q
  start : q ≤ (es.length : Int)
  low : q ≤ r.seq
  replay : r.pc ≠ .exited →
    r.seq ≤ (es.length : Int) ∧ r.stats.Sent + r.stats.Dropped = r.seq - q
  relock : r.pc = .relock → r.seq < (es.length : Int)
  held : r.pc = .send → es[r.seq.toNat]? = some r.event
  follow : reg = true → r.stats.Sent + r.stats.Dropped = (es.length : Int) - q
  sub : r.ch.delivered.Sublist
    ((es.take (if r.pc = .exited then es.length else r.seq.toNat)).drop q.toNat)

/-- The state of a reader made by `ReadCurrent` when the events `es` had been
written and `last` was `l0`, in a run without a write and without a call of
its cancel function. Nothing was dropped; the cursor `j` lies between `l0` and
`next`; the channel got the events with sequences from `l0` up to the cursor,
in order, and `Sent` counts them; at its send the goroutine holds the event
with the sequence of the cursor; the channel is closed exactly when the
goroutine has returned, and then the cursor is `next`. -/
structure CurrentInv (es : List EventRef) (l0 : Nat) (r : Reader) : Prop where
  kind : r.kind = .current
  ready : r.ready = true
  done : r.done = false
  cancel : r.cancel = .notCalled
  last : r.last = (es.length : Int)
  dropped : r.stats.Dropped = 0
  cursor : ∃ j : Nat, r.seq = (j : Int) ∧ l0 ≤ j ∧ j ≤ es.length ∧
    r.stats.Sent = ((j - l0 : Nat) : Int) ∧ r.ch.delivered = (es.drop l0).take (j - l0) ∧
    (r.pc = .curSend → j < es.length ∧ es[j]? = some r.event ∧ r.ch.closed = false) ∧
    (r.pc = .curRelock → j < es.length ∧ r.ch.closed = false) ∧
    (r.pc = .exited → j = es.length ∧ r.ch.closed = true)

/-- The moves by which a consumer takes the `n` events that the goroutine of
`ReadCurrent` reader `id` has still to send: it starts a receive, the
goroutine sends the event it holds and, unless that was the last one, copies
the next event under the read lock. -/
def drain (id : Nat) : Nat → List Action
  | 0 => []
  | 1 => [.move id .recv, .move id .task]
  | n + 2 => [.move id .recv, .move id .task, .move id .task] ++ drain id (n + 1)

/-- One scan of `Status` over a list of events, in the order of the scan: the
time of the first event whose time is not zero, the zero time if there is
none; the scan panics at a nil event. -/
def scanTime : List EventRef → Option Time
  | [] => some 0
  | none :: _ => none
  | some e :: rest => if e.timestamp = 0 then scanTime rest else some e.timestamp

/-- How far the goroutine of `readFrom` is from the send of its next event:
the number of its own steps, without a write in between, from the point `pc`
to the `select` that sends. -/
def replayRank : Pc → Nat
  | .send => 0
  | .relock => 1
  | .upgrade => 2
  | _ => 3

/-- A system in a run without overwrite, in which `r` is the `ReadAll` reader
at position `id`, made when `last` was `l0`; `es` are the events written so
far. -/
structure Replaying (es : List EventRef) (id l0 : Nat) (s : System) (r : Reader) : Prop where
  sound : Sound s
  ring : RingInv s.b es
  reader : s.rs[id]? = some r
  inv : ReplayInv es l0 (decide (id ∈ s.b.readers)) r
  last : s.b.last = (l0 : Int)

/-! # Theorems -/

/-! ## The ring after a sequence of writes -/

theorem tmod_natCast (n C : Nat) : Int.tmod (n : Int) (C : Int) = ((n % C : Nat) : Int) := rfl

theorem load_natCast (a : List EventRef) (i : Nat) (h : i < a.length) :
    load a (i : Int) = a[i]? := by
  simp [load, h]

theorem store_natCast (a : List EventRef) (i : Nat) (v : EventRef) (h : i < a.length) :
    store a (i : Int) v = some (a.set i v) := by
  simp [store, h]

theorem mod_ne_of_lt_of_lt {k n C : Nat} (h1 : k < n) (h2 : n < k + C) : n % C ≠ k % C := by
  intro h
  have h3 : k ≡ n [MOD C] := h.symm
  have := h3.add_le_of_lt h1
  omega

theorem ringInv_new (c : Nat) (readers : List Nat) (sent dropped : Int) :
    RingInv ⟨0, 0, List.replicate c none, readers, sent, dropped⟩ [] := by
  constructor <;> simp

/-- The ring part of a write never panics on a state reached by writes, and it
yields the state reached by one more write. -/
theorem writeRing_inv {b : RingBuffer} {es : List EventRef} (h : RingInv b es) (e : EventRef) :
    ∃ b2, writeRing b e = some b2 ∧ RingInv b2 (es ++ [e]) ∧
      b2.buffer.length = b.buffer.length ∧ b2.readers = b.readers ∧
      b2.sent = b.sent ∧ b2.dropped = b.dropped := by
  obtain ⟨hn, hl, hs⟩ := h
  rcases Nat.eq_zero_or_pos b.buffer.length with hC | hC
  · refine ⟨{ b with next := b.next + 1, last := b.next + 1 }, ?_, ?_, rfl, rfl, rfl, rfl⟩
    · have : ¬ (0 < b.buffer.length) := by omega
      simp only [writeRing, this, if_false, hC]
      have h2 : b.last < b.next + 1 - ((0 : Nat) : Int) := by rw [hl, hn]; push_cast; omega
      simp only [Nat.cast_zero, sub_zero] at h2
      simp
      omega
    · constructor
      · simp [hn]
      · simp [hn, hC]
      · intro k h1 h2
        simp [hC] at h1 h2
        omega
  · have hlt : es.length % b.buffer.length < b.buffer.length := Nat.mod_lt _ hC
    refine ⟨{ b with buffer := b.buffer.set (es.length % b.buffer.length) e, next := b.next + 1,
                     last := if b.last < b.next + 1 - b.buffer.length
                             then b.next + 1 - b.buffer.length else b.last }, ?_, ?_, ?_, rfl, rfl, rfl⟩
    · simp only [writeRing, hC, if_true, hn, tmod_natCast, store_natCast _ _ _ hlt]
      rfl
    · constructor
      · simp [hn]
      · simp only [List.length_set, List.length_append, List.length_singleton, hl, hn]
        split_ifs with h3 <;> omega
      · intro k h1 h2
        simp only [List.length_set, List.length_append, List.length_singleton] at h1 h2 ⊢
        rcases Nat.lt_or_ge k es.length with h3 | h3
        · have hne : es.length % b.buffer.length ≠ k % b.buffer.length :=
            mod_ne_of_lt_of_lt h3 (by omega)
          rw [List.getElem?_set, if_neg hne, hs k (by omega) h3]
          simp [List.getElem?_append, h3]
        · have hk : k = es.length := by omega
          subst hk
          simp [List.getElem?_set, hlt]
    · simp

theorem RingInv.congr {b b2 : RingBuffer} {es : List EventRef} (h : RingInv b es)
    (hl : b2.last = b.last) (hn : b2.next = b.next) (hb : b2.buffer = b.buffer) :
    RingInv b2 es := by
  obtain ⟨h1, h2, h3⟩ := h
  constructor
  · rw [hn, h1]
  · rw [hl, hb, h2]
  · rw [hb]; exact h3

/-- One delivery changes no ring field and keeps the heap of readers in
place. -/
theorem deliver_eq {e : EventRef} {s s2 : System} {id : Nat} (h : deliver e s id = some s2) :
    ∃ r r2 sent, s.rs[id]? = some r ∧ r.offer e = some (r2, sent) ∧
      s2 = { b := if sent then { s.b with sent := s.b.sent + 1 }
                  else { s.b with dropped := s.b.dropped + 1 },
             rs := s.rs.set id r2 } := by
  unfold deliver at h
  cases hr : s.rs[id]? with
  | none => simp [hr] at h
  | some r =>
    simp only [hr, Option.bind_eq_bind, Option.some_bind] at h
    cases ho : r.offer e with
    | none => simp [ho] at h
    | some p =>
      obtain ⟨r2, sent⟩ := p
      simp only [ho, Option.some_bind, Option.some.injEq] at h
      exact ⟨r, r2, sent, rfl, ho, h.symm⟩

/-- One delivery changes no ring field and keeps the heap of readers in
place. -/
theorem deliver_ring {e : EventRef} {s s2 : System} {id : Nat} (h : deliver e s id = some s2) :
    s2.b.last = s.b.last ∧ s2.b.next = s.b.next ∧ s2.b.buffer = s.b.buffer ∧
      s2.b.readers = s.b.readers ∧ s2.rs.length = s.rs.length := by
  obtain ⟨r, r2, sent, -, -, rfl⟩ := deliver_eq h
  cases sent <;> simp

theorem fanout_ring {e : EventRef} (ids : List Nat) {s s2 : System}
    (h : ids.foldlM (deliver e) s = some s2) :
    s2.b.last = s.b.last ∧ s2.b.next = s.b.next ∧ s2.b.buffer = s.b.buffer ∧
      s2.b.readers = s.b.readers ∧ s2.rs.length = s.rs.length := by
  induction ids generalizing s with
  | nil => simp at h; cases h; simp
  | cons id ids ih =>
    rw [List.foldlM_cons] at h
    cases h1 : deliver e s id with
    | none => simp [h1] at h
    | some s1 =>
      simp only [h1, Option.bind_eq_bind, Option.some_bind] at h
      obtain ⟨a1, a2, a3, a4, a5⟩ := deliver_ring h1
      obtain ⟨c1, c2, c3, c4, c5⟩ := ih h
      exact ⟨c1.trans a1, c2.trans a2, c3.trans a3, c4.trans a4, c5.trans a5⟩

/-- A write that returns takes the ring from the state after `es` to the state
after `es ++ [e]`, whatever readers there are. -/
theorem Write_inv {s s2 : System} {es : List EventRef} {e : EventRef}
    (h : RingInv s.b es) (hw : Write s e = some s2) :
    RingInv s2.b (es ++ [e]) ∧ s2.b.buffer.length = s.b.buffer.length ∧
      s2.b.readers = s.b.readers ∧ s2.rs.length = s.rs.length := by
  obtain ⟨b2, hb, hi, hlen, hr, -, -⟩ := writeRing_inv h e
  simp only [Write, hb, Option.bind_eq_bind, Option.some_bind] at hw
  obtain ⟨c1, c2, c3, c4, c5⟩ := fanout_ring _ hw
  refine ⟨hi.congr c1 c2 c3, ?_, ?_, c5⟩
  · rw [c3]; exact hlen
  · rw [c4]; exact hr

/-- Without registered readers a write on a state reached by writes
returns. -/
theorem Write_noReaders {s : System} {es : List EventRef} (e : EventRef)
    (h : RingInv s.b es) (hr : s.b.readers = []) :
    ∃ s2, Write s e = some s2 ∧ s2.b.readers = [] ∧ s2.rs = s.rs := by
  obtain ⟨b2, hb, -, -, hr2, -, -⟩ := writeRing_inv h e
  refine ⟨{ s with b := b2 }, ?_, by simpa [hr] using hr2, rfl⟩
  simp [Write, hb, hr2, hr]

theorem writes_append (s : System) (es fs : List EventRef) :
    writes s (es ++ fs) = (writes s es).bind (fun s1 => writes s1 fs) := by
  simp [writes, List.foldlM_append]

theorem writes_inv {es : List EventRef} : ∀ {s s2 : System} {es0 : List EventRef},
    RingInv s.b es0 → writes s es = some s2 →
    RingInv s2.b (es0 ++ es) ∧ s2.b.buffer.length = s.b.buffer.length := by
  induction es with
  | nil =>
    intro s s2 es0 h hw
    simp [writes] at hw
    subst hw
    simpa using h
  | cons e es ih =>
    intro s s2 es0 h hw
    simp only [writes, List.foldlM_cons, Option.bind_eq_bind] at hw
    cases h1 : Write s e with
    | none => simp [h1] at hw
    | some s1 =>
      simp only [h1, Option.some_bind] at hw
      obtain ⟨a1, a2, -, -⟩ := Write_inv h h1
      obtain ⟨c1, c2⟩ := ih a1 hw
      refine ⟨by simpa using c1, c2.trans a2⟩

/-- A sequence of writes on a state without registered readers returns. -/
theorem writes_noReaders (es : List EventRef) : ∀ {s : System} {es0 : List EventRef},
    RingInv s.b es0 → s.b.readers = [] →
    ∃ s2, writes s es = some s2 ∧ s2.b.readers = [] ∧ s2.rs = s.rs := by
  induction es with
  | nil => intro s es0 _ hr; exact ⟨s, rfl, hr, rfl⟩
  | cons e es ih =>
    intro s es0 h hr
    obtain ⟨s1, h1, hr1, hrs1⟩ := Write_noReaders e h hr
    obtain ⟨a1, -⟩ := Write_inv h h1
    obtain ⟨s2, h2, hr2, hrs2⟩ := ih a1 hr1
    refine ⟨s2, ?_, hr2, hrs2.trans hrs1⟩
    simp only [writes, List.foldlM_cons, Option.bind_eq_bind, h1, Option.some_bind]
    exact h2

/-- What `NewRingBuffer` returns for a list of `WithCapacity` options: an
empty ring whose slots are all nil and no reader. -/
theorem NewRingBuffer_caps {caps : List Int} {b : RingBuffer}
    (h : NewRingBuffer (caps.map WithCapacity) = some b) :
    ∃ c : Nat, b = ⟨0, 0, List.replicate c none, [], 0, 0⟩ := by
  have key : ∀ (caps : List Int) (c : Nat) (b : RingBuffer),
      (caps.map WithCapacity).foldlM (fun b o => o b)
        (⟨0, 0, List.replicate c none, [], 0, 0⟩ : RingBuffer) = some b →
      ∃ c : Nat, b = ⟨0, 0, List.replicate c none, [], 0, 0⟩ := by
    intro caps
    induction caps with
    | nil => intro c b h; simp at h; exact ⟨c, h.symm⟩
    | cons a caps ih =>
      intro c b h
      simp only [List.map_cons, List.foldlM_cons, WithCapacity] at h
      by_cases ha : 0 ≤ a ∧ a * (ptrSize : Int) ≤ (maxAlloc : Int)
      · simp only [ha, and_self, if_true, Option.bind_eq_bind, Option.some_bind] at h
        exact ih a.toNat b h
      · simp [ha] at h
  exact key caps 0 b h

/-- What `NewRingBuffer(WithCapacity(c))` returns when it returns. -/
theorem NewRingBuffer_withCapacity {c : Nat} {b : RingBuffer}
    (h : NewRingBuffer [WithCapacity c] = some b) :
    b = ⟨0, 0, List.replicate c none, [], 0, 0⟩ := by
  by_cases ha : 0 ≤ (c : Int) ∧ (c : Int) * (ptrSize : Int) ≤ (maxAlloc : Int)
  · simp only [NewRingBuffer, List.foldlM_cons, List.foldlM_nil, WithCapacity, ha, and_self,
      if_true, Option.bind_eq_bind, Option.some_bind, Option.pure_def, Option.some.injEq,
      Int.toNat_ofNat] at h
    exact h.symm
  · simp [NewRingBuffer, WithCapacity, ha] at h
    exact h.2.symm

/-- The destination as `Buffer` sizes it before copying: as many elements as
are buffered, in an array of at least as many slots as the ring has. -/
theorem resize_fits {b : RingBuffer} {m : Nat} (hm : b.next - b.last = (m : Int))
    (hmC : m ≤ b.buffer.length) (dst : Slice)
    (hwf : dst.WF) (hfit : dst.cap < b.buffer.length ∨ dst.len ≤ m) :
    ∃ ev : Slice, resize b dst = some ev ∧ ev.len = m ∧ b.buffer.length ≤ ev.cap := by
  unfold resize
  rw [hm]
  by_cases h1 : dst.cap < b.buffer.length
  · refine ⟨⟨List.replicate b.buffer.length none, m⟩, ?_, rfl, by simp [Slice.cap]⟩
    have : (dst.cap : Int) < (b.buffer.length : Int) := by exact_mod_cast h1
    simp [this, makeSlice, hmC]
  · have h1b : ¬ (dst.cap : Int) < (b.buffer.length : Int) := by exact_mod_cast h1
    have hlen : dst.len ≤ m := by rcases hfit with h | h; exact absurd h h1; exact h
    simp only [h1b, if_false]
    by_cases h2 : dst.len < m
    · have h2b : (dst.len : Int) < (m : Int) := by exact_mod_cast h2
      have hk : ((m : Int) - (dst.len : Int)).toNat = m - dst.len := by omega
      have hk2 : ¬ ((m : Int) - (dst.len : Int) < 0) := by omega
      have hk3 : dst.len + (m - dst.len) ≤ dst.cap := by omega
      refine ⟨_, by simp only [h2b, if_true, appendNil, hk2, if_false, hk, hk3]; rfl, ?_, ?_⟩
      · simp; omega
      · simp only [Slice.cap, List.length_append, List.length_take, List.length_replicate,
          List.length_drop]
        have := hwf
        simp only [Slice.WF, Slice.cap] at this
        simp only [Slice.cap] at hk3 h1
        omega
    · have h2b : ¬ (dst.len : Int) < (m : Int) := by exact_mod_cast h2
      exact ⟨dst, by simp [h2b], by omega, by omega⟩

theorem bounds_natCast {lo hi cap : Nat} (h1 : lo ≤ hi) (h2 : hi ≤ cap) :
    bounds (lo : Int) (hi : Int) cap = some (lo, hi) := by
  simp [bounds, h1, h2]

theorem copyAt_backing (ev : Slice) (lo hi : Nat) (src : List EventRef)
    (h : src.length ≤ hi - lo) :
    (copyAt ev lo hi src).backing
      = ev.backing.take lo ++ src ++ ev.backing.drop (lo + src.length) := by
  simp [copyAt, min_eq_right h]

/-- While the ring is not full its first slots are the events written. -/
theorem take_buffer_eq {b : RingBuffer} {es : List EventRef} (h : RingInv b es)
    (hlt : es.length < b.buffer.length) : b.buffer.take es.length = es := by
  apply List.ext_getElem?
  intro i
  rw [List.getElem?_take]
  split_ifs with hi
  · have := h.slot i (by omega) hi
    rwa [Nat.mod_eq_of_lt (by omega)] at this
  · rw [List.getElem?_eq_none (by omega)]

theorem rotate_getElem? (buf : List EventRef) (h i : Nat) (hh : h < buf.length)
    (hi : i < buf.length) : (buf.drop h ++ buf.take h)[i]? = buf[(h + i) % buf.length]? := by
  rw [List.getElem?_append, List.length_drop]
  by_cases h1 : i < buf.length - h
  · rw [if_pos h1, List.getElem?_drop, Nat.mod_eq_of_lt (show h + i < buf.length by omega)]
  · rw [if_neg h1, List.getElem?_take, if_pos (show i - (buf.length - h) < h by omega),
      Nat.mod_eq_sub_mod (show h + i ≥ buf.length by omega),
      Nat.mod_eq_of_lt (show h + i - buf.length < buf.length by omega)]
    congr 1
    omega

/-- Once the ring is full, its slots read from the one `next` points at and
around the end are the last events written. -/
theorem rotate_buffer_eq {b : RingBuffer} {es : List EventRef} (h : RingInv b es)
    (hC : 0 < b.buffer.length) (hfull : b.buffer.length ≤ es.length) :
    b.buffer.drop (es.length % b.buffer.length) ++ b.buffer.take (es.length % b.buffer.length)
      = es.drop (es.length - b.buffer.length) := by
  have hh : es.length % b.buffer.length < b.buffer.length := Nat.mod_lt _ hC
  have e1 : (es.length - b.buffer.length) % b.buffer.length = es.length % b.buffer.length := by
    conv_rhs => rw [← Nat.sub_add_cancel hfull, Nat.add_mod_right]
  apply List.ext_getElem?
  intro i
  rw [List.getElem?_drop es]
  by_cases hi : i < b.buffer.length
  · have hk := h.slot (es.length - b.buffer.length + i) (by omega) (by omega)
    have hmod : (es.length - b.buffer.length + i) % b.buffer.length
        = (es.length % b.buffer.length + i) % b.buffer.length := by
      rw [Nat.add_mod, e1, Nat.mod_eq_of_lt hi]
    rw [hmod] at hk
    rw [← hk, rotate_getElem? _ _ _ hh hi]
  · rw [List.getElem?_eq_none (by simp; omega), List.getElem?_eq_none (by omega)]

theorem copyAt_elems_one (ev : Slice) (src : List EventRef) (h1 : src.length = ev.len) :
    (copyAt ev 0 ev.len src).elems = src := by
  rw [Slice.elems, copyAt_backing _ _ _ _ (by omega)]
  simp only [List.take_zero, List.nil_append, copyAt]
  exact List.take_left' h1

theorem copyAt_elems_two (ev : Slice) (src1 src2 : List EventRef) (d : Nat)
    (h1 : src1.length = d) (h2 : d + src2.length = ev.len) :
    (copyAt (copyAt ev 0 d src1) d ev.len src2).elems = src1 ++ src2 := by
  have hlen : (copyAt (copyAt ev 0 d src1) d ev.len src2).len = ev.len := rfl
  rw [Slice.elems, hlen, copyAt_backing _ _ _ _ (by omega), copyAt_backing _ _ _ _ (by omega)]
  simp only [List.take_zero, List.nil_append]
  rw [List.take_left' h1, List.append_assoc, ← List.append_assoc src1]
  exact List.take_left' (by simp; omega)

theorem copyAt_cap (ev : Slice) (lo hi : Nat) (src : List EventRef)
    (h : src.length ≤ hi - lo) (h2 : lo + src.length ≤ ev.cap) :
    (copyAt ev lo hi src).cap = ev.cap := by
  rw [Slice.cap, copyAt_backing _ _ _ _ h]
  simp only [Slice.cap] at h2 ⊢
  simp only [List.length_append, List.length_take, List.length_drop]
  omega

/-- The copy out of a ring reached by writes into a slice already sized to the
number of buffered events. -/
theorem copyOut_fits {b : RingBuffer} {es : List EventRef} (h : RingInv b es)
    (hC : 0 < b.buffer.length) (hne : es.length ≠ 0) (ev : Slice)
    (hlen : ev.len = es.length - (es.length - b.buffer.length))
    (hcap : b.buffer.length ≤ ev.cap) :
    ∃ r, copyOut b ev = some r ∧ r.elems = es.drop (es.length - b.buffer.length) ∧
      r.len = ev.len := by
  have hn := h.next_eq
  have hl := h.last_eq
  simp only [copyOut, hn, hl, tmod_natCast]
  rcases Nat.lt_or_ge es.length b.buffer.length with hfull | hfull
  · have e1 : es.length % b.buffer.length = es.length := Nat.mod_eq_of_lt hfull
    have e2 : es.length - b.buffer.length = 0 := by omega
    have hgt : ((es.length : Nat) : Int) > ((0 : Nat) : Int) := by omega
    simp only [e1, e2, Nat.zero_mod, hgt, if_true, bounds_natCast (Nat.zero_le _) (le_of_lt hfull)]
    refine ⟨_, rfl, ?_, rfl⟩
    simp only [Nat.sub_zero, List.drop_zero, take_buffer_eq h hfull]
    exact copyAt_elems_one ev es (by omega)
  · have e1 : (es.length - b.buffer.length) % b.buffer.length = es.length % b.buffer.length := by
      conv_rhs => rw [← Nat.sub_add_cancel hfull, Nat.add_mod_right]
    have hlt2 : es.length % b.buffer.length < b.buffer.length := Nat.mod_lt _ hC
    have hlenC : ev.len = b.buffer.length := by omega
    have e3 : (b.buffer.length : Int) - ((es.length % b.buffer.length : Nat) : Int)
        = ((b.buffer.length - es.length % b.buffer.length : Nat) : Int) := by omega
    have hb1 := bounds_natCast (Nat.zero_le (b.buffer.length - es.length % b.buffer.length))
      (show b.buffer.length - es.length % b.buffer.length ≤ ev.cap by omega)
    have hb2 := bounds_natCast (le_of_lt hlt2) (le_refl b.buffer.length)
    have hb4 := bounds_natCast (Nat.zero_le (es.length % b.buffer.length)) (le_of_lt hlt2)
    simp only [Nat.cast_zero] at hb1 hb4
    have htk : List.take (b.buffer.length - es.length % b.buffer.length)
        (List.drop (es.length % b.buffer.length) b.buffer)
          = List.drop (es.length % b.buffer.length) b.buffer :=
      List.take_of_length_le (by simp)
    simp only [e1, gt_iff_lt, lt_self_iff_false, if_false, e3, hb1, hb2, hb4,
      Option.bind_eq_bind, Option.some_bind, htk]
    have hlen1 : (copyAt ev 0 (b.buffer.length - es.length % b.buffer.length)
        (List.drop (es.length % b.buffer.length) b.buffer)).len = b.buffer.length := hlenC
    have hcap1 : (copyAt ev 0 (b.buffer.length - es.length % b.buffer.length)
        (List.drop (es.length % b.buffer.length) b.buffer)).cap = ev.cap :=
      copyAt_cap _ _ _ _ (by simp) (by simp; omega)
    have hb3 := bounds_natCast
      (show b.buffer.length - es.length % b.buffer.length ≤ b.buffer.length by omega)
      (show b.buffer.length ≤ ev.cap from hcap)
    rw [hlen1, hcap1, hb3]
    refine ⟨_, rfl, ?_, rfl⟩
    have key := copyAt_elems_two ev (List.drop (es.length % b.buffer.length) b.buffer)
      (List.take (es.length % b.buffer.length) b.buffer)
      (b.buffer.length - es.length % b.buffer.length) (by simp) (by simp; omega)
    rw [hlenC] at key
    rw [← rotate_buffer_eq h hC hfull]
    exact key

/-- On a state reached by writes, `Buffer` returns the buffered events, oldest
first, for every destination that is too small to be used or not longer than
the number of buffered events. -/
theorem Buffer_fits {b : RingBuffer} {es : List EventRef} (h : RingInv b es)
    (hC : 0 < b.buffer.length) (dst : Slice) (hwf : dst.WF)
    (hfit : dst.cap < b.buffer.length ∨ dst.len ≤ es.length - (es.length - b.buffer.length)) :
    ∃ r, Buffer b dst = some r ∧ r.elems = es.drop (es.length - b.buffer.length) ∧
      r.len = es.length - (es.length - b.buffer.length) := by
  have hC0 : b.buffer.length ≠ 0 := by omega
  by_cases hne : es.length = 0
  · refine ⟨Slice.nil, ?_, ?_, ?_⟩
    · have : b.last = b.next := by rw [h.last_eq, h.next_eq, hne]; simp
      simp [Buffer, hC0, this]
    · simp [Slice.elems, Slice.nil, List.length_eq_zero.mp hne]
    · simp [Slice.nil, hne]
  · have hlt : b.last ≠ b.next := by rw [h.last_eq, h.next_eq]; omega
    have hnl : b.next - b.last = ((es.length - (es.length - b.buffer.length) : Nat) : Int) := by
      rw [h.last_eq, h.next_eq]; omega
    obtain ⟨ev, hev, hlen, hcap⟩ := resize_fits hnl (by omega) dst hwf hfit
    obtain ⟨r, hr, hel, hrl⟩ := copyOut_fits h hC hne ev hlen hcap
    refine ⟨r, ?_, hel, hrl.trans hlen⟩
    simp [Buffer, hC0, hlt, hev, hr]

/-- The slot of a buffered sequence number, read the way the source indexes
it. -/
theorem load_slot {b : RingBuffer} {es : List EventRef} (h : RingInv b es) (k : Nat)
    (h1 : es.length - b.buffer.length ≤ k) (h2 : k < es.length) :
    load b.buffer (Int.tmod (k : Int) (b.buffer.length : Int)) = es[k]? := by
  have hC : 0 < b.buffer.length := by
    rcases Nat.eq_zero_or_pos b.buffer.length with h0 | h0
    · rw [h0] at h1; omega
    · exact h0
  rw [tmod_natCast, load_natCast _ _ (Nat.mod_lt _ hC)]
  exact h.slot k h1 h2

theorem firstNonZero_cons_zero {t : Time} (ts : List Time) (h : t.IsZero = true) :
    firstNonZero (t :: ts) = firstNonZero ts := by
  simp [firstNonZero, List.find?_cons, h]

theorem firstNonZero_cons_nonzero {t : Time} (ts : List Time) (h : ¬ t.IsZero = true) :
    firstNonZero (t :: ts) = t := by
  simp [firstNonZero, List.find?_cons, h]

theorem oldestTime_eq {b : RingBuffer} {evs : List Event} (h : RingInv b (evs.map some)) :
    ∀ (fuel k : Nat), evs.length - b.buffer.length ≤ k → evs.length - k ≤ fuel →
      oldestTime b fuel (k : Int) = some (firstNonZero ((evs.drop k).map Event.timestamp)) := by
  intro fuel
  induction fuel with
  | zero =>
    intro k _ h2
    have : evs.drop k = [] := List.drop_eq_nil_iff.mpr (by omega)
    simp [oldestTime, this, firstNonZero]
  | succ fuel ih =>
    intro k h1 h2
    have hn := h.next_eq
    simp only [List.length_map] at hn
    by_cases hk : k < evs.length
    · have hlt : (k : Int) < b.next := by rw [hn]; exact_mod_cast hk
      have hl := load_slot h k (by simpa using h1) (by simpa using hk)
      have hd : evs.drop k = evs[k] :: evs.drop (k + 1) := List.drop_eq_getElem_cons hk
      simp only [oldestTime, hlt, if_true, hl, List.getElem?_map, List.getElem?_eq_getElem hk,
        Option.map_some', Option.bind_eq_bind, Option.some_bind, eventTime]
      rw [hd, List.map_cons]
      by_cases hz : (evs[k].timestamp).IsZero = true
      · have := ih (k + 1) (by omega) (by omega)
        simp only [Nat.cast_add, Nat.cast_one] at this
        rw [firstNonZero_cons_zero _ hz, ← this]
        simp [hz]
      · rw [firstNonZero_cons_nonzero _ hz]
        simp [hz]
    · have hlt : ¬ (k : Int) < b.next := by rw [hn]; exact_mod_cast hk
      have : evs.drop k = [] := List.drop_eq_nil_iff.mpr (by omega)
      simp [oldestTime, hlt, this, firstNonZero]

theorem newestTime_eq {b : RingBuffer} {evs : List Event} (h : RingInv b (evs.map some)) :
    ∀ (fuel k : Nat), evs.length - b.buffer.length ≤ k → k ≤ evs.length →
      k - (evs.length - b.buffer.length) ≤ fuel →
      newestTime b fuel ((k : Int) - 1)
        = some (firstNonZero ((((evs.take k).drop (evs.length - b.buffer.length)).reverse).map
            Event.timestamp)) := by
  intro fuel
  induction fuel with
  | zero =>
    intro k h1 _ h3
    have : (evs.take k).drop (evs.length - b.buffer.length) = [] :=
      List.drop_eq_nil_iff.mpr (by simp; omega)
    simp [newestTime, this, firstNonZero]
  | succ fuel ih =>
    intro k h1 h2 h3
    have hl0 := h.last_eq
    simp only [List.length_map] at hl0
    by_cases hk : evs.length - b.buffer.length < k
    · obtain ⟨j, rfl⟩ : ∃ j, k = j + 1 := ⟨k - 1, by omega⟩
      have hge : ((j + 1 : Nat) : Int) - 1 ≥ b.last := by rw [hl0]; omega
      have hcast : ((j + 1 : Nat) : Int) - 1 = (j : Int) := by omega
      have hj : j < evs.length := by omega
      have hl := load_slot h j (by simp; omega) (by simpa using hj)
      have ht : (evs.take (j + 1)).drop (evs.length - b.buffer.length)
          = (evs.take j).drop (evs.length - b.buffer.length) ++ [evs[j]] := by
        rw [List.take_succ, List.getElem?_eq_getElem hj, Option.toList_some,
          List.drop_append_of_le_length (by simp; omega)]
      rw [newestTime, if_pos hge, hcast, hl]
      simp only [List.getElem?_map, List.getElem?_eq_getElem hj,
        Option.map_some', Option.bind_eq_bind, Option.some_bind, eventTime]
      rw [ht, List.reverse_append, List.reverse_singleton, List.singleton_append, List.map_cons]
      by_cases hz : (evs[j].timestamp).IsZero = true
      · have := ih j (by omega) (by omega) (by omega)
        rw [firstNonZero_cons_zero _ hz, ← this]
        simp [hz]
      · rw [firstNonZero_cons_nonzero _ hz]
        simp [hz]
    · have hge : ¬ ((k : Int) - 1 ≥ b.last) := by rw [hl0]; omega
      have : (evs.take k).drop (evs.length - b.buffer.length) = [] :=
        List.drop_eq_nil_iff.mpr (by simp; omega)
      simp [newestTime, hge, this, firstNonZero]

/-- On a state reached by writing events, `Status` returns: the two counts and
the first non-zero times of the buffered events, read forwards and
backwards. -/
theorem Status_eq {b : RingBuffer} {evs : List Event} (h : RingInv b (evs.map some)) :
    Status b = some
      { NumEvents := ((evs.drop (evs.length - b.buffer.length)).length : Int),
        SeenEvents := (evs.length : Int),
        OldestEventTime :=
          firstNonZero ((evs.drop (evs.length - b.buffer.length)).map Event.timestamp),
        NewestEventTime :=
          firstNonZero ((evs.drop (evs.length - b.buffer.length)).reverse.map Event.timestamp) } := by
  have hn := h.next_eq
  have hl := h.last_eq
  simp only [List.length_map] at hn hl
  have hnl : b.next - b.last = ((evs.length - (evs.length - b.buffer.length) : Nat) : Int) := by
    rw [hn, hl]; omega
  have h1 := oldestTime_eq h (evs.length - (evs.length - b.buffer.length))
    (evs.length - b.buffer.length) (le_refl _) (le_refl _)
  have h2 := newestTime_eq h (evs.length - (evs.length - b.buffer.length)) evs.length
    (by omega) (le_refl _) (le_refl _)
  rw [List.take_length] at h2
  rw [← hl] at h1
  rw [← hn] at h2
  unfold Status
  rw [hnl, Int.toNat_ofNat, h1, h2]
  simp [hn]

/-! ## Steps of the system -/

theorem add_eq {s s2 : System} {made : Option (Reader × Reg)} (h : s.add made = some s2) :
    ∃ r g, made = some (r, g) ∧
      s2 = ⟨{ s.b with readers := g.apply s.b.readers s.rs.length }, s.rs ++ [r]⟩ := by
  cases made with
  | none => simp [System.add] at h
  | some p =>
    obtain ⟨r, g⟩ := p
    simp only [System.add, Option.bind_eq_bind, Option.some_bind, Option.some.injEq] at h
    exact ⟨r, g, rfl, h.symm⟩

theorem move_eq {s s2 : System} {id : Nat} {m : Move} (h : step s (.move id m) = some s2) :
    ∃ r r2 g, s.rs[id]? = some r ∧ r.move s.b (decide (id ∈ s.b.readers)) m = some (r2, g) ∧
      s2 = ⟨{ s.b with readers := g.apply s.b.readers id }, s.rs.set id r2⟩ := by
  simp only [step] at h
  cases hr : s.rs[id]? with
  | none => simp [hr] at h
  | some r =>
    simp only [hr, Option.bind_eq_bind, Option.some_bind] at h
    cases hm : r.move s.b (decide (id ∈ s.b.readers)) m with
    | none => simp [hm] at h
    | some p =>
      obtain ⟨r2, g⟩ := p
      simp only [hm, Option.some_bind, Option.some.injEq] at h
      exact ⟨r, r2, g, rfl, hm, h.symm⟩

/-- The three shapes of a step: a write, a constructor that adds a reader at
the end of the heap, a move of one reader. -/
theorem step_cases {s s2 : System} {a : Action} (h : step s a = some s2) :
    (∃ e, a = .write e ∧ Write s e = some s2) ∨
    (∃ (r : Reader) (g : Reg), (∀ e, a ≠ .write e) ∧ (∀ id m, a ≠ .move id m) ∧
      Made s.b (r, g) ∧
      s2 = ⟨{ s.b with readers := g.apply s.b.readers s.rs.length }, s.rs ++ [r]⟩) ∨
    (∃ (id : Nat) (m : Move) (r r2 : Reader) (g : Reg), a = .move id m ∧ s.rs[id]? = some r ∧
      r.move s.b (decide (id ∈ s.b.readers)) m = some (r2, g) ∧
      s2 = ⟨{ s.b with readers := g.apply s.b.readers id }, s.rs.set id r2⟩) := by
  cases a with
  | write e => exact Or.inl ⟨e, rfl, h⟩
  | move id m =>
    obtain ⟨r, r2, g, h1, h2, h3⟩ := move_eq h
    exact Or.inr (Or.inr ⟨id, m, r, r2, g, rfl, h1, h2, h3⟩)
  | readNew k =>
    obtain ⟨r, g, h1, h2⟩ := add_eq h
    exact Or.inr (Or.inl ⟨r, g, by simp, by simp, Or.inl ⟨k, h1⟩, h2⟩)
  | readAll k =>
    obtain ⟨r, g, h1, h2⟩ := add_eq h
    exact Or.inr (Or.inl ⟨r, g, by simp, by simp, Or.inr (Or.inl ⟨k, h1⟩), h2⟩)
  | readCurrent k =>
    obtain ⟨r, g, h1, h2⟩ := add_eq h
    exact Or.inr (Or.inl ⟨r, g, by simp, by simp, Or.inr (Or.inr (Or.inl ⟨k, h1⟩)), h2⟩)
  | readSince t k =>
    obtain ⟨r, g, h1, h2⟩ := add_eq h
    exact Or.inr (Or.inl ⟨r, g, by simp, by simp, Or.inr (Or.inr (Or.inr ⟨t, k, h1⟩)), h2⟩)

theorem writtenBy_cons_write (e : EventRef) (acts : List Action) :
    writtenBy (.write e :: acts) = e :: writtenBy acts := by
  simp [writtenBy]

theorem writtenBy_cons_other {a : Action} (acts : List Action) (h : ∀ e, a ≠ .write e) :
    writtenBy (a :: acts) = writtenBy acts := by
  cases a <;> simp [writtenBy] at h ⊢

theorem writtenBy_append (xs ys : List Action) :
    writtenBy (xs ++ ys) = writtenBy xs ++ writtenBy ys := by
  simp [writtenBy]

/-- Only a write changes `last`, `next` and the slots. -/
theorem step_ring {s s2 : System} {a : Action} (h : step s a = some s2)
    (hw : ∀ e, a ≠ .write e) :
    s2.b.last = s.b.last ∧ s2.b.next = s.b.next ∧ s2.b.buffer = s.b.buffer := by
  rcases step_cases h with ⟨e, rfl, -⟩ | ⟨r, g, -, -, -, rfl⟩ | ⟨id, m, r, r2, g, -, -, -, rfl⟩
  · exact absurd rfl (hw e)
  · exact ⟨rfl, rfl, rfl⟩
  · exact ⟨rfl, rfl, rfl⟩

theorem step_ringInv {s s2 : System} {a : Action} {es : List EventRef} (hi : RingInv s.b es)
    (h : step s a = some s2) :
    RingInv s2.b (es ++ writtenBy [a]) ∧ s2.b.buffer.length = s.b.buffer.length := by
  by_cases hw : ∃ e, a = .write e
  · obtain ⟨e, rfl⟩ := hw
    obtain ⟨h1, h2, -, -⟩ := Write_inv hi h
    exact ⟨by simpa [writtenBy] using h1, h2⟩
  · have hw2 : ∀ e, a ≠ .write e := fun e he => hw ⟨e, he⟩
    obtain ⟨h1, h2, h3⟩ := step_ring h hw2
    rw [writtenBy_cons_other _ hw2]
    exact ⟨by simpa [writtenBy] using hi.congr h1 h2 h3, by rw [h3]⟩

theorem run_cons (s : System) (a : Action) (acts : List Action) :
    run s (a :: acts) = (step s a).bind (fun s1 => run s1 acts) := by
  simp [run, List.foldlM_cons]

theorem run_append (s : System) (xs ys : List Action) :
    run s (xs ++ ys) = (run s xs).bind (fun s1 => run s1 ys) := by
  simp [run, List.foldlM_append]

/-- A property kept by every step is kept by every run. -/
theorem run_induction {P : System → List Action → Prop} {s0 : System}
    (h0 : P s0 [])
    (hstep : ∀ s acts a s2, run s0 acts = some s → P s acts → step s a = some s2 →
      P s2 (acts ++ [a]))
    {acts : List Action} {s : System} (h : run s0 acts = some s) : P s acts := by
  induction acts using List.reverseRecOn generalizing s with
  | nil => simp [run] at h; subst h; exact h0
  | append_singleton acts a ih =>
    rw [run_append] at h
    cases h1 : run s0 acts with
    | none => simp [h1] at h
    | some s1 =>
      simp only [h1, Option.some_bind, run_cons] at h
      cases h2 : step s1 a with
      | none => simp [h2] at h
      | some s2 =>
        simp [h2, run] at h
        subst h
        exact hstep s1 acts a s2 h1 (ih h1) h2

theorem run_ringInv {s0 : System} {es0 : List EventRef} (hi : RingInv s0.b es0)
    {acts : List Action} {s : System} (h : run s0 acts = some s) :
    RingInv s.b (es0 ++ writtenBy acts) ∧ s.b.buffer.length = s0.b.buffer.length := by
  refine run_induction (P := fun s acts =>
    RingInv s.b (es0 ++ writtenBy acts) ∧ s.b.buffer.length = s0.b.buffer.length) ?_ ?_ h
  · exact ⟨by simpa [writtenBy] using hi, rfl⟩
  · intro s acts a s2 _ ⟨h1, h2⟩ hs
    obtain ⟨h3, h4⟩ := step_ringInv h1 hs
    exact ⟨by simpa [writtenBy_append, List.append_assoc] using h3, h4.trans h2⟩

theorem newSystem_eq {caps : List Int} {s0 : System} (h : newSystem caps = some s0) :
    ∃ c : Nat, s0 = ⟨⟨0, 0, List.replicate c none, [], 0, 0⟩, []⟩ := by
  unfold newSystem at h
  cases hb : NewRingBuffer (caps.map WithCapacity) with
  | none => simp [hb] at h
  | some b =>
    obtain ⟨c, rfl⟩ := NewRingBuffer_caps hb
    simp [hb] at h
    exact ⟨c, h.symm⟩

theorem runNew_eq {caps : List Int} {acts : List Action} {s : System}
    (h : runNew caps acts = some s) :
    ∃ s0, newSystem caps = some s0 ∧ run s0 acts = some s := by
  unfold runNew at h
  cases h0 : newSystem caps with
  | none => simp [h0] at h
  | some s0 => exact ⟨s0, rfl, by simpa [h0] using h⟩

/-- The ring of a system reached from `NewRingBuffer` is the ring after the
events its actions wrote. -/
theorem runNew_ringInv {caps : List Int} {acts : List Action} {s : System}
    (h : runNew caps acts = some s) : RingInv s.b (writtenBy acts) := by
  obtain ⟨s0, h0, h1⟩ := runNew_eq h
  obtain ⟨c, rfl⟩ := newSystem_eq h0
  simpa using (run_ringInv (ringInv_new c [] 0 0) h1).1

theorem run_writes (s : System) (es : List EventRef) :
    run s (es.map Action.write) = writes s es := by
  induction es generalizing s with
  | nil => rfl
  | cons e es ih =>
    simp only [List.map_cons, run_cons, writes, List.foldlM_cons, step]
    cases Write s e with
    | none => rfl
    | some s1 => exact ih s1

theorem writtenBy_map_write (es : List EventRef) : writtenBy (es.map Action.write) = es := by
  induction es with
  | nil => rfl
  | cons e es ih => rw [List.map_cons, writtenBy_cons_write, ih]

/-- The system that `NewRingBuffer(WithCapacity(c))` makes when it returns. -/
theorem newSystem_withCapacity {c : Nat} {s0 : System} (h0 : newSystem [(c : Int)] = some s0) :
    s0 = ⟨⟨0, 0, List.replicate c none, [], 0, 0⟩, []⟩ := by
  unfold newSystem at h0
  cases hb : NewRingBuffer ([(c : Int)].map WithCapacity) with
  | none => rw [hb] at h0; cases h0
  | some b =>
    have := NewRingBuffer_withCapacity hb
    subst this
    rw [hb] at h0
    exact (Option.some.inj h0).symm

/-- Writes alone, on a new buffer, always return. -/
theorem runNew_writes {c : Nat} {s0 : System} (h0 : newSystem [(c : Int)] = some s0)
    (es : List EventRef) :
    ∃ s, runNew [(c : Int)] (es.map Action.write) = some s := by
  have := newSystem_withCapacity h0
  subst this
  obtain ⟨s, hs, -, -⟩ := writes_noReaders es
    (s := ⟨⟨0, 0, List.replicate c none, [], 0, 0⟩, []⟩) (ringInv_new c [] 0 0) rfl
  exact ⟨s, by simp [runNew, h0, run_writes, hs]⟩

theorem runNew_capacity {c : Nat} {acts : List Action} {s : System}
    (h : runNew [(c : Int)] acts = some s) : s.b.buffer.length = c := by
  obtain ⟨s0, h0, h1⟩ := runNew_eq h
  have := newSystem_withCapacity h0
  subst this
  simpa using (run_ringInv (ringInv_new c [] 0 0) h1).2

theorem firstNonZero_of_zeros (ts : List Time) (h : ∀ t ∈ ts, t = 0) : firstNonZero ts = 0 := by
  induction ts with
  | nil => rfl
  | cons t ts ih =>
    have ht : t.IsZero = true := by simp [Time.IsZero, h t (by simp)]
    rw [firstNonZero_cons_zero _ ht]
    exact ih (fun u hu => h u (by simp [hu]))

theorem firstNonZero_at (ts : List Time) : ∀ (i : Nat) (t : Time), ts[i]? = some t → t ≠ 0 →
    (∀ j, j < i → ts[j]? = some 0) → firstNonZero ts = t := by
  induction ts with
  | nil => intro i t h; simp at h
  | cons u ts ih =>
    intro i t h ht hz
    cases i with
    | zero =>
      simp only [List.getElem?_cons_zero, Option.some.injEq] at h
      subst h
      exact firstNonZero_cons_nonzero _ (by simp [Time.IsZero, ht])
    | succ i =>
      have hu : u = 0 := by simpa using hz 0 (by omega)
      rw [firstNonZero_cons_zero _ (by simp [Time.IsZero, hu])]
      exact ih i t (by simpa using h) ht (fun j hj => by simpa using hz (j + 1) (by omega))

/-! ## The invariant of the readers -/

theorem mem_insertReader {readers : List Nat} {id j : Nat} :
    j ∈ insertReader readers id ↔ j = id ∨ j ∈ readers := by
  unfold insertReader
  split_ifs with h
  · constructor
    · exact Or.inr
    · rintro (rfl | h2)
      · exact h
      · exact h2
  · simp

theorem mem_deleteReader {readers : List Nat} {id j : Nat} :
    j ∈ deleteReader readers id ↔ j ≠ id ∧ j ∈ readers := by
  simp [deleteReader, and_comm]

theorem mem_apply {g : Reg} {readers : List Nat} {id j : Nat} :
    j ∈ g.apply readers id ↔
      (j = id ∧ g.after (decide (id ∈ readers)) = true) ∨ (j ≠ id ∧ j ∈ readers) := by
  cases g
  · simp only [Reg.apply, Reg.after, decide_eq_true_eq]
    by_cases h : j = id
    · subst h; simp
    · simp [h]
  · simp only [Reg.apply, Reg.after, mem_insertReader]
    by_cases h : j = id
    · subst h; simp
    · simp [h]
  · simp only [Reg.apply, Reg.after, mem_deleteReader]
    by_cases h : j = id
    · subst h; simp
    · simp [h]

theorem nodup_apply {g : Reg} {readers : List Nat} (id : Nat) (h : readers.Nodup) :
    (g.apply readers id).Nodup := by
  cases g
  · exact h
  · simp only [Reg.apply, insertReader]
    split_ifs with h1
    · exact h
    · exact List.nodup_cons.mpr ⟨h1, h⟩
  · exact h.filter _

theorem makeChan_eq {k : Int} {c : Chan} (h : makeChan k = some c) :
    c = ⟨k.toNat, [], 0, [], false⟩ := by
  unfold makeChan at h
  split_ifs at h
  exact (Option.some.inj h).symm

theorem ReadNew_eq {k : Int} {p : Reader × Reg} (h : ReadNew k = some p) :
    p = (newReader .new ⟨k.toNat, [], 0, [], false⟩ true .exited 0 0 none, .insert) := by
  unfold ReadNew at h
  cases hc : makeChan k with
  | none => simp [hc] at h
  | some c =>
    rw [makeChan_eq hc] at hc
    simp [hc] at h
    exact h.symm

theorem readFrom_eq {seq k : Int} {p : Reader × Reg} (h : readFrom seq k = some p) :
    p = (newReader .from ⟨k.toNat, [], 0, [], false⟩ false .top seq 0 none, .keep) := by
  unfold readFrom at h
  cases hc : makeChan k with
  | none => simp [hc] at h
  | some c =>
    rw [makeChan_eq hc] at hc
    simp [hc] at h
    exact h.symm

/-- The readers the constructors make: one of four forms. -/
theorem made_cases {b : RingBuffer} {r : Reader} {g : Reg} (h : Made b (r, g)) :
    (∃ k : Int, r = newReader .new ⟨k.toNat, [], 0, [], false⟩ true .exited 0 0 none ∧
      g = .insert) ∨
    (∃ seq k : Int, r = newReader .from ⟨k.toNat, [], 0, [], false⟩ false .top seq 0 none ∧
      g = .keep) ∨
    (∃ k : Int, r = newReader .currentEmpty ⟨k.toNat, [], 0, [], true⟩ true .exited 0 0 none ∧
      g = .keep) ∨
    (∃ (k : Int) (event : EventRef),
      r = newReader .current ⟨k.toNat, [], 0, [], false⟩ true .curSend b.last b.next event ∧
      g = .keep) := by
  rcases h with ⟨k, h⟩ | ⟨k, h⟩ | ⟨k, h⟩ | ⟨t, k, h⟩
  · have := ReadNew_eq h
    simp only [Prod.mk.injEq] at this
    exact Or.inl ⟨k, this.1, this.2⟩
  · unfold ReadAll at h
    split_ifs at h
    · have := ReadNew_eq h
      simp only [Prod.mk.injEq] at this
      exact Or.inl ⟨k, this.1, this.2⟩
    · have := readFrom_eq h
      simp only [Prod.mk.injEq] at this
      exact Or.inr (Or.inl ⟨_, k, this.1, this.2⟩)
  · unfold ReadCurrent at h
    cases hc : makeChan k with
    | none => simp [hc] at h
    | some c =>
      rw [makeChan_eq hc] at hc
      simp only [hc, Option.bind_eq_bind, Option.some_bind, Chan.close, Bool.false_eq_true,
        if_false] at h
      by_cases h1 : b.buffer.length = 0
      · simp only [h1, if_true, Option.some.injEq, Prod.mk.injEq] at h
        exact Or.inr (Or.inr (Or.inl ⟨k, h.1.symm, h.2.symm⟩))
      · simp only [h1, if_false] at h
        by_cases h2 : b.last = b.next
        · simp only [h2, if_true, Option.some.injEq, Prod.mk.injEq] at h
          exact Or.inr (Or.inr (Or.inl ⟨k, h.1.symm, h.2.symm⟩))
        · simp only [h2, if_false] at h
          cases hl : load b.buffer (Int.tmod b.last b.buffer.length) with
          | none => simp [hl] at h
          | some event =>
            simp only [hl, Option.some_bind, Option.some.injEq, Prod.mk.injEq] at h
            exact Or.inr (Or.inr (Or.inr ⟨k, event, h.1.symm, h.2.symm⟩))
  · unfold ReadSince at h
    split_ifs at h
    · have := ReadNew_eq h
      simp only [Prod.mk.injEq] at this
      exact Or.inl ⟨k, this.1, this.2⟩
    · cases hq : sinceSeq b t with
      | none => simp [hq] at h
      | some q =>
        simp only [hq, Option.bind_eq_bind, Option.some_bind] at h
        have := readFrom_eq h
        simp only [Prod.mk.injEq] at this
        exact Or.inr (Or.inl ⟨_, k, this.1, this.2⟩)

theorem made_ok {b : RingBuffer} {r : Reader} {g : Reg} (h : Made b (r, g)) :
    g ≠ .delete ∧ r.ok (g.after false) := by
  rcases made_cases h with ⟨k, rfl, rfl⟩ | ⟨q, k, rfl, rfl⟩ | ⟨k, rfl, rfl⟩ | ⟨k, e, rfl, rfl⟩ <;>
    simp [Reader.ok, newReader, Reg.after]


theorem trySend_sent {c c2 : Chan} {v : EventRef} (h : c.trySend v = .sent c2)
    (hq : c.receivers = 0 ∨ c.queue = []) :
    c.closed = false ∧ c.canAccept = true ∧ c2.closed = false ∧ c2.capacity = c.capacity ∧
      c2.delivered = c.delivered ++ [v] ∧ (c2.receivers = 0 ∨ c2.queue = []) := by
  unfold Chan.trySend at h
  split_ifs at h with h1 h2 h3
  · simp only [SendResult.sent.injEq] at h
    subst h
    have hq2 : c.queue = [] := by rcases hq with h | h; omega; exact h
    simp [Chan.canAccept, Chan.delivered, h2, hq2, h1]
  · simp only [SendResult.sent.injEq] at h
    subst h
    have hr : c.receivers = 0 := by omega
    simp [Chan.canAccept, Chan.delivered, h3, hr, h1]

theorem trySend_wouldBlock {c : Chan} {v : EventRef} (h : c.trySend v = .wouldBlock) :
    c.closed = false ∧ c.canAccept = false := by
  unfold Chan.trySend at h
  split_ifs at h with h1 h2 h3
  simp [Chan.canAccept, h1, h2, h3]

/-- What the loop body of `Write` does to a reader: nothing but the channel
and the statistics change; the event is put on the channel and counted as
sent when the channel can take it, and counted as dropped otherwise. -/
theorem offer_eq {r r2 : Reader} {e : EventRef} {sent : Bool} (h : r.offer e = some (r2, sent))
    (hq : r.ch.receivers = 0 ∨ r.ch.queue = []) :
    r2.kind = r.kind ∧ r2.pc = r.pc ∧ r2.cancel = r.cancel ∧ r2.done = r.done ∧
      r2.ready = r.ready ∧ r2.seq = r.seq ∧ r2.last = r.last ∧ r2.event = r.event ∧
      r2.ch.closed = false ∧ r.ch.closed = false ∧ r2.ch.capacity = r.ch.capacity ∧
      (r2.ch.receivers = 0 ∨ r2.ch.queue = []) ∧
      sent = r.ch.canAccept ∧
      (sent = true → r2.ch.delivered = r.ch.delivered ++ [e] ∧
        r2.stats = ⟨r.stats.Sent + 1, r.stats.Dropped⟩) ∧
      (sent = false → r2.ch = r.ch ∧ r2.stats = ⟨r.stats.Sent, r.stats.Dropped + 1⟩) := by
  unfold Reader.offer at h
  split at h
  · rename_i c hc
    obtain ⟨h1, h2, h3, h4, h5, h6⟩ := trySend_sent hc hq
    simp only [Option.some.injEq, Prod.mk.injEq] at h
    obtain ⟨rfl, rfl⟩ := h
    simp [h1, h2, h3, h4, h5, h6]
  · rename_i hc
    obtain ⟨h1, h2⟩ := trySend_wouldBlock hc
    simp only [Option.some.injEq, Prod.mk.injEq] at h
    obtain ⟨rfl, rfl⟩ := h
    simp [h1, h2, hq]
  · cases h

theorem offer_ok {r r2 : Reader} {e : EventRef} {sent : Bool} {reg : Bool}
    (h : r.offer e = some (r2, sent)) (hok : r.ok reg) : r2.ok reg := by
  obtain ⟨h1, h2, h3, h4, h5, h6⟩ := hok
  obtain ⟨a1, a2, a3, -, -, -, -, -, a9, -, -, a12, -⟩ := offer_eq h h6
  refine ⟨?_, ?_, ?_, ?_, ?_, a12⟩
  · intro hr; rw [a1, a2]; exact ⟨(h1 hr).1, a9, (h1 hr).2.2⟩
  · rw [a1, a3]; exact h2
  · intro _; exact a9
  · rw [a1, a2]; exact h4
  · rw [a1, a2]; exact h5

/-- A registered reader whose channel is open is always served by `Write`. -/
theorem offer_total (r : Reader) (e : EventRef) (h : r.ch.closed = false) :
    ∃ r2 sent, r.offer e = some (r2, sent) := by
  unfold Reader.offer Chan.trySend
  simp only [h, Bool.false_eq_true, if_false]
  split_ifs <;> simp

theorem replayCopy_eq {b : RingBuffer} {r r2 : Reader} (h : replayCopy b r = some r2) :
    ∃ event, r2 = { r with
        stats := ⟨r.stats.Sent, if r.seq < b.last then r.stats.Dropped + (b.last - r.seq)
                                else r.stats.Dropped⟩,
        seq := if r.seq < b.last then b.last else r.seq,
        event := event, pc := .send } ∧
      load b.buffer (Int.tmod (if r.seq < b.last then b.last else r.seq) b.buffer.length)
        = some event := by
  unfold replayCopy at h
  by_cases hlt : r.seq < b.last
  · simp only [hlt, if_true, Option.bind_eq_bind] at h ⊢
    cases hl : load b.buffer (Int.tmod b.last b.buffer.length) with
    | none => simp [hl] at h
    | some event =>
      simp only [hl, Option.some_bind, Option.some.injEq] at h
      exact ⟨event, h.symm, rfl⟩
  · simp only [hlt, if_false, Option.bind_eq_bind] at h ⊢
    cases hl : load b.buffer (Int.tmod r.seq b.buffer.length) with
    | none => simp [hl] at h
    | some event =>
      simp only [hl, Option.some_bind, Option.some.injEq] at h
      exact ⟨event, h.symm, rfl⟩

theorem close_eq {c c2 : Chan} (h : c.close = some c2) :
    c.closed = false ∧ c2 = { c with closed := true, receivers := 0 } := by
  unfold Chan.close at h
  split_ifs at h with h1
  exact ⟨by simpa using h1, (Option.some.inj h).symm⟩

theorem recv_ok (c : Chan) (hq : c.receivers = 0 ∨ c.queue = []) :
    c.recv.closed = c.closed ∧ (c.recv.receivers = 0 ∨ c.recv.queue = []) := by
  unfold Chan.recv
  split
  · rename_i v rest hv
    have : c.receivers = 0 := by rcases hq with h | h; exact h; simp [hv] at h
    simp [this]
  · rename_i hv
    split_ifs <;> simp [hv, hq]

theorem stopRecv_ok {c c2 : Chan} (h : c.stopRecv = some c2)
    (hq : c.receivers = 0 ∨ c.queue = []) :
    c2.closed = c.closed ∧ (c2.receivers = 0 ∨ c2.queue = []) := by
  unfold Chan.stopRecv at h
  split_ifs at h with h1
  have := (Option.some.inj h).symm
  subst this
  have : c.queue = [] := by rcases hq with h | h; omega; exact h
  simp [this]

/-- The cases of a step of the cancel function. -/
theorem cancelStep_cases {reg : Bool} {r r2 : Reader} {g : Reg}
    (h : cancelStep reg r = some (r2, g)) :
    r.ready = true ∧
    ((r.kind = .currentEmpty ∧ r2 = { r with cancel := .returned ⟨0, 0⟩ } ∧ g = .keep) ∨
     (r.kind = .current ∧ r.cancel = .notCalled ∧ r.done = false ∧
        r2 = { r with done := true, cancel := .returned r.stats } ∧ g = .keep) ∨
     (r.kind = .new ∧ r.cancel = .notCalled ∧ reg = true ∧
        r2 = { r with cancel := .unlocked (some r.stats) } ∧ g = .delete) ∨
     (r.kind = .new ∧ r.ch.closed = false ∧ ∃ copy, r.cancel = .unlocked (some copy) ∧
        r2 = { r with ch := { r.ch with closed := true, receivers := 0 },
                      cancel := .returned copy } ∧ g = .keep) ∨
     (r.kind = .from ∧ r.cancel = .notCalled ∧
        r2 = { r with cancel := .unlocked none } ∧ g = .delete) ∨
     (r.kind = .from ∧ r.done = false ∧ (∃ u, r.cancel = .unlocked u) ∧
        r2 = { r with done := true, cancel := .returned r.stats } ∧ g = .keep)) := by
  unfold cancelStep at h
  by_cases hr : r.ready = true
  · refine ⟨hr, ?_⟩
    have hnr : ¬ ((!r.ready) = true) := by simp [hr]
    rw [if_neg hnr] at h
    split at h
    · rename_i hk
      simp only [Option.some.injEq, Prod.mk.injEq] at h
      exact Or.inl ⟨hk, h.1.symm, h.2.symm⟩
    · rename_i hk hc
      by_cases hd : r.done = true
      · rw [if_pos hd] at h; cases h
      · rw [if_neg hd] at h
        simp only [Option.some.injEq, Prod.mk.injEq] at h
        exact Or.inr (Or.inl ⟨hk, hc, by simpa using hd, h.1.symm, h.2.symm⟩)
    · rename_i hk hc
      by_cases hg : reg = true
      · rw [if_pos hg] at h
        simp only [Option.some.injEq, Prod.mk.injEq] at h
        exact Or.inr (Or.inr (Or.inl ⟨hk, hc, hg, h.1.symm, h.2.symm⟩))
      · rw [if_neg hg] at h; cases h
    · rename_i copy hk hc
      simp only [Option.bind_eq_bind] at h
      cases hcl : r.ch.close with
      | none => simp [hcl] at h
      | some c =>
        simp only [hcl, Option.some_bind, Option.some.injEq, Prod.mk.injEq] at h
        obtain ⟨h1, rfl⟩ := close_eq hcl
        exact Or.inr (Or.inr (Or.inr (Or.inl ⟨hk, h1, copy, hc, h.1.symm, h.2.symm⟩)))
    · rename_i hk hc
      simp only [Option.some.injEq, Prod.mk.injEq] at h
      exact Or.inr (Or.inr (Or.inr (Or.inr (Or.inl ⟨hk, hc, h.1.symm, h.2.symm⟩))))
    · rename_i u hk hc
      by_cases hd : r.done = true
      · rw [if_pos hd] at h; cases h
      · rw [if_neg hd] at h
        simp only [Option.some.injEq, Prod.mk.injEq] at h
        exact Or.inr (Or.inr (Or.inr (Or.inr (Or.inr
          ⟨hk, by simpa using hd, ⟨u, hc⟩, h.1.symm, h.2.symm⟩))))
    · cases h
  · have hnr : (!r.ready) = true := by simpa using hr
    rw [if_pos hnr] at h; cases h

/-- The cases of the `doneCh` case of the `select` of a goroutine. -/
theorem taskDone_cases {r r2 : Reader} {g : Reg} (h : taskDone r = some (r2, g)) :
    r.done = true ∧ g = .keep ∧
    ((r.pc = .send ∧ r2 = { r with pc := .exited }) ∨
     (r.pc = .curSend ∧ r.ch.closed = false ∧
        r2 = { r with ch := { r.ch with closed := true, receivers := 0 }, pc := .exited })) := by
  unfold taskDone at h
  by_cases hd : r.done = true
  · rw [if_pos hd] at h
    split at h
    · rename_i hpc
      simp only [Option.some.injEq, Prod.mk.injEq] at h
      exact ⟨hd, h.2.symm, Or.inl ⟨hpc, h.1.symm⟩⟩
    · rename_i hpc
      simp only [Option.bind_eq_bind] at h
      cases hcl : r.ch.close with
      | none => simp [hcl] at h
      | some c =>
        simp only [hcl, Option.some_bind, Option.some.injEq, Prod.mk.injEq] at h
        obtain ⟨h1, rfl⟩ := close_eq hcl
        exact ⟨hd, h.2.symm, Or.inr ⟨hpc, h1, h.1.symm⟩⟩
    · cases h
  · rw [if_neg hd] at h; cases h

/-- The cases of a step of the goroutine of `readFrom`. -/
theorem taskStep_from_cases {b : RingBuffer} {r r2 : Reader} {g : Reg}
    (h : taskStep b r = some (r2, g)) (hpc : r.pc ≠ .curSend ∧ r.pc ≠ .curRelock) :
    (r.pc = .top ∧ r.seq = b.next ∧ r2 = { r with ready := true, pc := .upgrade } ∧ g = .keep) ∨
    (r.pc = .top ∧ r.seq ≠ b.next ∧ replayCopy b { r with ready := true } = some r2 ∧
      g = .keep) ∨
    (r.pc = .upgrade ∧ r.seq = b.next ∧ r2 = { r with pc := .exited } ∧ g = .insert) ∨
    (r.pc = .upgrade ∧ r.seq ≠ b.next ∧ r2 = { r with pc := .relock } ∧ g = .keep) ∨
    (r.pc = .relock ∧ replayCopy b r = some r2 ∧ g = .keep) ∨
    (r.pc = .send ∧ g = .keep ∧ ∃ c, r.ch.trySend r.event = .sent c ∧
      r2 = { r with ch := c, stats := ⟨r.stats.Sent + 1, r.stats.Dropped⟩,
                    seq := r.seq + 1, pc := .top }) := by
  unfold taskStep at h
  split at h
  · rename_i hp
    by_cases hs : r.seq = b.next
    · simp only [hs, if_true, Option.some.injEq, Prod.mk.injEq] at h
      exact Or.inl ⟨hp, hs, by rw [← h.1, hs], h.2.symm⟩
    · simp only [hs, if_false, Option.bind_eq_bind] at h
      cases hc : replayCopy b { r with ready := true } with
      | none => simp [hc] at h
      | some r3 =>
        simp only [hc, Option.some_bind, Option.some.injEq, Prod.mk.injEq] at h
        exact Or.inr (Or.inl ⟨hp, hs, by rw [← h.1], h.2.symm⟩)
  · rename_i hp
    by_cases hs : r.seq = b.next
    · rw [if_pos hs] at h
      simp only [Option.some.injEq, Prod.mk.injEq] at h
      exact Or.inr (Or.inr (Or.inl ⟨hp, hs, h.1.symm, h.2.symm⟩))
    · rw [if_neg hs] at h
      simp only [Option.some.injEq, Prod.mk.injEq] at h
      exact Or.inr (Or.inr (Or.inr (Or.inl ⟨hp, hs, h.1.symm, h.2.symm⟩)))
  · rename_i hp
    simp only [Option.bind_eq_bind] at h
    cases hc : replayCopy b r with
    | none => simp [hc] at h
    | some r3 =>
      simp only [hc, Option.some_bind, Option.some.injEq, Prod.mk.injEq] at h
      exact Or.inr (Or.inr (Or.inr (Or.inr (Or.inl ⟨hp, by rw [← h.1], h.2.symm⟩))))
  · rename_i hp
    split at h
    · rename_i c hc
      simp only [Option.some.injEq, Prod.mk.injEq] at h
      exact Or.inr (Or.inr (Or.inr (Or.inr (Or.inr ⟨hp, h.2.symm, c, hc, h.1.symm⟩))))
    · cases h
  · rename_i hp; exact absurd hp hpc.1
  · rename_i hp; exact absurd hp hpc.2
  · cases h

/-- The cases of a step of the goroutine of `ReadCurrent`. -/
theorem taskStep_current_cases {b : RingBuffer} {r r2 : Reader} {g : Reg}
    (h : taskStep b r = some (r2, g)) (hpc : r.pc = .curSend ∨ r.pc = .curRelock) :
    g = .keep ∧
    ((r.pc = .curSend ∧ r.seq + 1 ≥ r.last ∧ ∃ c, r.ch.trySend r.event = .sent c ∧
        c.closed = false ∧
        r2 = { r with ch := { c with closed := true, receivers := 0 },
                      stats := ⟨r.stats.Sent + 1, r.stats.Dropped⟩,
                      seq := r.seq + 1, pc := .exited }) ∨
     (r.pc = .curSend ∧ r.seq + 1 < r.last ∧ ∃ c, r.ch.trySend r.event = .sent c ∧
        r2 = { r with ch := c, stats := ⟨r.stats.Sent + 1, r.stats.Dropped⟩,
                      seq := r.seq + 1, pc := .curRelock }) ∨
     (r.pc = .curRelock ∧ r.seq < b.last ∧ r.last < b.last ∧ r.ch.closed = false ∧
        r2 = { r with stats := ⟨r.stats.Sent, r.stats.Dropped + (r.last - r.seq)⟩,
                      ch := { r.ch with closed := true, receivers := 0 }, pc := .exited }) ∨
     (r.pc = .curRelock ∧ r.seq < b.last ∧ ¬ r.last < b.last ∧
        ∃ event, load b.buffer (Int.tmod b.last b.buffer.length) = some event ∧
        r2 = { r with stats := ⟨r.stats.Sent, r.stats.Dropped + (b.last - r.seq)⟩,
                      seq := b.last, event := event, pc := .curSend }) ∨
     (r.pc = .curRelock ∧ ¬ r.seq < b.last ∧
        ∃ event, load b.buffer (Int.tmod r.seq b.buffer.length) = some event ∧
        r2 = { r with event := event, pc := .curSend })) := by
  unfold taskStep at h
  split at h
  · rename_i hp; rcases hpc with h1 | h1 <;> simp [hp] at h1
  · rename_i hp; rcases hpc with h1 | h1 <;> simp [hp] at h1
  · rename_i hp; rcases hpc with h1 | h1 <;> simp [hp] at h1
  · rename_i hp; rcases hpc with h1 | h1 <;> simp [hp] at h1
  · rename_i hp
    split at h
    · rename_i c hc
      by_cases hs : r.seq + 1 ≥ r.last
      · simp only [hs, if_true, Option.bind_eq_bind] at h
        cases hcl : c.close with
        | none => simp [hcl] at h
        | some c2 =>
          simp only [hcl, Option.some_bind, Option.some.injEq, Prod.mk.injEq] at h
          obtain ⟨h1, rfl⟩ := close_eq hcl
          exact ⟨h.2.symm, Or.inl ⟨hp, hs, c, hc, h1, h.1.symm⟩⟩
      · simp only [hs, if_false, Option.some.injEq, Prod.mk.injEq] at h
        exact ⟨h.2.symm, Or.inr (Or.inl ⟨hp, by omega, c, hc, h.1.symm⟩)⟩
    · cases h
  · rename_i hp
    by_cases h1 : r.seq < b.last
    · by_cases h2 : r.last < b.last
      · simp only [h1, h2, if_true, Option.bind_eq_bind] at h
        cases hcl : r.ch.close with
        | none => simp [hcl] at h
        | some c2 =>
          simp only [hcl, Option.some_bind, Option.some.injEq, Prod.mk.injEq] at h
          obtain ⟨h3, rfl⟩ := close_eq hcl
          exact ⟨h.2.symm, Or.inr (Or.inr (Or.inl ⟨hp, h1, h2, h3, h.1.symm⟩))⟩
      · simp only [h1, h2, if_true, if_false, Option.bind_eq_bind] at h
        cases hl : load b.buffer (Int.tmod b.last b.buffer.length) with
        | none => simp [hl] at h
        | some event =>
          simp only [hl, Option.some_bind, Option.some.injEq, Prod.mk.injEq] at h
          exact ⟨h.2.symm, Or.inr (Or.inr (Or.inr (Or.inl ⟨hp, h1, h2, event, rfl, h.1.symm⟩)))⟩
    · simp only [h1, if_false, Option.bind_eq_bind] at h
      cases hl : load b.buffer (Int.tmod r.seq b.buffer.length) with
      | none => simp [hl] at h
      | some event =>
        simp only [hl, Option.some_bind, Option.some.injEq, Prod.mk.injEq] at h
        exact ⟨h.2.symm, Or.inr (Or.inr (Or.inr (Or.inr ⟨hp, h1, event, rfl, h.1.symm⟩)))⟩
  · cases h

/-- Every move of a reader keeps the invariant of the readers. -/
theorem move_ok {b : RingBuffer} {reg : Bool} {r r2 : Reader} {m : Move} {g : Reg}
    (h : r.move b reg m = some (r2, g)) (hok : r.ok reg) : r2.ok (g.after reg) := by
  cases m with
  | recv =>
    obtain ⟨h1, h2, h3, h4, h5, h6⟩ := hok
    simp only [Reader.move] at h
    split_ifs at h
    simp only [Option.some.injEq, Prod.mk.injEq] at h
    obtain ⟨rfl, rfl⟩ := h
    obtain ⟨a1, a2⟩ := recv_ok r.ch h6
    exact ⟨by simpa [Reg.after, a1] using h1, by simpa [Reg.after] using h2,
      by simpa [a1] using h3, h4, h5, a2⟩
  | stopRecv =>
    obtain ⟨h1, h2, h3, h4, h5, h6⟩ := hok
    simp only [Reader.move, Option.bind_eq_bind] at h
    cases hc : r.ch.stopRecv with
    | none => simp [hc] at h
    | some c =>
      simp only [hc, Option.some_bind, Option.some.injEq, Prod.mk.injEq] at h
      obtain ⟨rfl, rfl⟩ := h
      obtain ⟨a1, a2⟩ := stopRecv_ok hc h6
      exact ⟨by simpa [Reg.after, a1] using h1, by simpa [Reg.after] using h2,
        by simpa [a1] using h3, h4, h5, a2⟩
  | taskDone =>
    simp only [Reader.move] at h
    obtain ⟨-, rfl, ⟨hp, rfl⟩ | ⟨hp, hc, rfl⟩⟩ := taskDone_cases h <;>
      cases reg <;> simp_all [Reader.ok, Reg.after]
  | cancel =>
    simp only [Reader.move] at h
    obtain ⟨-, ⟨hk, rfl, rfl⟩ | ⟨hk, hc, hd, rfl, rfl⟩ | ⟨hk, hc, hg, rfl, rfl⟩ |
      ⟨hk, hcl, copy, hc, rfl, rfl⟩ | ⟨hk, hc, rfl, rfl⟩ | ⟨hk, hd, ⟨u, hc⟩, rfl, rfl⟩⟩ :=
      cancelStep_cases h <;>
      cases reg <;> simp_all [Reader.ok, Reg.after]
  | task =>
    simp only [Reader.move] at h
    by_cases hpc : r.pc = .curSend ∨ r.pc = .curRelock
    · obtain ⟨rfl, ⟨hp, hs, c, hc, hcl, rfl⟩ | ⟨hp, hs, c, hc, rfl⟩ | ⟨hp, h1, h2, hcl, rfl⟩ |
        ⟨hp, h1, h2, e, he, rfl⟩ | ⟨hp, h1, e, he, rfl⟩⟩ := taskStep_current_cases h hpc
      · cases reg <;> simp_all [Reader.ok, Reg.after]
      · obtain ⟨-, -, -, -, -, a6⟩ := trySend_sent hc hok.2.2.2.2.2
        cases reg <;> simp_all [Reader.ok, Reg.after]
      · cases reg <;> simp_all [Reader.ok, Reg.after]
      · cases reg <;> simp_all [Reader.ok, Reg.after]
      · cases reg <;> simp_all [Reader.ok, Reg.after]
    · have hpc2 : r.pc ≠ .curSend ∧ r.pc ≠ .curRelock := by
        constructor
        · intro h1; exact hpc (Or.inl h1)
        · intro h1; exact hpc (Or.inr h1)
      obtain ⟨hp, hs, rfl, rfl⟩ | ⟨hp, hs, hc, rfl⟩ | ⟨hp, hs, rfl, rfl⟩ | ⟨hp, hs, rfl, rfl⟩ |
        ⟨hp, hc, rfl⟩ | ⟨hp, rfl, c, hc, rfl⟩ := taskStep_from_cases h hpc2
      · cases reg <;> simp_all [Reader.ok, Reg.after]
      · obtain ⟨e, rfl, -⟩ := replayCopy_eq hc
        cases reg <;> simp_all [Reader.ok, Reg.after]
      · cases reg <;> simp_all [Reader.ok, Reg.after]
      · cases reg <;> simp_all [Reader.ok, Reg.after]
      · obtain ⟨e, rfl, -⟩ := replayCopy_eq hc
        cases reg <;> simp_all [Reader.ok, Reg.after]
      · obtain ⟨-, -, a3, -, -, a6⟩ := trySend_sent hc hok.2.2.2.2.2
        cases reg <;> simp_all [Reader.ok, Reg.after]

theorem fanout_reader {e : EventRef} : ∀ (ids : List Nat) {s s2 : System}, ids.Nodup →
    ids.foldlM (deliver e) s = some s2 →
    ∀ (j : Nat) (r : Reader), s.rs[j]? = some r →
      (j ∈ ids → ∃ r2 sent, r.offer e = some (r2, sent) ∧ s2.rs[j]? = some r2) ∧
      (j ∉ ids → s2.rs[j]? = some r) := by
  intro ids
  induction ids with
  | nil =>
    intro s s2 _ h j r hr
    simp at h
    subst h
    exact ⟨by simp, fun _ => hr⟩
  | cons id ids ih =>
    intro s s2 hnd h j r hr
    rw [List.foldlM_cons] at h
    cases h1 : deliver e s id with
    | none => simp [h1] at h
    | some s1 =>
      simp only [h1, Option.bind_eq_bind, Option.some_bind] at h
      obtain ⟨hid, hnd2⟩ := List.nodup_cons.mp hnd
      obtain ⟨r0, r1, sent, hr0, ho, rfl⟩ := deliver_eq h1
      have hlt : id < s.rs.length := (List.getElem?_eq_some_iff.mp hr0).1
      by_cases hj : j = id
      · subst hj
        have hr1 : (List.set s.rs j r1)[j]? = some r1 := by
          rw [List.getElem?_set]; simp [hlt]
        have := (ih hnd2 h j r1 hr1).2 hid
        rw [hr] at hr0
        obtain rfl := Option.some.inj hr0
        exact ⟨fun _ => ⟨r1, sent, ho, this⟩, fun hn => absurd (List.mem_cons_self _ _) hn⟩
      · have hne : ¬ id = j := fun h => hj h.symm
        have hr1 : (List.set s.rs id r1)[j]? = some r := by
          rw [List.getElem?_set, if_neg hne]; exact hr
        obtain ⟨a1, a2⟩ := ih hnd2 h j r hr1
        refine ⟨fun hm => a1 ?_, fun hn => a2 ?_⟩
        · rcases List.mem_cons.mp hm with h | h
          · exact absurd h hj
          · exact h
        · intro hm; exact hn (List.mem_cons_of_mem _ hm)

theorem writeRing_eq {b b2 : RingBuffer} {e : EventRef} (h : writeRing b e = some b2) :
    b2.readers = b.readers ∧ b2.next = b.next + 1 ∧ b2.sent = b.sent ∧
      b2.dropped = b.dropped ∧ b2.buffer.length = b.buffer.length ∧ b.last ≤ b2.last := by
  unfold writeRing at h
  by_cases h0 : 0 < b.buffer.length
  · simp only [h0, if_true, Option.bind_eq_bind] at h
    cases hst : store b.buffer (Int.tmod b.next b.buffer.length) e with
    | none => simp [hst] at h
    | some buf =>
      simp only [hst, Option.some_bind, Option.some.injEq] at h
      subst h
      refine ⟨rfl, rfl, rfl, rfl, ?_, ?_⟩
      · unfold store at hst
        split_ifs at hst
        obtain rfl := Option.some.inj hst
        simp
      · show b.last ≤ if _ then _ else _
        split_ifs with hlt <;> first | exact le_of_lt hlt | exact le_refl _
  · simp only [h0, if_false, Option.bind_eq_bind, Option.some_bind, Option.some.injEq] at h
    subst h
    refine ⟨rfl, rfl, rfl, rfl, rfl, ?_⟩
    show b.last ≤ if _ then _ else _
    split_ifs with hlt <;> first | exact le_of_lt hlt | exact le_refl _

/-- What a write does to the readers: each registered reader is offered the
event once, the others are left alone, and the set of registered readers does
not change. -/
theorem Write_reader {s s2 : System} {e : EventRef} (h : Write s e = some s2)
    (hnd : s.b.readers.Nodup) :
    s2.b.readers = s.b.readers ∧ s2.rs.length = s.rs.length ∧ s2.b.next = s.b.next + 1 ∧
    s.b.last ≤ s2.b.last ∧
    ∀ (j : Nat) (r : Reader), s.rs[j]? = some r →
      (j ∈ s.b.readers → ∃ r2 sent, r.offer e = some (r2, sent) ∧ s2.rs[j]? = some r2) ∧
      (j ∉ s.b.readers → s2.rs[j]? = some r) := by
  unfold Write at h
  cases hb : writeRing s.b e with
  | none => simp [hb] at h
  | some b2 =>
    simp only [hb, Option.bind_eq_bind, Option.some_bind] at h
    obtain ⟨a1, a2, -, -, -, a6⟩ := writeRing_eq hb
    obtain ⟨c1, c2, -, c4, c5⟩ := fanout_ring _ h
    rw [a1] at h
    refine ⟨c4.trans a1, c5, c2.trans a2, by rw [c1]; exact a6, ?_⟩
    intro j r hr
    exact fanout_reader _ hnd h j r hr

/-- Every step keeps the invariant of the readers. -/
theorem step_sound {s s2 : System} {a : Action} (hs : Sound s) (h : step s a = some s2) :
    Sound s2 := by
  obtain ⟨hnd, hbd, hok⟩ := hs
  rcases step_cases h with ⟨e, rfl, hw⟩ | ⟨r, g, -, -, hm, rfl⟩ | ⟨id, m, r, r2, g, rfl, hr, hm, rfl⟩
  · obtain ⟨a1, a2, -, -, a3⟩ := Write_reader hw hnd
    refine ⟨by rw [a1]; exact hnd, by rw [a1, a2]; exact hbd, ?_⟩
    intro id r2 hr2
    have hlt : id < s.rs.length := by rw [← a2]; exact (List.getElem?_eq_some_iff.mp hr2).1
    obtain ⟨b1, b2⟩ := a3 id _ (List.getElem?_eq_getElem hlt)
    rw [a1]
    by_cases hmem : id ∈ s.b.readers
    · obtain ⟨r3, sent, ho, hr3⟩ := b1 hmem
      rw [hr2] at hr3
      obtain rfl := Option.some.inj hr3
      exact offer_ok ho (hok id _ (List.getElem?_eq_getElem hlt))
    · rw [b2 hmem] at hr2
      obtain rfl := Option.some.inj hr2
      exact hok id _ (List.getElem?_eq_getElem hlt)
  · obtain ⟨hg, hrok⟩ := made_ok hm
    have hnot : s.rs.length ∉ s.b.readers := fun hmem => absurd (hbd _ hmem) (lt_irrefl _)
    refine ⟨nodup_apply _ hnd, ?_, ?_⟩
    · intro id hmem
      simp only [List.length_append, List.length_singleton]
      rcases mem_apply.mp hmem with ⟨rfl, -⟩ | ⟨-, h2⟩
      · omega
      · have := hbd id h2; omega
    · intro id r3 hr3
      by_cases hid : id = s.rs.length
      · subst hid
        simp only [List.getElem?_concat_length, Option.some.injEq] at hr3
        subst hr3
        have : decide (s.rs.length ∈ g.apply s.b.readers s.rs.length) = g.after false := by
          cases hga : g.after false <;> simp [mem_apply, hnot, hga]
        simp only [this]
        exact hrok
      · have hlt : id < s.rs.length := by
          have := (List.getElem?_eq_some_iff.mp hr3).1
          simp only [List.length_append, List.length_singleton] at this
          omega
        simp only [List.getElem?_append_left hlt] at hr3
        have : decide (id ∈ g.apply s.b.readers s.rs.length) = decide (id ∈ s.b.readers) := by
          simp [mem_apply, hid]
        simp only [this]
        exact hok id r3 hr3
  · have hlt : id < s.rs.length := (List.getElem?_eq_some_iff.mp hr).1
    refine ⟨nodup_apply _ hnd, ?_, ?_⟩
    · intro j hmem
      simp only [List.length_set]
      rcases mem_apply.mp hmem with ⟨rfl, -⟩ | ⟨-, h2⟩
      · exact hlt
      · exact hbd j h2
    · intro j r3 hr3
      by_cases hj : j = id
      · subst hj
        simp only [List.getElem?_set, hlt, if_true, Option.some.injEq] at hr3
        subst hr3
        have : decide (j ∈ g.apply s.b.readers j) = g.after (decide (j ∈ s.b.readers)) := by
          cases hga : g.after (decide (j ∈ s.b.readers)) <;> simp [mem_apply, hga]
        simp only [this]
        exact move_ok hm (hok j r hr)
      · have hne : ¬ id = j := fun h => hj h.symm
        simp only [List.getElem?_set, if_neg hne] at hr3
        have : decide (j ∈ g.apply s.b.readers id) = decide (j ∈ s.b.readers) := by
          simp [mem_apply, hj]
        simp only [this]
        exact hok j r3 hr3

theorem run_sound {s0 s : System} {acts : List Action} (hs : Sound s0)
    (h : run s0 acts = some s) : Sound s :=
  run_induction (P := fun s _ => Sound s) hs (fun _ _ _ _ _ h1 h2 => step_sound h1 h2) h

/-- Every system reached from `NewRingBuffer` satisfies the invariant of the
readers. -/
theorem runNew_sound {caps : List Int} {acts : List Action} {s : System}
    (h : runNew caps acts = some s) : Sound s := by
  obtain ⟨s0, h0, h1⟩ := runNew_eq h
  obtain ⟨c, rfl⟩ := newSystem_eq h0
  exact run_sound ⟨by simp, by simp, by simp⟩ h1

/-- How a step changes a reader that is in the heap: a write offers it the
event if it is registered; a move of the reader is a move; every other step
leaves it alone. The ring changes only in the first case. -/
theorem step_reader {s s2 : System} {a : Action} (hs : Sound s) (h : step s a = some s2)
    {id : Nat} {r : Reader} (hr : s.rs[id]? = some r) :
    ∃ r2, s2.rs[id]? = some r2 ∧
      ((∃ e, a = .write e ∧ s2.b.next = s.b.next + 1 ∧ s.b.last ≤ s2.b.last ∧
          (id ∈ s2.b.readers ↔ id ∈ s.b.readers) ∧
          ((id ∈ s.b.readers ∧ ∃ sent, r.offer e = some (r2, sent)) ∨
            (id ∉ s.b.readers ∧ r2 = r))) ∨
       (∃ m g, a = .move id m ∧ r.move s.b (decide (id ∈ s.b.readers)) m = some (r2, g) ∧
          s2.b.next = s.b.next ∧ s2.b.last = s.b.last ∧ s2.b.buffer = s.b.buffer ∧
          (id ∈ s2.b.readers ↔ g.after (decide (id ∈ s.b.readers)) = true)) ∨
       ((∀ e, a ≠ .write e) ∧ (∀ m, a ≠ .move id m) ∧ r2 = r ∧
          s2.b.next = s.b.next ∧ s2.b.last = s.b.last ∧ s2.b.buffer = s.b.buffer ∧
          (id ∈ s2.b.readers ↔ id ∈ s.b.readers))) := by
  have hlt : id < s.rs.length := (List.getElem?_eq_some_iff.mp hr).1
  rcases step_cases h with ⟨e, rfl, hw⟩ | ⟨r1, g, hnw, hnm, -, rfl⟩ |
    ⟨j, m, r1, r2, g, rfl, hr1, hm, rfl⟩
  · obtain ⟨a1, a2, a3, a4, a5⟩ := Write_reader hw hs.nodup
    obtain ⟨b1, b2⟩ := a5 id r hr
    by_cases hmem : id ∈ s.b.readers
    · obtain ⟨r2, sent, ho, hr2⟩ := b1 hmem
      exact ⟨r2, hr2, Or.inl ⟨e, rfl, a3, a4, by rw [a1], Or.inl ⟨hmem, sent, ho⟩⟩⟩
    · exact ⟨r, b2 hmem, Or.inl ⟨e, rfl, a3, a4, by rw [a1], Or.inr ⟨hmem, rfl⟩⟩⟩
  · refine ⟨r, by simp [List.getElem?_append_left hlt, hr], Or.inr (Or.inr
      ⟨hnw, fun m => hnm id m, rfl, rfl, rfl, rfl, ?_⟩)⟩
    have hne : id ≠ s.rs.length := by omega
    simp [mem_apply, hne]
  · by_cases hj : j = id
    · subst hj
      rw [hr] at hr1
      obtain rfl := Option.some.inj hr1
      refine ⟨r2, by simp [List.getElem?_set, hlt], Or.inr (Or.inl
        ⟨m, g, rfl, hm, rfl, rfl, rfl, ?_⟩)⟩
      simp [mem_apply]
    · have hne : ¬ id = j := fun h => hj h.symm
      refine ⟨r, by simp [List.getElem?_set, hj, hr], Or.inr (Or.inr
        ⟨by simp, ?_, rfl, rfl, rfl, rfl, ?_⟩)⟩
      · intro m2 heq
        simp only [Action.move.injEq] at heq
        exact hj heq.1
      · simp [mem_apply, hne]

/-- A reader made by `ReadNew` has no goroutine: the only moves it has are
those of its consumer and of its cancel function. -/
theorem move_new {b : RingBuffer} {reg : Bool} {r r2 : Reader} {m : Move} {g : Reg}
    (hk : r.kind = .new) (hok : r.ok reg) (h : r.move b reg m = some (r2, g))
    (hm : m ≠ .cancel) :
    r2.kind = .new ∧ r2.stats = r.stats ∧ r2.cancel = r.cancel ∧ g = .keep := by
  obtain ⟨-, -, -, h4, h5, -⟩ := hok
  have hp : r.pc = .exited := by
    cases hpc : r.pc <;> simp_all
  cases m with
  | cancel => exact absurd rfl hm
  | recv =>
    simp only [Reader.move] at h
    split_ifs at h
    simp only [Option.some.injEq, Prod.mk.injEq] at h
    obtain ⟨rfl, rfl⟩ := h
    exact ⟨hk, rfl, rfl, rfl⟩
  | stopRecv =>
    simp only [Reader.move, Option.bind_eq_bind] at h
    cases hc : r.ch.stopRecv with
    | none => simp [hc] at h
    | some c =>
      simp only [hc, Option.some_bind, Option.some.injEq, Prod.mk.injEq] at h
      obtain ⟨rfl, rfl⟩ := h
      exact ⟨hk, rfl, rfl, rfl⟩
  | task => simp [Reader.move, taskStep, hp] at h
  | taskDone =>
    simp only [Reader.move] at h
    obtain ⟨-, -, ⟨h1, -⟩ | ⟨h1, -⟩⟩ := taskDone_cases h <;> simp [hp] at h1

/-! ## `Status` with nil events -/

theorem oldestTime_scan {b : RingBuffer} {es : List EventRef} (h : RingInv b es) :
    ∀ (fuel k : Nat), es.length - b.buffer.length ≤ k → es.length - k ≤ fuel →
      oldestTime b fuel (k : Int) = scanTime (es.drop k) := by
  intro fuel
  induction fuel with
  | zero =>
    intro k _ h2
    have : es.drop k = [] := List.drop_eq_nil_iff.mpr (by omega)
    simp [oldestTime, this, scanTime]
  | succ fuel ih =>
    intro k h1 h2
    have hn := h.next_eq
    by_cases hk : k < es.length
    · have hlt : (k : Int) < b.next := by rw [hn]; exact_mod_cast hk
      have hl := load_slot h k h1 hk
      have hd : es.drop k = es[k] :: es.drop (k + 1) := List.drop_eq_getElem_cons hk
      rw [oldestTime, if_pos hlt, hl, List.getElem?_eq_getElem hk, hd]
      cases he : es[k] with
      | none => simp [eventTime, scanTime]
      | some e =>
        have := ih (k + 1) (by omega) (by omega)
        simp only [Nat.cast_add, Nat.cast_one] at this
        by_cases hz : e.timestamp = 0
        · simp [eventTime, scanTime, hz, Time.IsZero, this]
        · simp [eventTime, scanTime, hz, Time.IsZero]
    · have hlt : ¬ (k : Int) < b.next := by rw [hn]; exact_mod_cast hk
      have : es.drop k = [] := List.drop_eq_nil_iff.mpr (by omega)
      simp [oldestTime, hlt, this, scanTime]

theorem newestTime_scan {b : RingBuffer} {es : List EventRef} (h : RingInv b es) :
    ∀ (fuel k : Nat), es.length - b.buffer.length ≤ k → k ≤ es.length →
      k - (es.length - b.buffer.length) ≤ fuel →
      newestTime b fuel ((k : Int) - 1)
        = scanTime ((es.take k).drop (es.length - b.buffer.length)).reverse := by
  intro fuel
  induction fuel with
  | zero =>
    intro k h1 _ h3
    have : (es.take k).drop (es.length - b.buffer.length) = [] :=
      List.drop_eq_nil_iff.mpr (by simp; omega)
    simp [newestTime, this, scanTime]
  | succ fuel ih =>
    intro k h1 h2 h3
    have hl0 := h.last_eq
    by_cases hk : es.length - b.buffer.length < k
    · obtain ⟨j, rfl⟩ : ∃ j, k = j + 1 := ⟨k - 1, by omega⟩
      have hge : ((j + 1 : Nat) : Int) - 1 ≥ b.last := by rw [hl0]; omega
      have hcast : ((j + 1 : Nat) : Int) - 1 = (j : Int) := by omega
      have hj : j < es.length := by omega
      have hl := load_slot h j (by omega) hj
      have ht : (es.take (j + 1)).drop (es.length - b.buffer.length)
          = (es.take j).drop (es.length - b.buffer.length) ++ [es[j]] := by
        rw [List.take_succ, List.getElem?_eq_getElem hj, Option.toList_some,
          List.drop_append_of_le_length (by simp; omega)]
      rw [newestTime, if_pos hge, hcast, hl, List.getElem?_eq_getElem hj, ht,
        List.reverse_append, List.reverse_singleton, List.singleton_append]
      cases he : es[j] with
      | none => simp [eventTime, scanTime]
      | some e =>
        have := ih j (by omega) (by omega) (by omega)
        by_cases hz : e.timestamp = 0
        · simp [eventTime, scanTime, hz, Time.IsZero, this]
        · simp [eventTime, scanTime, hz, Time.IsZero]
    · have hge : ¬ ((k : Int) - 1 ≥ b.last) := by rw [hl0]; omega
      have : (es.take k).drop (es.length - b.buffer.length) = [] :=
        List.drop_eq_nil_iff.mpr (by simp; omega)
      simp [newestTime, hge, this, scanTime]

/-- On a state reached by writes, `Status` is its two scans over the buffered
events, forwards and backwards, and the two counts. -/
theorem Status_scan {b : RingBuffer} {es : List EventRef} (h : RingInv b es) :
    Status b = (scanTime (es.drop (es.length - b.buffer.length))).bind (fun oldest =>
      (scanTime (es.drop (es.length - b.buffer.length)).reverse).bind (fun newest =>
        some { NumEvents := b.next - b.last, SeenEvents := b.next,
               OldestEventTime := oldest, NewestEventTime := newest })) := by
  have hn := h.next_eq
  have hl := h.last_eq
  have hnl : b.next - b.last = ((es.length - (es.length - b.buffer.length) : Nat) : Int) := by
    rw [hn, hl]; omega
  have h1 := oldestTime_scan h (es.length - (es.length - b.buffer.length))
    (es.length - b.buffer.length) (le_refl _) (le_refl _)
  have h2 := newestTime_scan h (es.length - (es.length - b.buffer.length)) es.length
    (by omega) (le_refl _) (le_refl _)
  rw [List.take_length] at h2
  rw [← hl] at h1
  rw [← hn] at h2
  unfold Status
  rw [hnl, Int.toNat_ofNat, h1, h2]
  rfl

/-- A scan panics exactly when it meets a nil event before any event whose
time is not zero. -/
theorem scanTime_none_iff (l : List EventRef) :
    scanTime l = none ↔ ∃ k : Nat, l[k]? = some none ∧
      ∀ j : Nat, j < k → ∃ d : Event, l[j]? = some (some d) ∧ d.timestamp = 0 := by
  induction l with
  | nil => simp [scanTime]
  | cons x l ih =>
    cases x with
    | none =>
      simp only [scanTime, true_iff]
      exact ⟨0, by simp, fun j hj => absurd hj (Nat.not_lt_zero _)⟩
    | some e =>
      by_cases hz : e.timestamp = 0
      · simp only [scanTime, hz, if_true]
        rw [ih]
        constructor
        · rintro ⟨k, hk, hall⟩
          refine ⟨k + 1, by simpa using hk, ?_⟩
          intro j hj
          cases j with
          | zero => exact ⟨e, by simp, hz⟩
          | succ j => simpa using hall j (by omega)
        · rintro ⟨k, hk, hall⟩
          cases k with
          | zero => simp at hk
          | succ k =>
            refine ⟨k, by simpa using hk, ?_⟩
            intro j hj
            simpa using hall (j + 1) (by omega)
      · simp only [scanTime, hz, if_false]
        refine ⟨fun hf => Option.noConfusion hf, ?_⟩
        rintro ⟨k, hk, hall⟩
        cases k with
        | zero => simp at hk
        | succ k =>
          obtain ⟨d, hd, hd0⟩ := hall 0 (by omega)
          simp at hd
          subst hd
          exact absurd hd0 hz

/-- What a scan returns, when it returns: the time of the first event whose
time is not zero, and the zero time if there is no such event. -/
theorem scanTime_some {l : List EventRef} {t : Time} (h : scanTime l = some t) :
    (∀ (k : Nat) (e : Event), l[k]? = some (some e) → e.timestamp ≠ 0 →
      (∀ (j : Nat) (d : Event), j < k → l[j]? = some (some d) → d.timestamp = 0) →
      t = e.timestamp) ∧
    ((∀ (j : Nat) (d : Event), l[j]? = some (some d) → d.timestamp = 0) → t = 0) := by
  induction l with
  | nil =>
    simp only [scanTime, Option.some.injEq] at h
    subst h
    exact ⟨fun k e hk => by simp at hk, fun _ => rfl⟩
  | cons x l ih =>
    cases x with
    | none => simp [scanTime] at h
    | some e0 =>
      by_cases hz : e0.timestamp = 0
      · simp only [scanTime, hz, if_true] at h
        obtain ⟨i1, i2⟩ := ih h
        constructor
        · intro k e hk hne hall
          cases k with
          | zero =>
            simp at hk
            subst hk
            exact absurd hz hne
          | succ k =>
            refine i1 k e (by simpa using hk) hne ?_
            intro j d hj hd
            exact hall (j + 1) d (by omega) (by simpa using hd)
        · intro hall
          exact i2 (fun j d hd => hall (j + 1) d (by simpa using hd))
      · simp only [scanTime, hz, if_false, Option.some.injEq] at h
        subst h
        constructor
        · intro k e hk hne hall
          cases k with
          | zero =>
            simp at hk
            subst hk
            rfl
          | succ k => exact absurd (hall 0 e0 (by omega) (by simp)) hz
        · intro hall
          exact absurd (hall 0 e0 (by simp)) hz

theorem scan_fwd_none (es : List EventRef) (d : Nat) :
    scanTime (es.drop d) = none ↔ ∃ k : Nat, d ≤ k ∧ es[k]? = some none ∧
      ∀ j : Nat, d ≤ j → j < k → ∃ e : Event, es[j]? = some (some e) ∧ e.timestamp = 0 := by
  rw [scanTime_none_iff]
  constructor
  · rintro ⟨i, hi, hall⟩
    refine ⟨d + i, by omega, by simpa [List.getElem?_drop] using hi, ?_⟩
    intro j h1 h2
    have := hall (j - d) (by omega)
    rw [List.getElem?_drop] at this
    have e1 : d + (j - d) = j := by omega
    rwa [e1] at this
  · rintro ⟨k, hk, hn, hall⟩
    refine ⟨k - d, ?_, ?_⟩
    · rw [List.getElem?_drop]
      have e1 : d + (k - d) = k := by omega
      rwa [e1]
    · intro j hj
      rw [List.getElem?_drop]
      exact hall (d + j) (by omega) (by omega)

theorem getElem?_reverse_drop (es : List EventRef) (d i : Nat) (hd : d ≤ es.length)
    (hi : i < es.length - d) : (es.drop d).reverse[i]? = es[es.length - 1 - i]? := by
  rw [List.getElem?_reverse (by simpa using hi), List.getElem?_drop, List.length_drop]
  congr 1
  omega

theorem scan_bwd_none (es : List EventRef) (d : Nat) (hd : d ≤ es.length) :
    scanTime (es.drop d).reverse = none ↔ ∃ k : Nat, d ≤ k ∧ es[k]? = some none ∧
      ∀ j : Nat, k < j → j < es.length →
        ∃ e : Event, es[j]? = some (some e) ∧ e.timestamp = 0 := by
  rw [scanTime_none_iff]
  constructor
  · rintro ⟨i, hi, hall⟩
    have hil : i < es.length - d := by
      have := (List.getElem?_eq_some_iff.mp hi).1
      simpa using this
    rw [getElem?_reverse_drop es d i hd hil] at hi
    refine ⟨es.length - 1 - i, by omega, hi, ?_⟩
    intro j h1 h2
    have := hall (es.length - 1 - j) (by omega)
    rw [getElem?_reverse_drop es d _ hd (by omega)] at this
    have e1 : es.length - 1 - (es.length - 1 - j) = j := by omega
    rwa [e1] at this
  · rintro ⟨k, hk, hn, hall⟩
    have hkl : k < es.length := (List.getElem?_eq_some_iff.mp hn).1
    refine ⟨es.length - 1 - k, ?_, ?_⟩
    · rw [getElem?_reverse_drop es d _ hd (by omega)]
      have e1 : es.length - 1 - (es.length - 1 - k) = k := by omega
      rwa [e1]
    · intro j hj
      rw [getElem?_reverse_drop es d _ hd (by omega)]
      exact hall (es.length - 1 - j) (by omega) (by omega)

theorem scan_fwd_some {es : List EventRef} {d : Nat} {t : Time}
    (h : scanTime (es.drop d) = some t) :
    (∀ (k : Nat) (e : Event), d ≤ k → es[k]? = some (some e) → e.timestamp ≠ 0 →
      (∀ (j : Nat) (x : Event), d ≤ j → j < k → es[j]? = some (some x) → x.timestamp = 0) →
      t = e.timestamp) ∧
    ((∀ (j : Nat) (x : Event), d ≤ j → es[j]? = some (some x) → x.timestamp = 0) → t = 0) := by
  obtain ⟨i1, i2⟩ := scanTime_some h
  constructor
  · intro k e hk he hne hall
    refine i1 (k - d) e ?_ hne ?_
    · rw [List.getElem?_drop]
      have e1 : d + (k - d) = k := by omega
      rwa [e1]
    · intro j x hj hx
      rw [List.getElem?_drop] at hx
      exact hall (d + j) x (by omega) (by omega) hx
  · intro hall
    refine i2 ?_
    intro j x hx
    rw [List.getElem?_drop] at hx
    exact hall (d + j) x (by omega) hx

theorem scan_bwd_some {es : List EventRef} {d : Nat} {t : Time} (hd : d ≤ es.length)
    (h : scanTime (es.drop d).reverse = some t) :
    (∀ (k : Nat) (e : Event), d ≤ k → es[k]? = some (some e) → e.timestamp ≠ 0 →
      (∀ (j : Nat) (x : Event), k < j → es[j]? = some (some x) → x.timestamp = 0) →
      t = e.timestamp) ∧
    ((∀ (j : Nat) (x : Event), d ≤ j → es[j]? = some (some x) → x.timestamp = 0) → t = 0) := by
  obtain ⟨i1, i2⟩ := scanTime_some h
  constructor
  · intro k e hk he hne hall
    have hkl : k < es.length := (List.getElem?_eq_some_iff.mp he).1
    refine i1 (es.length - 1 - k) e ?_ hne ?_
    · rw [getElem?_reverse_drop es d _ hd (by omega)]
      have e1 : es.length - 1 - (es.length - 1 - k) = k := by omega
      rwa [e1]
    · intro j x hj hx
      rw [getElem?_reverse_drop es d _ hd (by omega)] at hx
      exact hall (es.length - 1 - j) x (by omega) hx
  · intro hall
    refine i2 ?_
    intro j x hx
    have hjl : j < es.length - d := by
      have := (List.getElem?_eq_some_iff.mp hx).1
      simpa using this
    rw [getElem?_reverse_drop es d _ hd hjl] at hx
    exact hall (es.length - 1 - j) x (by omega) hx

/-- On a state reached by writes, `Status` panics exactly when one of its two
scans meets a nil event before it meets an event whose time is not zero: the
forward scan from `last`, or the backward scan from `next - 1`. -/
theorem Status_none_iff {b : RingBuffer} {es : List EventRef} (h : RingInv b es) :
    Status b = none ↔
      (∃ k : Nat, b.last ≤ (k : Int) ∧ es[k]? = some none ∧
        ∀ j : Nat, b.last ≤ (j : Int) → j < k →
          ∃ e : Event, es[j]? = some (some e) ∧ e.timestamp = 0) ∨
      (∃ k : Nat, b.last ≤ (k : Int) ∧ es[k]? = some none ∧
        ∀ j : Nat, k < j → (j : Int) < b.next →
          ∃ e : Event, es[j]? = some (some e) ∧ e.timestamp = 0) := by
  have hn := h.next_eq
  have hl := h.last_eq
  have hd : es.length - b.buffer.length ≤ es.length := Nat.sub_le _ _
  have e1 : Status b = none ↔ scanTime (es.drop (es.length - b.buffer.length)) = none ∨
      scanTime (es.drop (es.length - b.buffer.length)).reverse = none := by
    rw [Status_scan h]
    cases scanTime (es.drop (es.length - b.buffer.length)) with
    | none => simp
    | some o =>
      cases scanTime (es.drop (es.length - b.buffer.length)).reverse with
      | none => simp
      | some n => simp
  rw [e1, scan_fwd_none, scan_bwd_none es _ hd, hl, hn]
  constructor
  · rintro (⟨k, h1, h2, h3⟩ | ⟨k, h1, h2, h3⟩)
    · exact Or.inl ⟨k, by omega, h2, fun j a1 a2 => h3 j (by omega) a2⟩
    · exact Or.inr ⟨k, by omega, h2, fun j a1 a2 => h3 j a1 (by omega)⟩
  · rintro (⟨k, h1, h2, h3⟩ | ⟨k, h1, h2, h3⟩)
    · exact Or.inl ⟨k, by omega, h2, fun j a1 a2 => h3 j (by omega) a2⟩
    · exact Or.inr ⟨k, by omega, h2, fun j a1 a2 => h3 j a1 (by omega)⟩

/-- On a state reached by writes, what `Status` returns when it returns: the
two counts, the time of the lowest buffered sequence whose time is not zero,
the time of the highest one, and the zero time twice when no buffered event
has a time that is not zero. -/
theorem Status_fields {b : RingBuffer} {es : List EventRef} (h : RingInv b es)
    {st : RingBufferStatus} (hst : Status b = some st) :
    st.NumEvents = b.next - b.last ∧ st.SeenEvents = b.next ∧
      (∀ (k : Nat) (e : Event), b.last ≤ (k : Int) → es[k]? = some (some e) →
        e.timestamp ≠ 0 →
        (∀ (j : Nat) (x : Event), b.last ≤ (j : Int) → j < k → es[j]? = some (some x) →
          x.timestamp = 0) →
        st.OldestEventTime = e.timestamp) ∧
      (∀ (k : Nat) (e : Event), b.last ≤ (k : Int) → es[k]? = some (some e) →
        e.timestamp ≠ 0 →
        (∀ (j : Nat) (x : Event), k < j → es[j]? = some (some x) → x.timestamp = 0) →
        st.NewestEventTime = e.timestamp) ∧
      ((∀ (j : Nat) (x : Event), b.last ≤ (j : Int) → es[j]? = some (some x) →
          x.timestamp = 0) →
        st.OldestEventTime = 0 ∧ st.NewestEventTime = 0) := by
  have hl := h.last_eq
  have hd : es.length - b.buffer.length ≤ es.length := Nat.sub_le _ _
  rw [Status_scan h] at hst
  cases ho : scanTime (es.drop (es.length - b.buffer.length)) with
  | none => simp [ho] at hst
  | some o =>
    cases hw : scanTime (es.drop (es.length - b.buffer.length)).reverse with
    | none => simp [ho, hw] at hst
    | some n =>
      simp only [ho, hw, Option.some_bind, Option.some.injEq] at hst
      subst hst
      obtain ⟨f1, f2⟩ := scan_fwd_some ho
      obtain ⟨g1, g2⟩ := scan_bwd_some hd hw
      refine ⟨rfl, rfl, ?_, ?_, ?_⟩
      · intro k e hk he hne hall
        exact f1 k e (by omega) he hne (fun j x a1 a2 a3 => hall j x (by omega) a2 a3)
      · intro k e hk he hne hall
        exact g1 k e (by omega) he hne hall
      · intro hall
        exact ⟨f2 (fun j x a1 a2 => hall j x (by omega) a2),
          g2 (fun j x a1 a2 => hall j x (by omega) a2)⟩

/-- On a state reached by writes, `Status` returns when no buffered event is
nil. -/
theorem Status_returns {b : RingBuffer} {es : List EventRef} (h : RingInv b es)
    (hnil : ∀ k : Nat, b.last ≤ (k : Int) → es[k]? ≠ some none) :
    ∃ st, Status b = some st := by
  cases hst : Status b with
  | some st => exact ⟨st, rfl⟩
  | none =>
    rcases (Status_none_iff h).mp hst with ⟨k, h1, h2, -⟩ | ⟨k, h1, h2, -⟩
    · exact absurd h2 (hnil k h1)
    · exact absurd h2 (hnil k h1)

/-! ## The claims about the ring -/

/-- C1 fails on the code when a nil event is written: `Write(nil)` is
accepted (capacity 3, one write, `next = 1`), and `Status` then panics, because
`eventTime` dereferences the nil event. -/
theorem C1_status_panics_after_nil_write :
    ∃ s0 s, newSystem [3] = some s0 ∧ run s0 [.write none] = some s ∧ s.b.next = 1 ∧
      Status s.b = none :=
  ⟨⟨⟨0, 0, [none, none, none], [], 0, 0⟩, []⟩, ⟨⟨0, 1, [none, none, none], [], 0, 0⟩, []⟩,
    by decide, by decide, by decide, by decide⟩

/-- C1, corrected for nil events. Let `NewRingBuffer(WithCapacity(C))` with `C > 0` have
returned a buffer, and let the events `e_0 .. e_{n-1}`, nil or not, be written
to it. Every write returns, and then `next = n`, `last = max 0 (n - C)`, the
slot at index `s mod C` holds `e_s` for every buffered sequence `s`, and
`Buffer(nil)` returns the events from `e_last` to `e_{n-1}` in write order, nil
when `n = 0`. `Status` panics exactly when one of its scans (forwards from
`last`, backwards from `next - 1`) meets a nil event before an event whose
time is not zero; it returns when no buffered event is nil; and whenever it
returns it reports `NumEvents = min n C` and `SeenEvents = n`. -/
theorem C1_writes_then_observe (C : Nat) (hC : 0 < C) (evs : List EventRef) (s0 : System)
    (h0 : newSystem [(C : Int)] = some s0) :
    ∃ s r, run s0 (evs.map Action.write) = some s ∧
      s.b.next = (evs.length : Int) ∧
      s.b.last = max 0 ((evs.length : Int) - (C : Int)) ∧
      (∀ k : Nat, s.b.last ≤ (k : Int) → (k : Int) < s.b.next →
        load s.b.buffer (Int.tmod (k : Int) (C : Int)) = evs[k]?) ∧
      (Status s.b = none ↔
        (∃ k : Nat, s.b.last ≤ (k : Int) ∧ evs[k]? = some none ∧
          ∀ j : Nat, s.b.last ≤ (j : Int) → j < k →
            ∃ e : Event, evs[j]? = some (some e) ∧ e.timestamp = 0) ∨
        (∃ k : Nat, s.b.last ≤ (k : Int) ∧ evs[k]? = some none ∧
          ∀ j : Nat, k < j → (j : Int) < s.b.next →
            ∃ e : Event, evs[j]? = some (some e) ∧ e.timestamp = 0)) ∧
      ((∀ k : Nat, s.b.last ≤ (k : Int) → evs[k]? ≠ some none) →
        ∃ st, Status s.b = some st) ∧
      (∀ st, Status s.b = some st →
        st.NumEvents = min (evs.length : Int) (C : Int) ∧ st.SeenEvents = (evs.length : Int)) ∧
      Buffer s.b Slice.nil = some r ∧
      r.elems = evs.drop (evs.length - C) ∧
      (evs = [] → r = Slice.nil) := by
  obtain ⟨s, hs⟩ := runNew_writes h0 evs
  have hinv := runNew_ringInv hs
  rw [writtenBy_map_write] at hinv
  have hcap := runNew_capacity hs
  have hrun : run s0 (evs.map Action.write) = some s := by
    simpa [runNew, h0] using hs
  obtain ⟨r, hr, hel, hlen⟩ := Buffer_fits hinv (by omega) Slice.nil (by simp [Slice.WF, Slice.nil])
    (Or.inl (by simp [Slice.cap, Slice.nil]; omega))
  have hn := hinv.next_eq
  have hl := hinv.last_eq
  rw [hcap] at hl hel
  refine ⟨s, r, hrun, hn, ?_, ?_, Status_none_iff hinv, Status_returns hinv, ?_, hr, hel, ?_⟩
  · rw [hl]; omega
  · intro k h1 h2
    have := load_slot hinv k (by rw [hcap]; omega) (by omega)
    rw [hcap] at this
    exact this
  · intro st hst
    obtain ⟨a1, a2, -⟩ := Status_fields hinv hst
    rw [a1, a2, hn, hl]
    exact ⟨by omega, rfl⟩
  · intro he
    subst he
    have h0' : s.b.last = s.b.next := by rw [hl, hn]; simp
    have hC0 : s.b.buffer.length ≠ 0 := by omega
    simp [Buffer, hC0, h0'] at hr
    exact hr.symm

theorem C1_writes_then_observe_witness :
    ∃ s r st, run ⟨⟨0, 0, [none, none, none], [], 0, 0⟩, []⟩
        [.write (some ⟨1, 10⟩), .write (some ⟨2, 20⟩), .write (some ⟨3, 30⟩),
          .write (some ⟨4, 40⟩), .write (some ⟨5, 50⟩)] = some s ∧
      s.b.next = 5 ∧ s.b.last = 2 ∧
      Status s.b = some st ∧ st.NumEvents = 3 ∧ st.SeenEvents = 5 ∧
      Buffer s.b Slice.nil = some r ∧
      r.elems = [some ⟨3, 30⟩, some ⟨4, 40⟩, some ⟨5, 50⟩] := by
  obtain ⟨s, r, h1, h2, h3, -, -, h4, h5, h6, h7, -⟩ := C1_writes_then_observe 3 (by decide)
    [some ⟨1, 10⟩, some ⟨2, 20⟩, some ⟨3, 30⟩, some ⟨4, 40⟩, some ⟨5, 50⟩]
    ⟨⟨0, 0, [none, none, none], [], 0, 0⟩, []⟩ (by decide)
  obtain ⟨st, hst⟩ := h4 (by
    intro k _
    rcases k with _ | _ | _ | _ | _ | k <;> simp)
  obtain ⟨h8, h9⟩ := h5 st hst
  exact ⟨s, r, st, h1, h2, h3, hst, h8, h9, h6, h7⟩

/-- C2. Bounded size: in every state reached from `NewRingBuffer(options...)`
by any run (writes, and whatever readers do in between), also with capacity 0,
`0 ≤ next - last ≤ len(buffer)`. -/
theorem C2_bounded_size (caps : List Int) (acts : List Action) (s : System)
    (h : runNew caps acts = some s) :
    0 ≤ s.b.next - s.b.last ∧ s.b.next - s.b.last ≤ (s.b.buffer.length : Int) := by
  have hinv := runNew_ringInv h
  rw [hinv.next_eq, hinv.last_eq]
  omega

theorem C2_bounded_size_witness :
    runNew [2] [.write (some ⟨1, 10⟩), .readNew 0, .write (some ⟨2, 20⟩), .write (some ⟨3, 30⟩)]
        = some ⟨⟨1, 3, [some ⟨3, 30⟩, some ⟨2, 20⟩], [0], 0, 2⟩,
            [⟨.new, ⟨0, [], 0, [], false⟩, ⟨0, 2⟩, false, true, .exited, 0, 0, none, .notCalled⟩]⟩ ∧
      0 ≤ (3 : Int) - 1 ∧ (3 : Int) - 1 ≤ ((2 : Nat) : Int) :=
  ⟨by decide, C2_bounded_size [2]
    [.write (some ⟨1, 10⟩), .readNew 0, .write (some ⟨2, 20⟩), .write (some ⟨3, 30⟩)]
    ⟨⟨1, 3, [some ⟨3, 30⟩, some ⟨2, 20⟩], [0], 0, 2⟩,
      [⟨.new, ⟨0, [], 0, [], false⟩, ⟨0, 2⟩, false, true, .exited, 0, 0, none, .notCalled⟩]⟩
    (by decide)⟩

/-- C3 fails on the code for a destination that is longer than the number of
buffered events and has room for all slots: capacity 3, one event written,
a destination of length 3. `Buffer` returns a slice of length 3, not
`next - last = 1`: the event followed by two stale elements of the
destination. -/
theorem C3_longer_destination_not_truncated :
    ∃ s r, runNew [3] [.write (some ⟨1, 10⟩)] = some s ∧
      Buffer s.b ⟨[some ⟨7, 70⟩, some ⟨8, 80⟩, some ⟨9, 90⟩], 3⟩ = some r ∧
      s.b.next - s.b.last = 1 ∧ r.len = 3 ∧
      r.elems = [some ⟨1, 10⟩, some ⟨8, 80⟩, some ⟨9, 90⟩] :=
  ⟨⟨⟨0, 1, [some ⟨1, 10⟩, none, none], [], 0, 0⟩, []⟩,
   ⟨[some ⟨1, 10⟩, some ⟨8, 80⟩, some ⟨9, 90⟩], 3⟩, by decide, by decide, by decide, rfl, by decide⟩

/-- C10 fails on the code in a reachable state that holds a nil event:
capacity 2, `Write(e)` with time 10, then `Write(nil)`. Both writes return, and
`Status` panics: its backward scan starts at the nil event and `eventTime`
dereferences it. -/
theorem C10_status_panics_on_nil_event :
    ∃ s, runNew [2] [.write (some ⟨1, 10⟩), .write none] = some s ∧ Status s.b = none :=
  ⟨⟨⟨0, 2, [some ⟨1, 10⟩, none], [], 0, 0⟩, []⟩, by decide, by decide⟩

/-- C10, corrected for nil events. In every state reached from `NewRingBuffer` by any run, with
`es` the events written (event `k` has sequence `k`): `Status` panics exactly
when one of its two scans meets a nil event before an event whose time is not
zero (the forward scan from `last`, the backward scan from `next - 1`), so it
returns when no buffered event is nil. Whenever it returns, `NumEvents =
next - last` and `SeenEvents = next`; `OldestEventTime` is the time of the
lowest buffered sequence with a non-zero time, `NewestEventTime` that of the
highest one, and both are the zero time when no buffered event has a non-zero
time (in particular when the buffer is empty). Events with a zero time are
counted in `NumEvents`. -/
theorem C10_status_fields (caps : List Int) (acts : List Action) (s : System)
    (h : runNew caps acts = some s) :
    (Status s.b = none ↔
      (∃ k : Nat, s.b.last ≤ (k : Int) ∧ (writtenBy acts)[k]? = some none ∧
        ∀ j : Nat, s.b.last ≤ (j : Int) → j < k →
          ∃ e : Event, (writtenBy acts)[j]? = some (some e) ∧ e.timestamp = 0) ∨
      (∃ k : Nat, s.b.last ≤ (k : Int) ∧ (writtenBy acts)[k]? = some none ∧
        ∀ j : Nat, k < j → (j : Int) < s.b.next →
          ∃ e : Event, (writtenBy acts)[j]? = some (some e) ∧ e.timestamp = 0)) ∧
    ((∀ k : Nat, s.b.last ≤ (k : Int) → (writtenBy acts)[k]? ≠ some none) →
      ∃ st, Status s.b = some st) ∧
    (∀ st, Status s.b = some st →
      s.b.next = ((writtenBy acts).length : Int) ∧
      st.NumEvents = s.b.next - s.b.last ∧ st.SeenEvents = s.b.next ∧
      (∀ (k : Nat) (e : Event), s.b.last ≤ (k : Int) → (writtenBy acts)[k]? = some (some e) →
        e.timestamp ≠ 0 →
        (∀ (j : Nat) (x : Event), s.b.last ≤ (j : Int) → j < k →
          (writtenBy acts)[j]? = some (some x) → x.timestamp = 0) →
        st.OldestEventTime = e.timestamp) ∧
      (∀ (k : Nat) (e : Event), s.b.last ≤ (k : Int) → (writtenBy acts)[k]? = some (some e) →
        e.timestamp ≠ 0 →
        (∀ (j : Nat) (x : Event), k < j → (writtenBy acts)[j]? = some (some x) →
          x.timestamp = 0) →
        st.NewestEventTime = e.timestamp) ∧
      ((∀ (j : Nat) (x : Event), s.b.last ≤ (j : Int) → (writtenBy acts)[j]? = some (some x) →
          x.timestamp = 0) →
        st.OldestEventTime = 0 ∧ st.NewestEventTime = 0)) := by
  have hinv := runNew_ringInv h
  exact ⟨Status_none_iff hinv, Status_returns hinv,
    fun st hst => ⟨hinv.next_eq, Status_fields hinv hst⟩⟩

theorem C10_status_fields_witness :
    ∃ st, Status (⟨1, 4, [some ⟨4, 0⟩, some ⟨2, 0⟩, some ⟨3, 30⟩], [], 0, 0⟩ : RingBuffer) = some st ∧
      st.NumEvents = 3 ∧ st.SeenEvents = 4 ∧ st.OldestEventTime = 30 ∧ st.NewestEventTime = 30 := by
  obtain ⟨-, hret, hf⟩ := C10_status_fields [3]
    [.write (some ⟨1, 10⟩), .write (some ⟨2, 0⟩), .write (some ⟨3, 30⟩), .write (some ⟨4, 0⟩)]
    ⟨⟨1, 4, [some ⟨4, 0⟩, some ⟨2, 0⟩, some ⟨3, 30⟩], [], 0, 0⟩, []⟩ (by decide)
  obtain ⟨st, hst⟩ := hret (by
    intro k _
    rcases k with _ | _ | _ | _ | k <;> simp [writtenBy])
  obtain ⟨-, h3, h4, h5, h6, -⟩ := hf st hst
  refine ⟨st, hst, h3, h4, ?_, ?_⟩
  · refine h5 2 ⟨3, 30⟩ (by decide) (by decide) (by decide) ?_
    intro j d hj1 hj2 hd
    have hj : j = 1 := by simp only at hj1; omega
    subst hj
    simp [writtenBy] at hd
    subst hd
    rfl
  · refine h6 2 ⟨3, 30⟩ (by decide) (by decide) (by decide) ?_
    intro j d hj1 hd
    have hj : j = 3 := by
      have := (List.getElem?_eq_some_iff.mp hd).1
      simp [writtenBy] at this
      omega
    subst hj
    simp [writtenBy] at hd
    subst hd
    rfl

/-! ## Followers made by `ReadNew` -/

/-- While its cancel function has not been called, a reader made by `ReadNew`
stays registered and every write adds one to `Sent` or to `Dropped`. -/
theorem newFollower_step {s s2 : System} {a : Action} {id : Nat} {r : Reader} {a0 : Int}
    (hs : Sound s) (h : step s a = some s2) (hr : s.rs[id]? = some r)
    (hk : r.kind = .new) (hc : r.cancel = .notCalled)
    (hsum : r.stats.Sent + r.stats.Dropped = s.b.next - a0)
    (ha : a ≠ .move id .cancel) :
    ∃ r2, s2.rs[id]? = some r2 ∧ r2.kind = .new ∧ r2.cancel = .notCalled ∧
      r2.stats.Sent + r2.stats.Dropped = s2.b.next - a0 := by
  have hok := hs.ok id r hr
  have hreg : id ∈ s.b.readers := by
    have := (hok.2.1 hk).mpr hc
    simpa using this
  obtain ⟨r2, hr2, hcase⟩ := step_reader hs h hr
  refine ⟨r2, hr2, ?_⟩
  rcases hcase with ⟨e, rfl, hn, -, -, ⟨-, sent, ho⟩ | ⟨hno, -⟩⟩ |
    ⟨m, g, rfl, hm, hn, -, -, -⟩ | ⟨-, -, rfl, hn, -, -, -⟩
  · obtain ⟨a1, -, a3, -, -, -, -, -, -, -, -, -, -, a14, a15⟩ := offer_eq ho hok.2.2.2.2.2
    refine ⟨by rw [a1, hk], by rw [a3, hc], ?_⟩
    cases sent
    · rw [(a15 rfl).2, hn]; simp only; omega
    · rw [(a14 rfl).2, hn]; simp only; omega
  · exact absurd hreg hno
  · have hm2 : m ≠ .cancel := fun hmc => ha (by rw [hmc])
    obtain ⟨b1, b2, b3, -⟩ := move_new hk hok hm hm2
    exact ⟨b1, by rw [b3, hc], by rw [b2, hn]; exact hsum⟩
  · exact ⟨hk, hc, by rw [hn]; exact hsum⟩

theorem newFollower_run (a0 : Int) {s0 : System} {id : Nat} (hs0 : Sound s0)
    {r0 : Reader} (hr0 : s0.rs[id]? = some r0) (hk0 : r0.kind = .new)
    (hc0 : r0.cancel = .notCalled) (hsum0 : r0.stats.Sent + r0.stats.Dropped = s0.b.next - a0)
    {acts : List Action} {s : System} (h : run s0 acts = some s)
    (hacts : ∀ a ∈ acts, a ≠ .move id .cancel) :
    ∃ r, s.rs[id]? = some r ∧ r.kind = .new ∧ r.cancel = .notCalled ∧
      r.stats.Sent + r.stats.Dropped = s.b.next - a0 := by
  have key := run_induction (P := fun s acts =>
    (∀ a ∈ acts, a ≠ Action.move id Move.cancel) →
      Sound s ∧ ∃ r, s.rs[id]? = some r ∧ r.kind = .new ∧ r.cancel = .notCalled ∧
        r.stats.Sent + r.stats.Dropped = s.b.next - a0)
    (fun _ => ⟨hs0, r0, hr0, hk0, hc0, hsum0⟩)
    (by
      intro s acts a s2 _ ih hstep hall
      obtain ⟨hs, r, hr, hk, hc, hsum⟩ := ih (fun x hx => hall x (by simp [hx]))
      exact ⟨step_sound hs hstep,
        newFollower_step hs hstep hr hk hc hsum (hall a (by simp))⟩) h
  exact (key hacts).2

/-- Once the locked section of the cancel function of a `ReadNew` reader has
copied the statistics, that copy is what the function returns, whatever
happens in between. -/
theorem cancelled_step {s s2 : System} {a : Action} {id : Nat} {r : Reader} {c : ReaderStats}
    (hs : Sound s) (h : step s a = some s2) (hr : s.rs[id]? = some r)
    (hk : r.kind = .new) (hc : r.cancel = .unlocked (some c) ∨ r.cancel = .returned c) :
    ∃ r2, s2.rs[id]? = some r2 ∧ r2.kind = .new ∧
      (r2.cancel = .unlocked (some c) ∨ r2.cancel = .returned c) := by
  have hok := hs.ok id r hr
  obtain ⟨r2, hr2, hcase⟩ := step_reader hs h hr
  refine ⟨r2, hr2, ?_⟩
  rcases hcase with ⟨e, rfl, -, -, -, ⟨-, sent, ho⟩ | ⟨-, rfl⟩⟩ |
    ⟨m, g, rfl, hm, -, -, -, -⟩ | ⟨-, -, rfl, -, -, -, -⟩
  · obtain ⟨a1, -, a3, -⟩ := offer_eq ho hok.2.2.2.2.2
    exact ⟨by rw [a1, hk], by rw [a3]; exact hc⟩
  · exact ⟨hk, hc⟩
  · by_cases hmc : m = .cancel
    · subst hmc
      simp only [Reader.move] at hm
      obtain ⟨-, ⟨h1, -⟩ | ⟨h1, -⟩ | ⟨-, h2, -⟩ | ⟨-, -, copy, h2, rfl, -⟩ | ⟨h1, -⟩ |
        ⟨h1, -⟩⟩ := cancelStep_cases hm
      · rw [hk] at h1; cases h1
      · rw [hk] at h1; cases h1
      · rcases hc with hc | hc <;> rw [hc] at h2 <;> cases h2
      · refine ⟨hk, Or.inr ?_⟩
        rcases hc with hc | hc
        · rw [hc] at h2
          simp only [CancelState.unlocked.injEq, Option.some.injEq] at h2
          rw [h2]
        · rw [hc] at h2; cases h2
      · rw [hk] at h1; cases h1
      · rw [hk] at h1; cases h1
    · obtain ⟨b1, -, b3, -⟩ := move_new hk hok hm hmc
      exact ⟨b1, by rw [b3]; exact hc⟩
  · exact ⟨hk, hc⟩

theorem cancelled_run {s0 : System} {id : Nat} {c : ReaderStats} (hs0 : Sound s0)
    {r0 : Reader} (hr0 : s0.rs[id]? = some r0) (hk0 : r0.kind = .new)
    (hc0 : r0.cancel = .unlocked (some c) ∨ r0.cancel = .returned c)
    {acts : List Action} {s : System} (h : run s0 acts = some s) :
    ∃ r, s.rs[id]? = some r ∧ r.kind = .new ∧
      (r.cancel = .unlocked (some c) ∨ r.cancel = .returned c) := by
  have key := run_induction (P := fun s _ =>
      Sound s ∧ ∃ r, s.rs[id]? = some r ∧ r.kind = .new ∧
        (r.cancel = .unlocked (some c) ∨ r.cancel = .returned c))
    ⟨hs0, r0, hr0, hk0, hc0⟩
    (by
      intro s acts a s2 _ ih hstep
      obtain ⟨hs, r, hr, hk, hc⟩ := ih
      exact ⟨step_sound hs hstep, cancelled_step hs hstep hr hk hc⟩) h
  exact key.2

/-- C4. Conservation for follow-only readers. A reader is made by `ReadNew(k)`
when `next = a` (state `s0`); then anything happens except a call of its
cancel function (writes, receives on its channel, other readers); its cancel
function is called when `next = b` (state `s2`) and, after any further steps,
has returned `stats`. Then `stats.Sent + stats.Dropped = b - a`. -/
theorem C4_conservation (caps : List Int) (pre mid post : List Action) (k : Int)
    (s0 s1 s2 s3 s4 : System) (r : Reader) (stats : ReaderStats)
    (h0 : runNew caps pre = some s0)
    (h1 : step s0 (.readNew k) = some s1)
    (h2 : run s1 mid = some s2)
    (hmid : ∀ a ∈ mid, a ≠ .move s0.rs.length .cancel)
    (h3 : step s2 (.move s0.rs.length .cancel) = some s3)
    (h4 : run s3 post = some s4)
    (hr : s4.rs[s0.rs.length]? = some r)
    (hc : r.cancel = .returned stats) :
    stats.Sent + stats.Dropped = s2.b.next - s0.b.next := by
  have hs0 := runNew_sound h0
  have hs1 := step_sound hs0 h1
  have hs2 := run_sound hs1 h2
  have hs3 := step_sound hs2 h3
  -- the reader as `ReadNew` made it
  obtain ⟨r1, g, hmade, rfl⟩ := add_eq h1
  have hmk := ReadNew_eq hmade
  simp only [Prod.mk.injEq] at hmk
  obtain ⟨rfl, rfl⟩ := hmk
  have hr1 : (s0.rs ++ [newReader Kind.new ⟨k.toNat, [], 0, [], false⟩ true Pc.exited 0 0 none])[
      s0.rs.length]? = some (newReader Kind.new ⟨k.toNat, [], 0, [], false⟩ true Pc.exited 0 0 none) := by
    simp
  -- up to the call of cancel
  obtain ⟨r2, hr2, hk2, hc2, hsum2⟩ := newFollower_run s0.b.next hs1 hr1 rfl rfl
    (by simp [newReader]) h2 hmid
  -- the locked section of cancel copies the statistics
  obtain ⟨r3, hr3, hcase⟩ := step_reader hs2 h3 hr2
  have hcopy : r3.kind = .new ∧ r3.cancel = .unlocked (some r2.stats) := by
    rcases hcase with ⟨e, he, -⟩ | ⟨m, g, hm, hmv, -⟩ | ⟨-, hne, -⟩
    · cases he
    · simp only [Action.move.injEq, true_and] at hm
      subst hm
      simp only [Reader.move] at hmv
      obtain ⟨-, ⟨h1, -⟩ | ⟨h1, -⟩ | ⟨-, -, -, rfl, -⟩ | ⟨-, -, copy, h2, -⟩ | ⟨h1, -⟩ |
        ⟨h1, -⟩⟩ := cancelStep_cases hmv
      · rw [hk2] at h1; cases h1
      · rw [hk2] at h1; cases h1
      · exact ⟨hk2, rfl⟩
      · rw [hc2] at h2; cases h2
      · rw [hk2] at h1; cases h1
      · rw [hk2] at h1; cases h1
    · exact absurd rfl (hne .cancel)
  -- and that copy is what is returned
  obtain ⟨r4, hr4, -, hc4⟩ := cancelled_run hs3 hr3 hcopy.1 (Or.inl hcopy.2) h4
  rw [hr] at hr4
  obtain rfl := Option.some.inj hr4
  rcases hc4 with h5 | h5
  · rw [hc] at h5; cases h5
  · rw [hc] at h5
    simp only [CancelState.returned.injEq] at h5
    rw [h5]
    exact hsum2

theorem C4_conservation_witness :
    ∃ s0 s2 s4 r, runNew [1] [] = some s0 ∧
      runNew [1] [.readNew 0, .write (some ⟨1, 10⟩), .move 0 .recv, .write (some ⟨2, 20⟩)] = some s2 ∧
      runNew [1] [.readNew 0, .write (some ⟨1, 10⟩), .move 0 .recv, .write (some ⟨2, 20⟩),
        .move 0 .cancel, .write (some ⟨3, 30⟩), .move 0 .cancel] = some s4 ∧
      s4.rs[0]? = some r ∧ r.cancel = .returned ⟨1, 1⟩ ∧
      (1 : Int) + 1 = s2.b.next - s0.b.next :=
  ⟨_, _, _, _, rfl, rfl, rfl, rfl, rfl,
    C4_conservation [1] [] [.write (some ⟨1, 10⟩), .move 0 .recv, .write (some ⟨2, 20⟩)]
      [.write (some ⟨3, 30⟩), .move 0 .cancel] 0 _ _ _ _ _ _ ⟨1, 1⟩ rfl rfl rfl (by decide) rfl rfl
      rfl rfl⟩

theorem recv_delivered (c : Chan) : c.recv.delivered = c.delivered := by
  unfold Chan.recv
  split
  · rename_i v rest hv
    simp [Chan.delivered, hv]
  · split_ifs <;> rfl

theorem stopRecv_delivered {c c2 : Chan} (h : c.stopRecv = some c2) :
    c2.delivered = c.delivered := by
  unfold Chan.stopRecv at h
  split_ifs at h
  obtain rfl := Option.some.inj h
  rfl

/-- A registered reader has no goroutine: apart from its cancel function, only
its consumer moves it, and that changes neither what was put on the channel
nor the statistics. -/
theorem move_registered {b : RingBuffer} {r r2 : Reader} {m : Move} {g : Reg}
    (hok : r.ok true) (h : r.move b true m = some (r2, g)) (hm : m ≠ .cancel) :
    g = .keep ∧ r2.stats = r.stats ∧ r2.ch.delivered = r.ch.delivered := by
  have hp : r.pc = .exited := (hok.1 rfl).1
  cases m with
  | cancel => exact absurd rfl hm
  | recv =>
    simp only [Reader.move] at h
    split_ifs at h
    simp only [Option.some.injEq, Prod.mk.injEq] at h
    obtain ⟨rfl, rfl⟩ := h
    exact ⟨rfl, rfl, recv_delivered _⟩
  | stopRecv =>
    simp only [Reader.move, Option.bind_eq_bind] at h
    cases hc : r.ch.stopRecv with
    | none => simp [hc] at h
    | some c =>
      simp only [hc, Option.some_bind, Option.some.injEq, Prod.mk.injEq] at h
      obtain ⟨rfl, rfl⟩ := h
      exact ⟨rfl, rfl, stopRecv_delivered hc⟩
  | task => simp [Reader.move, taskStep, hp] at h
  | taskDone =>
    simp only [Reader.move] at h
    obtain ⟨-, -, ⟨h1, -⟩ | ⟨h1, -⟩⟩ := taskDone_cases h <;> simp [hp] at h1

theorem offered_cons_write (id : Nat) (want : Bool) (s s2 : System) (e : EventRef)
    (acts : List Action) (r : Reader) (hr : s.rs[id]? = some r) (hreg : id ∈ s.b.readers)
    (h : step s (.write e) = some s2) :
    offered id want s (.write e :: acts)
      = (if r.ch.canAccept = want then [e] else []) ++ offered id want s2 acts := by
  simp [offered, hr, hreg, h]

theorem offered_cons_other (id : Nat) (want : Bool) (s s2 : System) (a : Action)
    (acts : List Action) (ha : ∀ e, a ≠ .write e) (h : step s a = some s2) :
    offered id want s (a :: acts) = offered id want s2 acts := by
  cases a with
  | write e => exact absurd rfl (ha e)
  | _ => simp [offered, h]

/-- What a run does to a registered reader whose cancel function is not
called: the events of the writes at which its channel could take a value are
put on the channel, in order, and counted in `Sent`; the other writes are
counted in `Dropped`. -/
theorem follower_run (id : Nat) : ∀ (acts : List Action) (s0 s : System) (r0 : Reader),
    Sound s0 → s0.rs[id]? = some r0 → id ∈ s0.b.readers →
    (∀ a ∈ acts, a ≠ .move id .cancel) → run s0 acts = some s →
    ∃ r, s.rs[id]? = some r ∧ id ∈ s.b.readers ∧
      r.ch.delivered = r0.ch.delivered ++ offered id true s0 acts ∧
      r.stats.Sent = r0.stats.Sent + (offered id true s0 acts).length ∧
      r.stats.Dropped = r0.stats.Dropped + (offered id false s0 acts).length ∧
      (offered id true s0 acts).Sublist (writtenBy acts) ∧
      (offered id true s0 acts).length + (offered id false s0 acts).length
        = (writtenBy acts).length := by
  intro acts
  induction acts with
  | nil =>
    intro s0 s r0 _ hr0 hreg _ h
    simp [run] at h
    subst h
    exact ⟨r0, hr0, hreg, by simp [offered], by simp [offered], by simp [offered],
      by simp [offered, writtenBy], by simp [offered, writtenBy]⟩
  | cons a acts ih =>
    intro s0 s r0 hs0 hr0 hreg hacts h
    rw [run_cons] at h
    cases h1 : step s0 a with
    | none => simp [h1] at h
    | some s1 =>
      simp only [h1, Option.some_bind] at h
      have hok := hs0.ok id r0 hr0
      have hok' : r0.ok true := by simpa [hreg] using hok
      obtain ⟨r1, hr1, hcase⟩ := step_reader hs0 h1 hr0
      have hs1 := step_sound hs0 h1
      have hacts' : ∀ x ∈ acts, x ≠ Action.move id Move.cancel :=
        fun x hx => hacts x (by simp [hx])
      rcases hcase with ⟨e, rfl, -, -, hmem, ⟨-, sent, ho⟩ | ⟨hno, -⟩⟩ |
        ⟨m, g, rfl, hm, -, -, -, hmem⟩ | ⟨hnw, -, rfl, -, -, -, hmem⟩
      · obtain ⟨r, hr, hreg2, c1, c2, c3, c4, c5⟩ := ih s1 s r1 hs1 hr1 (hmem.mpr hreg) hacts' h
        obtain ⟨-, -, -, -, -, -, -, -, -, -, -, -, a13, a14, a15⟩ := offer_eq ho hok.2.2.2.2.2
        rw [offered_cons_write id true s0 s1 e acts r0 hr0 hreg h1,
          offered_cons_write id false s0 s1 e acts r0 hr0 hreg h1, writtenBy_cons_write]
        refine ⟨r, hr, hreg2, ?_, ?_, ?_, ?_, ?_⟩
        · cases sent
          · rw [c1, (a15 rfl).1]; simp [← a13]
          · rw [c1, (a14 rfl).1]; simp [← a13]
        · cases sent
          · rw [c2, (a15 rfl).2]; simp [← a13]
          · rw [c2, (a14 rfl).2]; simp [← a13]; omega
        · cases sent
          · rw [c3, (a15 rfl).2]; simp [← a13]; omega
          · rw [c3, (a14 rfl).2]; simp [← a13]
        · cases sent
          · simp only [← a13, Bool.false_eq_true, if_false, List.nil_append]
            exact c4.cons e
          · simp only [← a13, if_true, List.singleton_append]
            exact c4.cons₂ e
        · cases sent <;> simp [← a13] <;> omega
      · exact absurd hreg hno
      · have hmc : m ≠ .cancel := fun hmc =>
          hacts (Action.move id m) (List.mem_cons_self _ _) (by rw [hmc])
        simp only [hreg, decide_True] at hm
        obtain ⟨rfl, b2, b3⟩ := move_registered hok' hm hmc
        have hreg1 : id ∈ s1.b.readers := hmem.mpr (by simp [Reg.after, hreg])
        obtain ⟨r, hr, hreg2, c1, c2, c3, c4, c5⟩ := ih s1 s r1 hs1 hr1 hreg1 hacts' h
        have hnw : ∀ e, Action.move id m ≠ .write e := by simp
        rw [offered_cons_other id true s0 s1 _ acts hnw h1,
          offered_cons_other id false s0 s1 _ acts hnw h1, writtenBy_cons_other _ hnw]
        exact ⟨r, hr, hreg2, by rw [c1, b3], by rw [c2, b2], by rw [c3, b2], c4, c5⟩
      · obtain ⟨r, hr, hreg2, c1, c2, c3, c4, c5⟩ := ih s1 s r1 hs1 hr1 (hmem.mpr hreg) hacts' h
        rw [offered_cons_other id true s0 s1 _ acts hnw h1,
          offered_cons_other id false s0 s1 _ acts hnw h1, writtenBy_cons_other _ hnw]
        exact ⟨r, hr, hreg2, c1, c2, c3, c4, c5⟩

/-- C5. Follower delivery. For a registered follower `id` and a run in which
its cancel function is not called: the events put on its channel are exactly
the events of the writes at which the channel could take a value, in write
order (a sublist of the written events); `Sent` counts those writes and
`Dropped` the others. If the channel could take a value at every write, the
channel got every written event in order and `Dropped` did not move; if it
could at no write, nothing was put on the channel and `Dropped` grew by the
number of writes. -/
theorem C5_follower_delivery (caps : List Int) (pre acts : List Action) (s0 s : System)
    (id : Nat) (r0 : Reader)
    (h0 : runNew caps pre = some s0) (hr0 : s0.rs[id]? = some r0) (hreg : id ∈ s0.b.readers)
    (hacts : ∀ a ∈ acts, a ≠ .move id .cancel) (h : run s0 acts = some s) :
    ∃ r, s.rs[id]? = some r ∧
      r.ch.delivered = r0.ch.delivered ++ offered id true s0 acts ∧
      (offered id true s0 acts).Sublist (writtenBy acts) ∧
      r.stats.Sent = r0.stats.Sent + (offered id true s0 acts).length ∧
      r.stats.Dropped = r0.stats.Dropped + (offered id false s0 acts).length ∧
      (offered id true s0 acts).length + (offered id false s0 acts).length
        = (writtenBy acts).length ∧
      (offered id false s0 acts = [] →
        r.ch.delivered = r0.ch.delivered ++ writtenBy acts ∧
        r.stats.Dropped = r0.stats.Dropped) ∧
      (offered id true s0 acts = [] →
        r.ch.delivered = r0.ch.delivered ∧
        r.stats.Dropped = r0.stats.Dropped + (writtenBy acts).length) := by
  obtain ⟨r, hr, -, c1, c2, c3, c4, c5⟩ :=
    follower_run id acts s0 s r0 (runNew_sound h0) hr0 hreg hacts h
  refine ⟨r, hr, c1, c4, c2, c3, c5, ?_, ?_⟩
  · intro hnone
    rw [hnone] at c3 c5
    have heq := c4.eq_of_length (by simpa using c5)
    exact ⟨by rw [c1, heq], by simpa using c3⟩
  · intro hnone
    rw [hnone] at c1 c5
    simp only [List.length_nil, Nat.zero_add] at c5
    exact ⟨by simpa using c1, by rw [c3, c5]⟩

theorem C5_follower_delivery_witness :
    ∃ s0 s, runNew [1] [.readNew 0] = some s0 ∧
      run s0 [.write (some ⟨1, 10⟩)] = some s ∧
      ∃ r, s.rs[0]? = some r ∧ r.ch.delivered = [] ∧ r.stats.Dropped = 1 := by
  refine ⟨_, _, rfl, rfl, ?_⟩
  obtain ⟨r, hr, -, -, -, -, -, -, h8⟩ := C5_follower_delivery [1] [.readNew 0]
    [.write (some ⟨1, 10⟩)] _ _ 0 _ rfl rfl (by decide) (by decide) rfl
  obtain ⟨h9, h10⟩ := h8 (by decide)
  exact ⟨r, hr, h9, h10⟩

/-- C6 fails on the code. Capacity 2, events `e0`, `e1` written, then
`ReadCurrent(0)` is called: `last = 0` and `L = next = 2`. While the goroutine
is blocked on the send of `e0` the writer writes `e2` and `e3` (the whole
buffer is overwritten, `b.last = 2`). The consumer receives `e0`; the
goroutine takes the read lock with `seq = 1 < b.last = 2`, its test
`last < b.last` is `2 < 2`, so it does not stop: it counts one dropped event,
moves to sequence 2 and sends `e2`, an event written after the call. It ends
with `Sent + Dropped = 3`, not `L - 0 = 2`. -/
theorem C6_readCurrent_sends_later_write :
    ∃ s0 s r, runNew [2] [.write (some ⟨0, 10⟩), .write (some ⟨1, 11⟩)] = some s0 ∧
      s0.b.last = 0 ∧ s0.b.next = 2 ∧
      run s0 [.readCurrent 0, .write (some ⟨2, 12⟩), .write (some ⟨3, 13⟩),
        .move 0 .recv, .move 0 .task, .move 0 .task, .move 0 .recv, .move 0 .task] = some s ∧
      s.rs[0]? = some r ∧ r.pc = .exited ∧ r.ch.closed = true ∧
      r.ch.received = [some ⟨0, 10⟩, some ⟨2, 12⟩] ∧
      r.stats.Sent + r.stats.Dropped = 3 :=
  ⟨_, _, _, rfl, rfl, rfl, rfl, rfl, rfl, rfl, rfl, rfl⟩

/-- In every state reached from `NewRingBuffer`, the channel of a reader made
by `readFrom` is open: nothing in `readFrom` closes it. -/
theorem readFrom_channel_open {caps : List Int} {acts : List Action} {s : System} {id : Nat}
    {r : Reader} (h : runNew caps acts = some s) (hr : s.rs[id]? = some r)
    (hk : r.kind = .from) : r.ch.closed = false :=
  ((runNew_sound h).ok id r hr).2.2.1 hk

/-- C8 fails on the code for `ReadAll` (and `ReadSince`) on a buffer with
capacity > 0. Capacity 1, `ReadAll(0)`, the goroutine registers the reader as
a follower and returns; then the cancel function runs to its end and returns
the statistics. The channel handed to the caller is still open: the cancel
function of `readFrom` closes `doneCh`, never `ch`. -/
theorem C8_readAll_cancel_leaves_channel_open :
    ∃ s r, runNew [1] [.readAll 0, .move 0 .task, .move 0 .task, .move 0 .cancel, .move 0 .cancel]
        = some s ∧
      s.rs[0]? = some r ∧ r.kind = .from ∧ r.pc = .exited ∧ r.done = true ∧
      r.cancel = .returned ⟨0, 0⟩ ∧ r.ch.closed = false :=
  ⟨_, _, rfl, rfl, rfl, rfl, rfl, rfl, rfl⟩

/-! ## `ReadSince` -/

/-- The loop of `ReadSince` on a state reached by writing events: it returns
one more than the newest buffered sequence below `k` whose event has a
non-zero time strictly before `t`, and 0 when there is none. -/
theorem sinceLoop_eq {b : RingBuffer} {evs : List Event} (h : RingInv b (evs.map some))
    (t : Time) :
    ∀ (fuel k : Nat), evs.length - b.buffer.length ≤ k → k ≤ evs.length →
      k - (evs.length - b.buffer.length) ≤ fuel →
      ∃ q : Int, sinceLoop b t fuel ((k : Int) - 1) = some q ∧
        ((q = 0 ∧ ∀ (j : Nat) (e : Event), evs.length - b.buffer.length ≤ j → j < k →
            evs[j]? = some e → ¬ (e.timestamp ≠ 0 ∧ e.timestamp < t)) ∨
         (∃ (j : Nat) (e : Event), evs.length - b.buffer.length ≤ j ∧ j < k ∧ q = (j : Int) + 1 ∧
            evs[j]? = some e ∧ e.timestamp ≠ 0 ∧ e.timestamp < t ∧
            ∀ (i : Nat) (d : Event), j < i → i < k → evs[i]? = some d →
              ¬ (d.timestamp ≠ 0 ∧ d.timestamp < t))) := by
  intro fuel
  induction fuel with
  | zero =>
    intro k h1 _ h3
    exact ⟨0, rfl, Or.inl ⟨rfl, fun j e hj1 hj2 => by omega⟩⟩
  | succ fuel ih =>
    intro k h1 h2 h3
    have hl0 := h.last_eq
    simp only [List.length_map] at hl0
    by_cases hk : evs.length - b.buffer.length < k
    · obtain ⟨j, rfl⟩ : ∃ j, k = j + 1 := ⟨k - 1, by omega⟩
      have hge : ((j + 1 : Nat) : Int) - 1 ≥ b.last := by rw [hl0]; omega
      have hcast : ((j + 1 : Nat) : Int) - 1 = (j : Int) := by omega
      have hj : j < evs.length := by omega
      have hl := load_slot h j (by simp; omega) (by simpa using hj)
      rw [sinceLoop, if_pos hge, hcast, hl]
      simp only [List.getElem?_map, List.getElem?_eq_getElem hj,
        Option.map_some', Option.bind_eq_bind, Option.some_bind, eventTime]
      by_cases hz : (!(evs[j].timestamp).IsZero && (evs[j].timestamp).Before t) = true
      · rw [if_pos hz]
        simp only [Time.IsZero, Time.Before, Bool.and_eq_true, Bool.not_eq_true',
          decide_eq_false_iff_not, decide_eq_true_eq] at hz
        refine ⟨(j : Int) + 1, rfl, Or.inr ⟨j, evs[j], by omega, by omega, rfl,
          List.getElem?_eq_getElem hj, hz.1, hz.2, ?_⟩⟩
        intro i d hi1 hi2
        omega
      · rw [if_neg hz]
        simp only [Time.IsZero, Time.Before, Bool.and_eq_true, Bool.not_eq_true',
          decide_eq_false_iff_not, decide_eq_true_eq] at hz
        obtain ⟨q, hq, hcase⟩ := ih j (by omega) (by omega) (by omega)
        refine ⟨q, hq, ?_⟩
        rcases hcase with ⟨rfl, hall⟩ | ⟨i, e, hi1, hi2, rfl, hi3, hi4, hi5, hi6⟩
        · refine Or.inl ⟨rfl, ?_⟩
          intro i e hi1 hi2 hi3
          by_cases hij : i = j
          · subst hij
            rw [List.getElem?_eq_getElem hj] at hi3
            obtain rfl := Option.some.inj hi3
            exact hz
          · exact hall i e hi1 (by omega) hi3
        · refine Or.inr ⟨i, e, hi1, by omega, rfl, hi3, hi4, hi5, ?_⟩
          intro i2 d hd1 hd2 hd3
          by_cases hij : i2 = j
          · subst hij
            rw [List.getElem?_eq_getElem hj] at hd3
            obtain rfl := Option.some.inj hd3
            exact hz
          · exact hi6 i2 d hd1 (by omega) hd3
    · have hge : ¬ ((k : Int) - 1 ≥ b.last) := by rw [hl0]; omega
      rw [sinceLoop, if_neg hge]
      exact ⟨0, rfl, Or.inl ⟨rfl, fun j e hj1 hj2 => by omega⟩⟩

/-- The sequence at which `ReadSince` starts, on a state reached by writing
events. -/
theorem sinceSeq_eq {b : RingBuffer} {evs : List Event} (h : RingInv b (evs.map some))
    (t : Time) :
    ∃ q : Int, sinceSeq b t = some q ∧
      ((q = 0 ∧ ∀ (j : Nat) (e : Event), evs.length - b.buffer.length ≤ j →
          evs[j]? = some e → ¬ (e.timestamp ≠ 0 ∧ e.timestamp < t)) ∨
       (∃ (j : Nat) (e : Event), evs.length - b.buffer.length ≤ j ∧ q = (j : Int) + 1 ∧
          evs[j]? = some e ∧ e.timestamp ≠ 0 ∧ e.timestamp < t ∧
          ∀ (i : Nat) (d : Event), j < i → evs[i]? = some d →
            ¬ (d.timestamp ≠ 0 ∧ d.timestamp < t))) := by
  have hn := h.next_eq
  have hl := h.last_eq
  simp only [List.length_map] at hn hl
  have hnl : b.next - b.last = ((evs.length - (evs.length - b.buffer.length) : Nat) : Int) := by
    rw [hn, hl]; omega
  obtain ⟨q, hq, hcase⟩ := sinceLoop_eq h t (evs.length - (evs.length - b.buffer.length))
    evs.length (by omega) (le_refl _) (le_refl _)
  refine ⟨q, ?_, ?_⟩
  · unfold sinceSeq
    rw [hnl, Int.toNat_ofNat, hn]
    exact hq
  · rcases hcase with ⟨rfl, hall⟩ | ⟨j, e, h1, h2, rfl, h3, h4, h5, h6⟩
    · refine Or.inl ⟨rfl, fun j e hj he => hall j e hj ?_ he⟩
      exact (List.getElem?_eq_some_iff.mp he).1
    · refine Or.inr ⟨j, e, h1, rfl, h3, h4, h5, fun i d hi hd => h6 i d hi ?_ hd⟩
      exact (List.getElem?_eq_some_iff.mp hd).1

theorem getElem?_concat_set {α : Type} (l : List α) (x y : α) :
    ((l ++ [x]).set l.length y)[l.length]? = some y := by
  rw [List.getElem?_set]
  simp

theorem step_move_of {s : System} {id : Nat} {m : Move} {r r2 : Reader} {g : Reg}
    (hr : s.rs[id]? = some r) (hm : r.move s.b (decide (id ∈ s.b.readers)) m = some (r2, g)) :
    step s (.move id m)
      = some ⟨{ s.b with readers := g.apply s.b.readers id }, s.rs.set id r2⟩ := by
  simp [step, hr, hm]

/-- The copy under the read lock in `readFrom` on a state reached by writing
events, for a cursor that is not past the newest event: the cursor moves up to
`last` if it is behind, the events skipped are counted as dropped, and the
event at the cursor is copied. -/
theorem replayCopy_of {b : RingBuffer} {evs : List Event} (h : RingInv b (evs.map some))
    (hC : 0 < b.buffer.length) (r : Reader) (h0 : 0 ≤ r.seq) (h1 : r.seq < b.next) :
    replayCopy b r = some { r with
      stats := ⟨r.stats.Sent, if r.seq < b.last then r.stats.Dropped + (b.last - r.seq)
                              else r.stats.Dropped⟩,
      seq := max r.seq b.last,
      event := evs[(max r.seq b.last).toNat]?,
      pc := .send } := by
  have hn := h.next_eq
  have hl := h.last_eq
  simp only [List.length_map] at hn hl
  have hslot : ∀ j : Nat, b.last ≤ (j : Int) → (j : Int) < b.next →
      load b.buffer (Int.tmod (j : Int) b.buffer.length) = some (evs[j]?) := by
    intro j hj1 hj2
    rw [load_slot h _ (by simp only [List.length_map]; omega)
      (by simp only [List.length_map]; omega), List.getElem?_map]
    have hlt : j < evs.length := by omega
    rw [List.getElem?_eq_getElem hlt]
    rfl
  unfold replayCopy
  by_cases hlt : r.seq < b.last
  · have hm : max r.seq b.last = b.last := max_eq_right (le_of_lt hlt)
    have hload := hslot (evs.length - b.buffer.length) (by omega) (by omega)
    have htn : b.last.toNat = evs.length - b.buffer.length := by omega
    rw [← hl] at hload
    rw [hm, htn, if_pos hlt, if_pos hlt]
    simp only [hload, Option.bind_eq_bind, Option.some_bind]
  · have hm : max r.seq b.last = r.seq := max_eq_left (by omega)
    obtain ⟨j, hj⟩ : ∃ j : Nat, r.seq = (j : Int) := ⟨r.seq.toNat, by omega⟩
    have hload := hslot j (by omega) (by omega)
    have htn : r.seq.toNat = j := by omega
    rw [← hj] at hload
    rw [hm, htn, if_neg hlt, if_neg hlt]
    simp only [hload, Option.bind_eq_bind, Option.some_bind]

theorem taskStep_top (b : RingBuffer) (r : Reader) (hp : r.pc = .top) :
    taskStep b r =
      if r.seq = b.next then some ({ r with ready := true, pc := .upgrade }, .keep)
      else (replayCopy b { r with ready := true }).bind (fun r2 => some (r2, .keep)) := by
  unfold taskStep
  simp only [hp]
  rfl

/-- What `ReadSince` followed by the first step of its goroutine does on a
buffer with slots, when the loop of `ReadSince` yields `q`: the cursor is `q`
moved up to `last`; at `next` the goroutine goes on to register as a follower,
below `next` it is about to send the event at the cursor. -/
theorem readSince_first_step {s : System} {evs : List Event} (h : RingInv s.b (evs.map some))
    (hC : 0 < s.b.buffer.length) (t : Time) (k q : Int) (hk : 0 ≤ k)
    (hq : sinceSeq s.b t = some q) (hq0 : 0 ≤ q) (hqn : q ≤ s.b.next) :
    ∃ s1 s2 r, step s (.readSince t k) = some s1 ∧
      step s1 (.move s.rs.length .task) = some s2 ∧
      s2.rs[s.rs.length]? = some r ∧ r.kind = .from ∧ r.seq = max q s.b.last ∧
      (max q s.b.last = s.b.next → r.pc = .upgrade) ∧
      (max q s.b.last < s.b.next → r.pc = .send ∧ r.event = evs[(max q s.b.last).toNat]?) := by
  have hC0 : s.b.buffer.length ≠ 0 := by omega
  have hn := h.next_eq
  have hl := h.last_eq
  simp only [List.length_map] at hn hl
  have hch : makeChan k = some ⟨k.toNat, [], 0, [], false⟩ := by simp [makeChan, hk]
  have h1 : step s (.readSince t k)
      = some ⟨{ s.b with readers := Reg.keep.apply s.b.readers s.rs.length },
          s.rs ++ [newReader .from ⟨k.toNat, [], 0, [], false⟩ false .top q 0 none]⟩ := by
    simp [step, ReadSince, hC0, hq, readFrom, hch, System.add]
  have hr1 : (s.rs ++ [newReader .from ⟨k.toNat, [], 0, [], false⟩ false .top q 0 none])[
      s.rs.length]? = some (newReader .from ⟨k.toNat, [], 0, [], false⟩ false .top q 0 none) := by
    simp
  by_cases hqn2 : q = s.b.next
  · have hmax : max q s.b.last = s.b.next := by rw [hqn2, hl, hn]; omega
    have hm : (newReader .from ⟨k.toNat, [], 0, [], false⟩ false .top q 0 none).move
        s.b (decide (s.rs.length ∈ Reg.keep.apply s.b.readers s.rs.length)) .task
        = some ({ newReader .from ⟨k.toNat, [], 0, [], false⟩ false .top q 0 none with
            ready := true, pc := .upgrade }, .keep) := by
      have he : (newReader .from ⟨k.toNat, [], 0, [], false⟩ false .top q 0 none).seq
          = s.b.next := hqn2
      rw [Reader.move, taskStep_top _ _ rfl, if_pos he]
    refine ⟨_, _, _, h1, step_move_of hr1 hm, getElem?_concat_set _ _ _, rfl, ?_,
      fun _ => rfl, ?_⟩
    · simp only [newReader]; rw [hmax, hqn2]
    · intro hlt; rw [hmax] at hlt; exact absurd hlt (lt_irrefl _)
  · have hlt : q < s.b.next := lt_of_le_of_ne hqn hqn2
    obtain ⟨r2, hr2, hcopy⟩ : ∃ r2,
        r2 = { newReader .from ⟨k.toNat, [], 0, [], false⟩ false .top q 0 none with
          ready := true
          stats := ⟨0, if q < s.b.last then 0 + (s.b.last - q) else 0⟩
          seq := max q s.b.last
          event := evs[(max q s.b.last).toNat]?
          pc := .send } ∧
        replayCopy s.b
          { newReader .from ⟨k.toNat, [], 0, [], false⟩ false .top q 0 none with ready := true }
          = some r2 :=
      ⟨_, rfl, replayCopy_of h hC
        { newReader .from ⟨k.toNat, [], 0, [], false⟩ false .top q 0 none with ready := true }
        hq0 hlt⟩
    have hm : (newReader .from ⟨k.toNat, [], 0, [], false⟩ false .top q 0 none).move
        s.b (decide (s.rs.length ∈ Reg.keep.apply s.b.readers s.rs.length)) .task
        = some (r2, .keep) := by
      have hne : ¬ (newReader .from ⟨k.toNat, [], 0, [], false⟩ false .top q 0 none).seq
          = s.b.next := hqn2
      rw [Reader.move, taskStep_top _ _ rfl, if_neg hne, hcopy]
      rfl
    refine ⟨_, _, r2, h1, step_move_of hr1 hm, getElem?_concat_set _ _ _, ?_, ?_, ?_, ?_⟩
    · rw [hr2]; rfl
    · rw [hr2]
    · intro heq
      have : max q s.b.last < s.b.next := max_lt hlt (by rw [hl, hn]; omega)
      omega
    · intro _
      rw [hr2]
      exact ⟨rfl, rfl⟩

/-- C9. `ReadSince` start position. On a buffer with slots whose buffered
events have non-zero, non-decreasing times, let `p` be the oldest buffered
sequence whose event has a time `≥ t` (`next` if every buffered event is
strictly before `t`): every buffered event below `p` is strictly before `t`
and every event from `p` on is at `t` or later. The loop of `ReadSince(t)`
yields `p`, or 0 when no buffered event is before `t` (`p = last`); after the
first step of the goroutine the cursor is `p` in both cases (0 is moved up to
`last`); the goroutine is then about to send the event with sequence `p`, or,
when `p = next`, about to register as a follower without replaying
anything. -/
theorem C9_readSince_start (caps : List Int) (acts : List Action) (s : System)
    (evs : List Event) (t : Time) (k : Int)
    (h : runNew caps acts = some s) (hev : writtenBy acts = evs.map some)
    (hC : 0 < s.b.buffer.length) (hk : 0 ≤ k)
    (hnz : ∀ (j : Nat) (e : Event), s.b.last ≤ (j : Int) → evs[j]? = some e → e.timestamp ≠ 0)
    (hmono : ∀ (i j : Nat) (d e : Event), s.b.last ≤ (i : Int) → i ≤ j → evs[i]? = some d →
      evs[j]? = some e → d.timestamp ≤ e.timestamp) :
    ∃ (p : Nat) (q : Int) (s1 s2 : System) (r : Reader),
      s.b.last ≤ (p : Int) ∧ (p : Int) ≤ s.b.next ∧
      (∀ (j : Nat) (e : Event), s.b.last ≤ (j : Int) → j < p → evs[j]? = some e →
        e.timestamp < t) ∧
      (∀ (j : Nat) (e : Event), p ≤ j → evs[j]? = some e → t ≤ e.timestamp) ∧
      sinceSeq s.b t = some q ∧ q = (if (p : Int) = s.b.last then 0 else (p : Int)) ∧
      step s (.readSince t k) = some s1 ∧ step s1 (.move s.rs.length .task) = some s2 ∧
      s2.rs[s.rs.length]? = some r ∧ r.seq = (p : Int) ∧
      ((p : Int) = s.b.next → r.pc = .upgrade) ∧
      ((p : Int) < s.b.next → r.pc = .send ∧ r.event = evs[p]?) := by
  have hinv := runNew_ringInv h
  rw [hev] at hinv
  have hn := hinv.next_eq
  have hl := hinv.last_eq
  simp only [List.length_map] at hn hl
  obtain ⟨q, hq, hcase⟩ := sinceSeq_eq hinv t
  rcases hcase with ⟨rfl, hall⟩ | ⟨j, e, hj1, rfl, hj2, hj3, hj4, hj5⟩
  · obtain ⟨s1, s2, r, a1, a2, a3, -, a5, a6, a7⟩ :=
      readSince_first_step hinv hC t k 0 hk hq (le_refl _) (by rw [hn]; omega)
    have hmax : max 0 s.b.last = ((evs.length - s.b.buffer.length : Nat) : Int) := by
      rw [hl]; omega
    rw [hmax] at a5 a6 a7
    refine ⟨evs.length - s.b.buffer.length, 0, s1, s2, r, by rw [hl], by rw [hn]; omega, ?_, ?_,
      hq, by rw [hl]; simp, a1, a2, a3, a5, a6, ?_⟩
    · intro i d hi1 hi2; rw [hl] at hi1; omega
    · intro i d hi1 hi2
      have h1 := hall i d hi1 hi2
      have h2 := hnz i d (by rw [hl]; omega) hi2
      by_contra hlt
      exact h1 ⟨h2, not_le.mp hlt⟩
    · intro hlt
      have := a7 hlt
      simpa using this
  · have hjn : j < evs.length := (List.getElem?_eq_some_iff.mp hj2).1
    obtain ⟨s1, s2, r, a1, a2, a3, -, a5, a6, a7⟩ :=
      readSince_first_step hinv hC t k ((j : Int) + 1) hk hq (by omega) (by rw [hn]; omega)
    have hmax : max ((j : Int) + 1) s.b.last = ((j + 1 : Nat) : Int) := by
      rw [hl]; omega
    rw [hmax] at a5 a6 a7
    refine ⟨j + 1, (j : Int) + 1, s1, s2, r, by rw [hl]; omega, by rw [hn]; omega, ?_, ?_,
      hq, ?_, a1, a2, a3, a5, a6, ?_⟩
    · intro i d hi1 hi2 hi3
      exact lt_of_le_of_lt (hmono i j d e hi1 (by omega) hi3 hj2) hj4
    · intro i d hi1 hi2
      have h1 := hj5 i d (by omega) hi2
      have h2 := hnz i d (by rw [hl]; omega) hi2
      by_contra hlt
      exact h1 ⟨h2, not_le.mp hlt⟩
    · have hne : ¬ ((j + 1 : Nat) : Int) = s.b.last := by rw [hl]; omega
      rw [if_neg hne]
      omega
    · intro hlt
      have := a7 hlt
      simpa using this

theorem C9_readSince_start_witness :
    ∃ s, runNew [10] [.write (some ⟨1, 10⟩), .write (some ⟨2, 20⟩), .write (some ⟨3, 30⟩)]
        = some s ∧
      (∃ (p : Nat) (q : Int) (s1 s2 : System) (r : Reader),
        s.b.last ≤ (p : Int) ∧ (p : Int) ≤ s.b.next ∧
        (∀ (j : Nat) (e : Event), s.b.last ≤ (j : Int) → j < p →
          ([⟨1, 10⟩, ⟨2, 20⟩, ⟨3, 30⟩] : List Event)[j]? = some e → e.timestamp < 20) ∧
        (∀ (j : Nat) (e : Event), p ≤ j →
          ([⟨1, 10⟩, ⟨2, 20⟩, ⟨3, 30⟩] : List Event)[j]? = some e → 20 ≤ e.timestamp) ∧
        sinceSeq s.b 20 = some q ∧ q = (if (p : Int) = s.b.last then 0 else (p : Int)) ∧
        step s (.readSince 20 0) = some s1 ∧ step s1 (.move s.rs.length .task) = some s2 ∧
        s2.rs[s.rs.length]? = some r ∧ r.seq = (p : Int) ∧
        ((p : Int) = s.b.next → r.pc = .upgrade) ∧
        ((p : Int) < s.b.next →
          r.pc = .send ∧ r.event = ([⟨1, 10⟩, ⟨2, 20⟩, ⟨3, 30⟩] : List Event)[p]?)) ∧
      ∃ s3 r3, run s [.readSince 20 0, .move 0 .task, .move 0 .recv, .move 0 .task,
          .move 0 .task, .move 0 .recv, .move 0 .task] = some s3 ∧
        s3.rs[0]? = some r3 ∧ r3.ch.received = [some ⟨2, 20⟩, some ⟨3, 30⟩] := by
  refine ⟨_, rfl, C9_readSince_start [10]
    [.write (some ⟨1, 10⟩), .write (some ⟨2, 20⟩), .write (some ⟨3, 30⟩)] _
    [⟨1, 10⟩, ⟨2, 20⟩, ⟨3, 30⟩] 20 0 rfl (by decide) (by decide) (by decide) ?_ ?_,
    _, _, rfl, rfl, rfl⟩
  · intro j e _ he
    have hj := (List.getElem?_eq_some_iff.mp he).1
    simp only [List.length_cons, List.length_nil] at hj
    interval_cases j <;> simp at he <;> subst he <;> decide
  · intro i j d e _ hij hd he
    have hi := (List.getElem?_eq_some_iff.mp hd).1
    have hj := (List.getElem?_eq_some_iff.mp he).1
    simp only [List.length_cons, List.length_nil] at hi hj
    interval_cases i <;> interval_cases j <;> simp at hd he hij <;> subst hd <;> subst he <;>
      decide

/-! ## Replay and handoff in `readFrom` -/

theorem Write_last_mono {s s2 : System} {e : EventRef} (h : Write s e = some s2) :
    s.b.last ≤ s2.b.last := by
  unfold Write at h
  cases hb : writeRing s.b e with
  | none => simp [hb] at h
  | some b2 =>
    simp only [hb, Option.bind_eq_bind, Option.some_bind] at h
    obtain ⟨-, -, -, -, -, a6⟩ := writeRing_eq hb
    obtain ⟨c1, -⟩ := fanout_ring _ h
    rw [c1]
    exact a6

theorem step_last_mono {s s2 : System} {a : Action} (h : step s a = some s2) :
    s.b.last ≤ s2.b.last := by
  by_cases hw : ∃ e, a = .write e
  · obtain ⟨e, rfl⟩ := hw
    exact Write_last_mono h
  · have := (step_ring h (fun e he => hw ⟨e, he⟩)).1
    rw [this]

theorem run_last_mono {s s2 : System} {acts : List Action} (h : run s acts = some s2) :
    s.b.last ≤ s2.b.last :=
  run_induction (P := fun s2 _ => s.b.last ≤ s2.b.last) (le_refl _)
    (fun _ _ _ _ _ h1 h2 => le_trans h1 (step_last_mono h2)) h

/-- The copy under the read lock in `readFrom`, for any written references:
the event copied is the one written with the sequence of the cursor. -/
theorem replayCopy_ref {b : RingBuffer} {es : List EventRef} (h : RingInv b es)
    (r : Reader) (j : Nat) (hj : r.seq = (j : Int))
    (h0 : b.last ≤ r.seq) (h1 : j < es.length) :
    ∃ event, es[j]? = some event ∧
      replayCopy b r = some { r with event := event, pc := .send } := by
  have hl := h.last_eq
  have hlt : ¬ r.seq < b.last := by omega
  have hload := load_slot h j (by omega) h1
  refine ⟨es[j], List.getElem?_eq_getElem h1, ?_⟩
  rw [← hj, List.getElem?_eq_getElem h1] at hload
  unfold replayCopy
  rw [if_neg hlt]
  simp only [hload, Option.bind_eq_bind, Option.some_bind]

theorem take_drop_snoc {α : Type} (es : List α) (l0 j : Nat) (x : α) (h1 : l0 ≤ j)
    (h2 : es[j]? = some x) :
    (es.drop l0).take (j - l0) ++ [x] = (es.drop l0).take (j + 1 - l0) := by
  have : j + 1 - l0 = (j - l0) + 1 := by omega
  rw [this, List.take_succ, List.getElem?_drop]
  have : l0 + (j - l0) = j := by omega
  rw [this, h2]
  rfl

theorem take_drop_append {α : Type} (es : List α) (l0 k : Nat) (x : α) (h1 : l0 ≤ es.length)
    (h2 : k ≤ es.length - l0) :
    ((es ++ [x]).drop l0).take k = (es.drop l0).take k := by
  rw [List.drop_append_of_le_length h1, List.take_append_of_le_length (by simpa using h2)]

/-- One step keeps the invariant of a `ReadAll` reader, as long as the step
overwrites no event, is not a step of the reader's cancel function and is not
a write that the reader's channel refuses. -/
theorem replay_step {s s2 : System} {a : Action} {es : List EventRef} {id l0 : Nat}
    {r : Reader} (hs : Sound s) (hinv : RingInv s.b es)
    (hr : s.rs[id]? = some r) (hri : ReplayInv es l0 (decide (id ∈ s.b.readers)) r)
    (hl : s.b.last = (l0 : Int)) (h : step s a = some s2) (hl2 : s2.b.last = (l0 : Int))
    (ha : a ≠ .move id .cancel)
    (hacc : ∀ e, a = .write e → id ∈ s.b.readers → r.ch.canAccept = true) :
    ∃ r2, s2.rs[id]? = some r2 ∧
      ReplayInv (es ++ writtenBy [a]) l0 (decide (id ∈ s2.b.readers)) r2 := by
  have hok := hs.ok id r hr
  have hn := hinv.next_eq
  have hle : l0 ≤ es.length := by have := hinv.last_eq; omega
  obtain ⟨hk, hd, hc, hdr, hsent, hfol, hrep, hrdy⟩ := hri
  obtain ⟨r2, hr2, hcase⟩ := step_reader hs h hr
  refine ⟨r2, hr2, ?_⟩
  rcases hcase with ⟨e, rfl, -, -, hmem, ⟨hreg, sent, ho⟩ | ⟨hno, rfl⟩⟩ |
    ⟨m, g, rfl, hm, -, -, -, hmem⟩ | ⟨hnw, -, rfl, -, -, -, hmem⟩
  · -- a write offered to the registered reader
    obtain ⟨a1, a2, a3, a4, a5, -, -, -, -, -, -, -, a13, a14, -⟩ := offer_eq ho hok.2.2.2.2.2
    have hsent2 : sent = true := by rw [a13]; exact hacc e rfl hreg
    obtain ⟨b1, b2⟩ := a14 hsent2
    have hreg2 : decide (id ∈ s2.b.readers) = true := by simpa using hmem.mpr hreg
    have hfol2 := hfol (by simpa using hreg)
    rw [hreg2, writtenBy_cons_write]
    refine ⟨by rw [a1, hk], by rw [a4, hd], by rw [a3, hc], by rw [b2]; exact hdr, ?_, ?_, ?_,
      by rw [a2, a5]; exact hrdy⟩
    · rw [b2, b1]; simp only [List.length_append, List.length_singleton]; push_cast; omega
    · intro _
      rw [b1, hfol2]
      simp only [writtenBy, List.filterMap_nil]
      rw [List.drop_append_of_le_length hle]
    · intro hf; cases hf
  · -- a write while the goroutine replays
    have hreg2 : decide (id ∈ s2.b.readers) = false := by simpa using (not_congr hmem).mpr hno
    obtain ⟨hpc, j, hj1, hj2, hj3, hj4, hj5, hj6⟩ := hrep (by simpa using hno)
    rw [hreg2, writtenBy_cons_write]
    refine ⟨hk, hd, hc, hdr, hsent, fun hf => (by cases hf),
      fun _ => ⟨hpc, j, hj1, hj2, ?_, ?_, ?_, ?_⟩, hrdy⟩
    · simp only [writtenBy, List.filterMap_nil, List.length_append, List.length_singleton]; omega
    · simp only [writtenBy, List.filterMap_nil]
      rw [take_drop_append _ _ _ _ hle (by omega)]
      exact hj4
    · intro hp
      have := hj5 hp
      simp only [writtenBy, List.filterMap_nil, List.length_append, List.length_singleton]; omega
    · intro hp
      have := hj6 hp
      have hjl : j < es.length := (List.getElem?_eq_some_iff.mp this).1
      simp only [writtenBy, List.filterMap_nil]
      rw [List.getElem?_append_left hjl]
      exact this
  · -- a move of the reader
    have hnw : ∀ e, Action.move id m ≠ .write e := by simp
    have hnw2 : writtenBy [Action.move id m] = [] := by
      rw [writtenBy_cons_other _ hnw]; rfl
    rw [hnw2, List.append_nil]
    have hnoreg : r.pc ≠ .exited → decide (id ∈ s.b.readers) = false := by
      intro hp
      cases hdec : decide (id ∈ s.b.readers)
      · rfl
      · rw [hdec] at hok; exact absurd (hok.1 rfl).1 hp
    cases m with
    | cancel => exact absurd rfl ha
    | taskDone =>
      simp only [Reader.move] at hm
      obtain ⟨h1, -⟩ := taskDone_cases hm
      rw [hd] at h1; cases h1
    | recv =>
      simp only [Reader.move] at hm
      split_ifs at hm
      simp only [Option.some.injEq, Prod.mk.injEq] at hm
      obtain ⟨rfl, rfl⟩ := hm
      have hreg2 : decide (id ∈ s2.b.readers) = decide (id ∈ s.b.readers) := by
        cases hdec : decide (id ∈ s.b.readers) <;> simp [hmem, Reg.after, hdec]
      rw [hreg2]
      refine ⟨hk, hd, hc, hdr, ?_, ?_, ?_, hrdy⟩
      · simp only [recv_delivered]; exact hsent
      · simp only [recv_delivered]; exact hfol
      · simp only [recv_delivered]; exact hrep
    | stopRecv =>
      simp only [Reader.move, Option.bind_eq_bind] at hm
      cases hcs : r.ch.stopRecv with
      | none => simp [hcs] at hm
      | some c =>
        simp only [hcs, Option.some_bind, Option.some.injEq, Prod.mk.injEq] at hm
        obtain ⟨rfl, rfl⟩ := hm
        have hreg2 : decide (id ∈ s2.b.readers) = decide (id ∈ s.b.readers) := by
          cases hdec : decide (id ∈ s.b.readers) <;> simp [hmem, Reg.after, hdec]
        have hdel := stopRecv_delivered hcs
        rw [hreg2]
        refine ⟨hk, hd, hc, hdr, ?_, ?_, ?_, hrdy⟩
        · simp only [hdel]; exact hsent
        · simp only [hdel]; exact hfol
        · simp only [hdel]; exact hrep
    | task =>
      simp only [Reader.move] at hm
      have hpc2 : r.pc ≠ .curSend ∧ r.pc ≠ .curRelock := by
        constructor
        · intro hp; have := hok.2.2.2.2.1 (Or.inl hp); rw [hk] at this; cases this
        · intro hp; have := hok.2.2.2.2.1 (Or.inr hp); rw [hk] at this; cases this
      obtain ⟨hp, hs1, rfl, rfl⟩ | ⟨hp, hs1, hcp, rfl⟩ | ⟨hp, hs1, rfl, rfl⟩ |
        ⟨hp, hs1, rfl, rfl⟩ | ⟨hp, hcp, rfl⟩ | ⟨hp, rfl, c, hts, rfl⟩ :=
        taskStep_from_cases hm hpc2
      · -- caught up, under the read lock
        have hno := hnoreg (by rw [hp]; simp)
        have hreg2 : decide (id ∈ s2.b.readers) = false := by simp [hmem, Reg.after, hno]
        obtain ⟨-, j, hj1, hj2, hj3, hj4, -, -⟩ := hrep hno
        rw [hreg2]
        exact ⟨hk, hd, hc, hdr, hsent, fun hf => (by cases hf),
          fun _ => ⟨by simp, j, hj1, hj2, hj3, hj4, by simp, by simp⟩, fun _ => rfl⟩
      · -- behind: copy the event at the cursor
        have hno := hnoreg (by rw [hp]; simp)
        have hreg2 : decide (id ∈ s2.b.readers) = false := by simp [hmem, Reg.after, hno]
        obtain ⟨-, j, hj1, hj2, hj3, hj4, -, -⟩ := hrep hno
        have hjl : j < es.length := by
          have : (j : Int) ≠ (es.length : Int) := by rw [← hj1, ← hn]; exact hs1
          omega
        obtain ⟨event, he, hcp2⟩ := replayCopy_ref hinv { r with ready := true } j hj1
          (by rw [hl]; simp only; rw [hj1]; exact_mod_cast hj2) hjl
        rw [hcp2] at hcp
        obtain rfl := Option.some.inj hcp
        rw [hreg2]
        exact ⟨hk, hd, hc, hdr, hsent, fun hf => (by cases hf),
          fun _ => ⟨by simp, j, hj1, hj2, hj3, hj4, by simp, fun _ => he⟩, fun _ => rfl⟩
      · -- caught up, under the write lock: register
        have hno := hnoreg (by rw [hp]; simp)
        have hreg2 : decide (id ∈ s2.b.readers) = true := by simp [hmem, Reg.after]
        obtain ⟨-, j, hj1, hj2, hj3, hj4, -, -⟩ := hrep hno
        have hjl : j = es.length := by
          have : (j : Int) = (es.length : Int) := by rw [← hj1, ← hn]; exact hs1
          omega
        rw [hreg2]
        refine ⟨hk, hd, hc, hdr, hsent, fun _ => ?_, fun hf => (by cases hf),
          fun _ => hrdy (by rw [hp]; simp)⟩
        show r.ch.delivered = _
        rw [hj4, hjl]
        exact List.take_of_length_le (by simp)
      · -- a write came in between: back to the replay
        have hno := hnoreg (by rw [hp]; simp)
        have hreg2 : decide (id ∈ s2.b.readers) = false := by simp [hmem, Reg.after, hno]
        obtain ⟨-, j, hj1, hj2, hj3, hj4, -, -⟩ := hrep hno
        have hjl : j < es.length := by
          have : (j : Int) ≠ (es.length : Int) := by rw [← hj1, ← hn]; exact hs1
          omega
        rw [hreg2]
        exact ⟨hk, hd, hc, hdr, hsent, fun hf => (by cases hf),
          fun _ => ⟨by simp, j, hj1, hj2, hj3, hj4, fun _ => hjl, by simp⟩,
          fun _ => hrdy (by rw [hp]; simp)⟩
      · -- the read lock retaken: copy the event at the cursor
        have hno := hnoreg (by rw [hp]; simp)
        have hreg2 : decide (id ∈ s2.b.readers) = false := by simp [hmem, Reg.after, hno]
        obtain ⟨-, j, hj1, hj2, hj3, hj4, hj5, -⟩ := hrep hno
        have hjl : j < es.length := hj5 hp
        obtain ⟨event, he, hcp2⟩ := replayCopy_ref hinv r j hj1
          (by rw [hl, hj1]; exact_mod_cast hj2) hjl
        rw [hcp2] at hcp
        obtain rfl := Option.some.inj hcp
        rw [hreg2]
        exact ⟨hk, hd, hc, hdr, hsent, fun hf => (by cases hf),
          fun _ => ⟨by simp, j, hj1, hj2, hj3, hj4, by simp, fun _ => he⟩,
          fun _ => hrdy (by rw [hp]; simp)⟩
      · -- the send
        have hno := hnoreg (by rw [hp]; simp)
        have hreg2 : decide (id ∈ s2.b.readers) = false := by simp [hmem, Reg.after, hno]
        obtain ⟨-, j, hj1, hj2, hj3, hj4, -, hj6⟩ := hrep hno
        have he := hj6 hp
        have hjl : j < es.length := (List.getElem?_eq_some_iff.mp he).1
        obtain ⟨-, -, -, -, t5, -⟩ := trySend_sent hts hok.2.2.2.2.2
        rw [hreg2]
        refine ⟨hk, hd, hc, hdr, ?_, fun hf => (by cases hf),
          fun _ => ⟨by simp, j + 1, ?_, by omega, by omega, ?_, by simp, by simp⟩,
          fun hne => absurd rfl hne⟩
        · show r.stats.Sent + 1 = _
          rw [t5, hsent]; simp
        · show r.seq + 1 = _
          rw [hj1]; simp
        · show c.delivered = _
          rw [t5, hj4]
          exact take_drop_snoc es l0 j r.event hj2 he
  · -- any other step
    have hnw2 : writtenBy [a] = [] := by
      rw [writtenBy_cons_other _ hnw]; rfl
    have hreg2 : decide (id ∈ s2.b.readers) = decide (id ∈ s.b.readers) := by
      simp only [hmem]
    rw [hnw2, List.append_nil, hreg2]
    exact ⟨hk, hd, hc, hdr, hsent, hfol, hrep, hrdy⟩

theorem offered_cons_nil {id : Nat} {want : Bool} {s s2 : System} {a : Action}
    {acts : List Action} (h : offered id want s (a :: acts) = []) (hs : step s a = some s2) :
    offered id want s2 acts = [] ∧
      ∀ e r, a = .write e → s.rs[id]? = some r → id ∈ s.b.readers → r.ch.canAccept ≠ want := by
  simp only [offered, hs, List.append_eq_nil] at h
  refine ⟨h.2, ?_⟩
  intro e r ha hr hreg hcan
  subst ha
  have := h.1
  simp [hr, hreg, hcan] at this

/-- A run keeps the invariant of a `ReadAll` reader, as long as no event is
overwritten, the reader's cancel function is not called and its channel
refuses no delivery. -/
theorem replay_run (id l0 : Nat) : ∀ (acts : List Action) (s1 s : System)
    (es1 : List EventRef) (r1 : Reader),
    Sound s1 → RingInv s1.b es1 → s1.rs[id]? = some r1 →
    ReplayInv es1 l0 (decide (id ∈ s1.b.readers)) r1 → s1.b.last = (l0 : Int) →
    (∀ a ∈ acts, a ≠ .move id .cancel) → run s1 acts = some s → s.b.last = (l0 : Int) →
    offered id false s1 acts = [] →
    Sound s ∧ RingInv s.b (es1 ++ writtenBy acts) ∧
    ∃ r, s.rs[id]? = some r ∧
      ReplayInv (es1 ++ writtenBy acts) l0 (decide (id ∈ s.b.readers)) r := by
  intro acts
  induction acts with
  | nil =>
    intro s1 s es1 r1 hs hinv hr hri _ _ h _ _
    simp [run] at h
    subst h
    simp only [writtenBy, List.filterMap_nil, List.append_nil]
    exact ⟨hs, hinv, r1, hr, hri⟩
  | cons a acts ih =>
    intro s1 s es1 r1 hs hinv hr hri hl hacts h hl2 hoff
    rw [run_cons] at h
    cases h1 : step s1 a with
    | none => simp [h1] at h
    | some s1' =>
      simp only [h1, Option.some_bind] at h
      have hl1 : s1'.b.last = (l0 : Int) := by
        have a1 := step_last_mono h1
        have a2 := run_last_mono h
        omega
      obtain ⟨hoff2, hacc⟩ := offered_cons_nil hoff h1
      obtain ⟨r2, hr2, hri2⟩ := replay_step hs hinv hr hri hl h1 hl1
        (hacts a (List.mem_cons_self _ _))
        (fun e he hreg => by
          have := hacc e r1 he hr hreg
          cases hcan : r1.ch.canAccept
          · exact absurd hcan this
          · rfl)
      obtain ⟨c1, c2, r, c3, c4⟩ := ih s1' s (es1 ++ writtenBy [a]) r2 (step_sound hs h1)
        (step_ringInv hinv h1).1 hr2 hri2 hl1 (fun x hx => hacts x (List.mem_cons_of_mem _ hx))
        h hl2 hoff2
      have happ : es1 ++ writtenBy [a] ++ writtenBy acts = es1 ++ writtenBy (a :: acts) := by
        rw [List.append_assoc, ← writtenBy_append]; rfl
      rw [happ] at c2 c4
      exact ⟨c1, c2, r, c3, c4⟩

theorem trySend_of_canAccept {c : Chan} (v : EventRef) (h1 : c.closed = false)
    (h2 : c.canAccept = true) : ∃ c2, c.trySend v = .sent c2 := by
  unfold Chan.trySend
  simp only [h1, Bool.false_eq_true, if_false]
  simp only [Chan.canAccept, Bool.or_eq_true, decide_eq_true_eq] at h2
  split_ifs with h3 h4
  · exact ⟨_, rfl⟩
  · exact ⟨_, rfl⟩
  · rcases h2 with h | h
    · exact absurd h h3
    · exact absurd h h4

/-- While it replays, the goroutine of a `ReadAll` reader can always take its
next step, unless it is at its send and the channel cannot take a value. -/
theorem replay_enabled {s : System} {es : List EventRef} {id l0 : Nat} {r : Reader}
    (hs : Sound s) (hinv : RingInv s.b es) (hr : s.rs[id]? = some r)
    (hri : ReplayInv es l0 false r) (hno : id ∉ s.b.readers) (hl : s.b.last = (l0 : Int))
    (hcan : r.pc = .send → r.ch.canAccept = true) :
    ∃ s2, step s (.move id .task) = some s2 := by
  have hok := hs.ok id r hr
  have hn := hinv.next_eq
  obtain ⟨hpc, j, hj1, hj2, hj3, -, hj5, hj6⟩ := hri.replaying rfl
  have hdec : decide (id ∈ s.b.readers) = false := by simpa using hno
  have key : ∃ p, r.move s.b (decide (id ∈ s.b.readers)) .task = some p := by
    simp only [Reader.move]
    cases hp : r.pc with
    | top =>
      rw [taskStep_top _ _ hp]
      by_cases hs1 : r.seq = s.b.next
      · rw [if_pos hs1]; exact ⟨_, rfl⟩
      · rw [if_neg hs1]
        have hjl : j < es.length := by
          have : (j : Int) ≠ (es.length : Int) := by rw [← hj1, ← hn]; exact hs1
          omega
        obtain ⟨event, -, hcp⟩ := replayCopy_ref hinv { r with ready := true } j hj1
          (by rw [hl]; simp only; rw [hj1]; exact_mod_cast hj2) hjl
        rw [hcp]
        exact ⟨_, rfl⟩
    | upgrade =>
      unfold taskStep
      simp only [hp]
      split_ifs <;> exact ⟨_, rfl⟩
    | relock =>
      have hjl : j < es.length := hj5 hp
      obtain ⟨event, -, hcp⟩ := replayCopy_ref hinv r j hj1
        (by rw [hl, hj1]; exact_mod_cast hj2) hjl
      unfold taskStep
      simp only [hp, hcp]
      exact ⟨_, rfl⟩
    | send =>
      obtain ⟨c, hc⟩ := trySend_of_canAccept r.event (hok.2.2.1 hri.kind) (hcan hp)
      unfold taskStep
      simp only [hp, hc]
      exact ⟨_, rfl⟩
    | curSend => have := hok.2.2.2.2.1 (Or.inl hp); rw [hri.kind] at this; cases this
    | curRelock => have := hok.2.2.2.2.1 (Or.inr hp); rw [hri.kind] at this; cases this
    | exited => exact absurd hp hpc
  obtain ⟨⟨r2, g⟩, hm⟩ := key
  exact ⟨_, step_move_of hr hm⟩

/-! ## The replay runs to its end -/

theorem writtenBy_move (id : Nat) (m : Move) : writtenBy [Action.move id m] = [] := rfl

/-- A step of the goroutine of a `ReadAll` reader, or a receive by its
consumer, keeps the state of the replay. -/
theorem replay_own_step {s s2 : System} {es : List EventRef} {id l0 : Nat} {r : Reader}
    {m : Move} (hR : Replaying es id l0 s r) (hm : m = .task ∨ m = .recv)
    (h : step s (.move id m) = some s2) :
    ∃ r2 g, r.move s.b (decide (id ∈ s.b.readers)) m = some (r2, g) ∧
      (id ∈ s2.b.readers ↔ g.after (decide (id ∈ s.b.readers)) = true) ∧
      Replaying es id l0 s2 r2 := by
  obtain ⟨hs, hinv, hr, hri, hl⟩ := hR
  obtain ⟨r2, hr2, hcase⟩ := step_reader hs h hr
  rcases hcase with ⟨e, he, -⟩ | ⟨m2, g, ha, hmv, -, hl2, -, hmem⟩ | ⟨-, hno, -⟩
  · cases he
  · obtain rfl : m = m2 := by injection ha
    have hne : Action.move id m ≠ .move id .cancel := by
      rcases hm with rfl | rfl <;> simp
    obtain ⟨r3, hr3, hri3⟩ := replay_step hs hinv hr hri hl h (hl2.trans hl) hne
      (fun e he => by cases he)
    rw [hr2] at hr3
    obtain rfl := Option.some.inj hr3
    rw [writtenBy_move, List.append_nil] at hri3
    have hinv2 := (step_ringInv hinv h).1
    rw [writtenBy_move, List.append_nil] at hinv2
    exact ⟨r2, g, hmv, hmem, step_sound hs h, hinv2, hr2, hri3, hl2.trans hl⟩
  · exact absurd rfl (hno m)

/-- The consumer of a `ReadAll` reader whose constructor has returned can
receive until the channel can take a value at once: it takes what the channel
holds and then blocks in a receive. -/
theorem replay_recv {es : List EventRef} {id l0 : Nat} : ∀ (q : Nat) (s : System) (r : Reader),
    r.ch.queue.length = q → Replaying es id l0 s r → r.ready = true →
    ∃ acts s2 r2, (∀ a ∈ acts, a = Action.move id .task ∨ a = Action.move id .recv) ∧
      run s acts = some s2 ∧ Replaying es id l0 s2 r2 ∧
      (id ∈ s2.b.readers ↔ id ∈ s.b.readers) ∧ r2.pc = r.pc ∧ r2.seq = r.seq ∧
      r2.ch.canAccept = true := by
  intro q
  induction q with
  | zero =>
    intro s r hq hR hready
    have hq0 : r.ch.queue = [] := List.length_eq_zero.mp hq
    have hcl : r.ch.closed = false := (hR.sound.ok id r hR.reader).2.2.1 hR.inv.kind
    have hm : r.move s.b (decide (id ∈ s.b.readers)) .recv
        = some ({ r with ch := r.ch.recv }, .keep) := by
      simp [Reader.move, hready]
    have hstep := step_move_of hR.reader hm
    obtain ⟨r2, g, hmv, hmem, hR2⟩ := replay_own_step hR (Or.inr rfl) hstep
    rw [hm] at hmv
    simp only [Option.some.injEq, Prod.mk.injEq] at hmv
    obtain ⟨rfl, rfl⟩ := hmv
    refine ⟨[.move id .recv], _, _, ?_, ?_, hR2, ?_, rfl, rfl, ?_⟩
    · intro a ha
      simp only [List.mem_singleton] at ha
      exact Or.inr ha
    · rw [run_cons, hstep]; rfl
    · rw [hmem]
      cases hd : decide (id ∈ s.b.readers) <;> simp [Reg.after] at hd ⊢ <;> exact hd
    · simp [Chan.recv, hq0, hcl, Chan.canAccept]
  | succ q ih =>
    intro s r hq hR hready
    have hm : r.move s.b (decide (id ∈ s.b.readers)) .recv
        = some ({ r with ch := r.ch.recv }, .keep) := by
      simp [Reader.move, hready]
    have hstep := step_move_of hR.reader hm
    obtain ⟨r2, g, hmv, hmem, hR2⟩ := replay_own_step hR (Or.inr rfl) hstep
    rw [hm] at hmv
    simp only [Option.some.injEq, Prod.mk.injEq] at hmv
    obtain ⟨rfl, rfl⟩ := hmv
    have hq2 : ({ r with ch := r.ch.recv } : Reader).ch.queue.length = q := by
      cases hqq : r.ch.queue with
      | nil => rw [hqq] at hq; simp at hq
      | cons v rest =>
        rw [hqq] at hq
        simp only [List.length_cons, Nat.add_right_cancel_iff] at hq
        simp [Chan.recv, hqq, hq]
    obtain ⟨acts, s3, r3, h1, h2, h3, h4, h5, h6, h7⟩ := ih _ _ hq2 hR2 hready
    refine ⟨.move id .recv :: acts, s3, r3, ?_, ?_, h3, ?_, h5, h6, h7⟩
    · intro a ha
      rcases List.mem_cons.mp ha with rfl | ha
      · exact Or.inr rfl
      · exact h1 a ha
    · rw [run_cons, hstep]; exact h2
    · rw [h4, hmem]
      cases hd : decide (id ∈ s.b.readers) <;> simp [Reg.after] at hd ⊢ <;> exact hd

/-- The consumer of a registered `ReadAll` reader can take everything that the
channel holds. -/
theorem replay_drain {es : List EventRef} {id l0 : Nat} : ∀ (q : Nat) (s : System) (r : Reader),
    r.ch.queue.length = q → Replaying es id l0 s r → id ∈ s.b.readers →
    ∃ acts s2 r2, (∀ a ∈ acts, a = Action.move id .task ∨ a = Action.move id .recv) ∧
      run s acts = some s2 ∧ Replaying es id l0 s2 r2 ∧ id ∈ s2.b.readers ∧
      r2.ch.queue = [] := by
  intro q
  induction q with
  | zero =>
    intro s r hq hR hreg
    exact ⟨[], s, r, fun a ha => (by cases ha), rfl, hR, hreg, List.length_eq_zero.mp hq⟩
  | succ q ih =>
    intro s r hq hR hreg
    have hdec : decide (id ∈ s.b.readers) = true := by simpa using hreg
    have hpc : r.pc = .exited := by
      have hok := hR.sound.ok id r hR.reader
      rw [hdec] at hok
      exact (hok.1 rfl).1
    have hready : r.ready = true := hR.inv.ready (by rw [hpc]; simp)
    have hm : r.move s.b (decide (id ∈ s.b.readers)) .recv
        = some ({ r with ch := r.ch.recv }, .keep) := by
      simp [Reader.move, hready]
    have hstep := step_move_of hR.reader hm
    obtain ⟨r2, g, hmv, hmem, hR2⟩ := replay_own_step hR (Or.inr rfl) hstep
    rw [hm] at hmv
    simp only [Option.some.injEq, Prod.mk.injEq] at hmv
    obtain ⟨rfl, rfl⟩ := hmv
    have hreg2 := hmem.mpr (by rw [hdec]; rfl)
    have hq2 : ({ r with ch := r.ch.recv } : Reader).ch.queue.length = q := by
      cases hqq : r.ch.queue with
      | nil => rw [hqq] at hq; simp at hq
      | cons v rest =>
        rw [hqq] at hq
        simp only [List.length_cons, Nat.add_right_cancel_iff] at hq
        simp [Chan.recv, hqq, hq]
    obtain ⟨acts, s3, r3, h1, h2, h3, h4, h5⟩ := ih _ _ hq2 hR2 hreg2
    refine ⟨.move id .recv :: acts, s3, r3, ?_, ?_, h3, h4, h5⟩
    · intro a ha
      rcases List.mem_cons.mp ha with rfl | ha
      · exact Or.inr rfl
      · exact h1 a ha
    · rw [run_cons, hstep]; exact h2

/-- While a `ReadAll` reader replays, its goroutine and its consumer can move
it forward: after some receives and one step of the goroutine the reader is
registered as a follower, or it is nearer to that (fewer events left to send,
or as many and fewer steps to the next send). -/
theorem replay_progress {es : List EventRef} {id l0 : Nat} {s : System} {r : Reader}
    (hR : Replaying es id l0 s r) (hno : id ∉ s.b.readers) :
    ∃ acts s2 r2, (∀ a ∈ acts, a = Action.move id .task ∨ a = Action.move id .recv) ∧
      run s acts = some s2 ∧ Replaying es id l0 s2 r2 ∧
      (id ∈ s2.b.readers ∨
        (id ∉ s2.b.readers ∧
          4 * (es.length - r2.seq.toNat) + replayRank r2.pc
            < 4 * (es.length - r.seq.toNat) + replayRank r.pc)) := by
  have hok := hR.sound.ok id r hR.reader
  have hdec : decide (id ∈ s.b.readers) = false := by simpa using hno
  have hpc2 : r.pc ≠ .curSend ∧ r.pc ≠ .curRelock := by
    constructor
    · intro hp; have := hok.2.2.2.2.1 (Or.inl hp); rw [hR.inv.kind] at this; cases this
    · intro hp; have := hok.2.2.2.2.1 (Or.inr hp); rw [hR.inv.kind] at this; cases this
  have hri := hR.inv
  rw [hdec] at hri
  obtain ⟨hpc, j, hj1, hj2, hj3, hj4, hj5, hj6⟩ := hri.replaying rfl
  have hjn : r.seq.toNat = j := by rw [hj1]; rfl
  by_cases hsend : r.pc = .send
  · -- at the send: the consumer receives, then the goroutine sends
    have hready : r.ready = true := hR.inv.ready (by rw [hsend]; simp)
    obtain ⟨acts, s1, r1, a1, a2, hR1, a4, a5, a6, a7⟩ := replay_recv _ s r rfl hR hready
    have hno1 : id ∉ s1.b.readers := fun hmem => hno (a4.mp hmem)
    have hdec1 : decide (id ∈ s1.b.readers) = false := by simpa using hno1
    have hri1 := hR1.inv
    rw [hdec1] at hri1
    obtain ⟨s2, hstep⟩ := replay_enabled hR1.sound hR1.ring hR1.reader hri1 hno1 hR1.last
      (fun _ => a7)
    obtain ⟨r2, g, hmv, hmem, hR2⟩ := replay_own_step hR1 (Or.inl rfl) hstep
    have hok1 := hR1.sound.ok id r1 hR1.reader
    have hpc3 : r1.pc ≠ .curSend ∧ r1.pc ≠ .curRelock := by rw [a5]; exact hpc2
    simp only [Reader.move] at hmv
    have hp1 : r1.pc = .send := a5.trans hsend
    have hjl : j < es.length := (List.getElem?_eq_some_iff.mp (hj6 hsend)).1
    obtain ⟨hp, -, -, -⟩ | ⟨hp, -, -, -⟩ | ⟨hp, -, -, -⟩ | ⟨hp, -, -, -⟩ | ⟨hp, -, -⟩ |
      ⟨hp, rfl, c, hts, rfl⟩ := taskStep_from_cases hmv hpc3
    · rw [hp1] at hp; cases hp
    · rw [hp1] at hp; cases hp
    · rw [hp1] at hp; cases hp
    · rw [hp1] at hp; cases hp
    · rw [hp1] at hp; cases hp
    · have hno2 : id ∉ s2.b.readers := by
        rw [hmem, hdec1]; simp [Reg.after]
      refine ⟨acts ++ [.move id .task], s2, _, ?_, ?_, hR2, Or.inr ⟨hno2, ?_⟩⟩
      · intro a ha
        rcases List.mem_append.mp ha with ha | ha
        · exact a1 a ha
        · simp only [List.mem_singleton] at ha
          exact Or.inl ha
      · rw [run_append, a2, Option.some_bind, run_cons, hstep]; rfl
      · show 4 * (es.length - (r1.seq + 1).toNat) + replayRank .top
          < 4 * (es.length - r.seq.toNat) + replayRank r.pc
        rw [a6, hsend, hj1]
        have e1 : ((j : Int) + 1).toNat = j + 1 := by omega
        have e2 : ((j : Int)).toNat = j := by omega
        rw [e1, e2]
        simp only [replayRank]
        omega
  · -- elsewhere the goroutine can take its step
    obtain ⟨s2, hstep⟩ := replay_enabled hR.sound hR.ring hR.reader hri hno hR.last
      (fun hp => absurd hp hsend)
    obtain ⟨r2, g, hmv, hmem, hR2⟩ := replay_own_step hR (Or.inl rfl) hstep
    rw [hdec] at hmem
    simp only [Reader.move] at hmv
    have hacts : ∀ a ∈ [Action.move id .task],
        a = Action.move id .task ∨ a = Action.move id .recv := by
      intro a ha
      simp only [List.mem_singleton] at ha
      exact Or.inl ha
    have hrun : run s [Action.move id .task] = some s2 := by
      rw [run_cons, hstep]; rfl
    obtain ⟨hp, hs1, rfl, rfl⟩ | ⟨hp, hs1, hcp, rfl⟩ | ⟨hp, hs1, rfl, rfl⟩ |
      ⟨hp, hs1, rfl, rfl⟩ | ⟨hp, hcp, rfl⟩ | ⟨hp, -, -⟩ := taskStep_from_cases hmv hpc2
    · -- caught up at the head of the loop
      have hno2 : id ∉ s2.b.readers := by rw [hmem]; simp [Reg.after]
      refine ⟨_, s2, _, hacts, hrun, hR2, Or.inr ⟨hno2, ?_⟩⟩
      show 4 * (es.length - r.seq.toNat) + replayRank .upgrade
        < 4 * (es.length - r.seq.toNat) + replayRank r.pc
      rw [hp]
      simp only [replayRank]
      omega
    · -- behind at the head of the loop: copy the event
      have hjl : j < es.length := by
        have hn := hR.ring.next_eq
        have : (j : Int) ≠ (es.length : Int) := by rw [← hj1, ← hn]; exact hs1
        omega
      obtain ⟨event, -, hcp2⟩ := replayCopy_ref hR.ring { r with ready := true } j hj1
        (by rw [hR.last]; simp only; rw [hj1]; exact_mod_cast hj2) hjl
      rw [hcp2] at hcp
      obtain rfl := Option.some.inj hcp
      have hno2 : id ∉ s2.b.readers := by rw [hmem]; simp [Reg.after]
      refine ⟨_, s2, _, hacts, hrun, hR2, Or.inr ⟨hno2, ?_⟩⟩
      show 4 * (es.length - r.seq.toNat) + replayRank .send
        < 4 * (es.length - r.seq.toNat) + replayRank r.pc
      rw [hp]
      simp only [replayRank]
      omega
    · -- caught up under the write lock: registered
      have hreg2 : id ∈ s2.b.readers := by rw [hmem]; simp [Reg.after]
      exact ⟨_, s2, _, hacts, hrun, hR2, Or.inl hreg2⟩
    · -- a write came in between
      have hno2 : id ∉ s2.b.readers := by rw [hmem]; simp [Reg.after]
      refine ⟨_, s2, _, hacts, hrun, hR2, Or.inr ⟨hno2, ?_⟩⟩
      show 4 * (es.length - r.seq.toNat) + replayRank .relock
        < 4 * (es.length - r.seq.toNat) + replayRank r.pc
      rw [hp]
      simp only [replayRank]
      omega
    · -- the read lock retaken: copy the event
      have hjl : j < es.length := hj5 hp
      obtain ⟨event, -, hcp2⟩ := replayCopy_ref hR.ring r j hj1
        (by rw [hR.last, hj1]; exact_mod_cast hj2) hjl
      rw [hcp2] at hcp
      obtain rfl := Option.some.inj hcp
      have hno2 : id ∉ s2.b.readers := by rw [hmem]; simp [Reg.after]
      refine ⟨_, s2, _, hacts, hrun, hR2, Or.inr ⟨hno2, ?_⟩⟩
      show 4 * (es.length - r.seq.toNat) + replayRank .send
        < 4 * (es.length - r.seq.toNat) + replayRank r.pc
      rw [hp]
      simp only [replayRank]
      omega
    · exact absurd hp hsend

/-- A `ReadAll` reader that replays gets registered: without a further write,
steps of its goroutine and receives by its consumer lead to a state in which
the reader follows. -/
theorem replay_registers {es : List EventRef} {id l0 : Nat} : ∀ (n : Nat) (s : System)
    (r : Reader), Replaying es id l0 s r →
    4 * (es.length - r.seq.toNat) + replayRank r.pc ≤ n →
    ∃ acts s2 r2, (∀ a ∈ acts, a = Action.move id .task ∨ a = Action.move id .recv) ∧
      run s acts = some s2 ∧ Replaying es id l0 s2 r2 ∧ id ∈ s2.b.readers := by
  intro n
  induction n with
  | zero =>
    intro s r hR hn
    by_cases hreg : id ∈ s.b.readers
    · exact ⟨[], s, r, fun a ha => (by cases ha), rfl, hR, hreg⟩
    · obtain ⟨acts, s2, r2, h1, h2, h3, h4 | ⟨-, h4⟩⟩ := replay_progress hR hreg
      · exact ⟨acts, s2, r2, h1, h2, h3, h4⟩
      · omega
  | succ n ih =>
    intro s r hR hn
    by_cases hreg : id ∈ s.b.readers
    · exact ⟨[], s, r, fun a ha => (by cases ha), rfl, hR, hreg⟩
    · obtain ⟨acts, s2, r2, h1, h2, h3, h4 | ⟨-, h4⟩⟩ := replay_progress hR hreg
      · exact ⟨acts, s2, r2, h1, h2, h3, h4⟩
      · obtain ⟨acts2, s3, r3, g1, g2, g3, g4⟩ := ih s2 r2 h3 (by omega)
        refine ⟨acts ++ acts2, s3, r3, ?_, ?_, g3, g4⟩
        · intro a ha
          rcases List.mem_append.mp ha with ha | ha
          · exact h1 a ha
          · exact g1 a ha
        · rw [run_append, h2]; exact g2

/-- The delivering continuation of a replay. From every state of a run without
overwrite in which the `ReadAll` reader `id` replays or follows, steps of its
goroutine and receives by its consumer, without a further write, lead to a
state in which the reader is registered as a follower, nothing was dropped,
and the consumer has received every event from `l0` on, in order. -/
theorem replay_completes {es : List EventRef} {id l0 : Nat} {s : System} {r : Reader}
    (hR : Replaying es id l0 s r) :
    ∃ acts s2 r2, (∀ a ∈ acts, a = Action.move id .task ∨ a = Action.move id .recv) ∧
      run s acts = some s2 ∧ s2.rs[id]? = some r2 ∧ id ∈ s2.b.readers ∧
      r2.ch.received = es.drop l0 ∧ r2.ch.queue = [] ∧ r2.stats.Dropped = 0 ∧
      r2.stats.Sent = ((es.drop l0).length : Int) := by
  obtain ⟨acts1, s1, r1, a1, a2, hR1, a4⟩ := replay_registers _ s r hR (le_refl _)
  obtain ⟨acts2, s2, r2, b1, b2, hR2, b4, b5⟩ := replay_drain _ s1 r1 rfl hR1 a4
  have hdec : decide (id ∈ s2.b.readers) = true := by simpa using b4
  have hri := hR2.inv
  rw [hdec] at hri
  have hfol := hri.following rfl
  have hrec : r2.ch.received = es.drop l0 := by
    rw [← hfol]
    simp [Chan.delivered, b5]
  refine ⟨acts1 ++ acts2, s2, r2, ?_, ?_, hR2.reader, b4, hrec, b5, hri.dropped, ?_⟩
  · intro a ha
    rcases List.mem_append.mp ha with ha | ha
    · exact a1 a ha
    · exact b1 a ha
  · rw [run_append, a2]; exact b2
  · rw [hri.sent, hfol]

/-- C7. Replay completeness and gap-free handoff. `ReadAll(k)` is called on a
buffer with slots in a reachable state `s0`; then any run follows (writes at
any point, also between the goroutine's read lock and write lock, steps of the
goroutine, receives, other readers) in which no event is overwritten
(`last` is still what it was), the reader's cancel function is not called and
no write finds the registered reader's channel unable to take a value. Then
nothing was dropped, `Sent` is the number of events put on the channel, and
these events are an initial segment of: the events buffered when `ReadAll` was
called, in order, followed by every event written since, in order. Once the
reader is registered as a follower, the channel got all of them. While it is
not, the goroutine is still running, its cursor is `last + Sent`, and its next
step can be taken unless it waits for the consumer at its send. And from every
such state the delivery can be completed: there are steps of the goroutine and
receives by the consumer, without a further write, after which the reader is
registered as a follower, nothing was dropped, and the consumer has received
exactly the events buffered at the call followed by every event written
since, each once and in order. -/
theorem C7_replay_handoff (caps : List Int) (pre acts : List Action) (k : Int)
    (s0 s1 s : System)
    (h0 : runNew caps pre = some s0) (hC : 0 < s0.b.buffer.length)
    (h1 : step s0 (.readAll k) = some s1) (h2 : run s1 acts = some s)
    (hcancel : ∀ a ∈ acts, a ≠ .move s0.rs.length .cancel)
    (hkeep : s.b.last = s0.b.last)
    (haccept : offered s0.rs.length false s1 acts = []) :
    ∃ r, s.rs[s0.rs.length]? = some r ∧ r.stats.Dropped = 0 ∧
      r.stats.Sent = (r.ch.delivered.length : Int) ∧
      r.ch.delivered = ((writtenBy pre).drop s0.b.last.toNat ++ writtenBy acts).take
        r.ch.delivered.length ∧
      (s0.rs.length ∈ s.b.readers →
        r.ch.delivered = (writtenBy pre).drop s0.b.last.toNat ++ writtenBy acts) ∧
      (s0.rs.length ∉ s.b.readers →
        r.pc ≠ .exited ∧ r.seq = s0.b.last + r.stats.Sent ∧
        ((r.pc = .send → r.ch.canAccept = true) →
          ∃ s2, step s (.move s0.rs.length .task) = some s2)) ∧
      (∃ more s3 r3,
        (∀ a ∈ more, a = Action.move s0.rs.length .task ∨ a = Action.move s0.rs.length .recv) ∧
        run s more = some s3 ∧ s3.rs[s0.rs.length]? = some r3 ∧
        s0.rs.length ∈ s3.b.readers ∧
        r3.ch.received = (writtenBy pre).drop s0.b.last.toNat ++ writtenBy acts ∧
        r3.ch.queue = [] ∧ r3.stats.Dropped = 0 ∧
        r3.stats.Sent
          = ((((writtenBy pre).drop s0.b.last.toNat ++ writtenBy acts).length : Nat) : Int)) := by
  have hs0 := runNew_sound h0
  have hinv0 := runNew_ringInv h0
  have hs1 := step_sound hs0 h1
  have hC0 : s0.b.buffer.length ≠ 0 := by omega
  have hl0 := hinv0.last_eq
  have hlt : (s0.b.last.toNat : Int) = s0.b.last := by omega
  have hle : s0.b.last.toNat ≤ (writtenBy pre).length := by omega
  -- the reader as `ReadAll` made it
  obtain ⟨r1, g, hmade, rfl⟩ := add_eq h1
  have hmk : (r1, g) = (newReader .from ⟨k.toNat, [], 0, [], false⟩ false .top s0.b.last 0 none,
      Reg.keep) := by
    unfold ReadAll at hmade
    rw [if_neg hC0] at hmade
    exact readFrom_eq hmade
  simp only [Prod.mk.injEq] at hmk
  obtain ⟨rfl, rfl⟩ := hmk
  have hnot : s0.rs.length ∉ s0.b.readers := fun hmem => absurd (hs0.bound _ hmem) (lt_irrefl _)
  have hri1 : ReplayInv (writtenBy pre) s0.b.last.toNat
      (decide (s0.rs.length ∈ Reg.keep.apply s0.b.readers s0.rs.length))
      (newReader .from ⟨k.toNat, [], 0, [], false⟩ false .top s0.b.last 0 none) := by
    have hdec : decide (s0.rs.length ∈ Reg.keep.apply s0.b.readers s0.rs.length) = false := by
      simpa [Reg.apply] using hnot
    rw [hdec]
    exact ⟨rfl, rfl, rfl, rfl, rfl, fun hf => (by cases hf),
      fun _ => ⟨by simp [newReader], s0.b.last.toNat, hlt.symm, le_refl _, hle,
        by simp [newReader, Chan.delivered], by simp [newReader], by simp [newReader]⟩,
      fun hne => absurd rfl hne⟩
  obtain ⟨hs, hinv, r, hr, hri⟩ := replay_run s0.rs.length s0.b.last.toNat acts _ s
    (writtenBy pre) _ hs1 hinv0 (by simp) hri1 hlt.symm hcancel h2 (by rw [hkeep, hlt]) haccept
  have hdrop : (writtenBy pre ++ writtenBy acts).drop s0.b.last.toNat
      = (writtenBy pre).drop s0.b.last.toNat ++ writtenBy acts :=
    List.drop_append_of_le_length hle
  have hR : Replaying (writtenBy pre ++ writtenBy acts) s0.rs.length s0.b.last.toNat s r :=
    ⟨hs, hinv, hr, hri, by rw [hkeep, hlt]⟩
  refine ⟨r, hr, hri.dropped, hri.sent, ?_, ?_, ?_, ?_⟩
  rotate_left 3
  · obtain ⟨more, s3, r3, c1, c2, c3, c4, c5, c6, c7, c8⟩ := replay_completes hR
    rw [hdrop] at c5 c8
    exact ⟨more, s3, r3, c1, c2, c3, c4, c5, c6, c7, c8⟩
  · by_cases hreg : s0.rs.length ∈ s.b.readers
    · have := hri.following (by simpa using hreg)
      rw [hdrop] at this
      rw [this, List.take_length]
    · obtain ⟨-, j, -, hj2, hj3, hj4, -, -⟩ := hri.replaying (by simpa using hreg)
      rw [hdrop] at hj4
      have hlen : r.ch.delivered.length = j - s0.b.last.toNat := by
        rw [hj4, List.length_take, ← hdrop, List.length_drop]
        omega
      rw [hlen]
      exact hj4
  · intro hreg
    have := hri.following (by simpa using hreg)
    rw [hdrop] at this
    exact this
  · intro hreg
    have hdec : decide (s0.rs.length ∈ s.b.readers) = false := by simpa using hreg
    rw [hdec] at hri
    obtain ⟨hpc, j, hj1, hj2, hj3, hj4, -, -⟩ := hri.replaying rfl
    refine ⟨hpc, ?_, fun hcan => replay_enabled hs hinv hr hri hreg (by rw [hkeep, hlt]) hcan⟩
    have hlen : r.ch.delivered.length = j - s0.b.last.toNat := by
      rw [hj4, List.length_take, List.length_drop]
      omega
    rw [hri.sent, hlen, hj1]
    omega

theorem C7_replay_handoff_witness :
    runNew [10] [.write (some ⟨1, 10⟩), .write (some ⟨2, 20⟩)]
      = some ⟨⟨0, 2, [some ⟨1, 10⟩, some ⟨2, 20⟩, none, none, none, none, none, none, none, none],
          [], 0, 0⟩, []⟩ ∧
    run ⟨⟨0, 2, [some ⟨1, 10⟩, some ⟨2, 20⟩, none, none, none, none, none, none, none, none],
          [], 0, 0⟩, []⟩
      [.readAll 0, .move 0 .task, .move 0 .recv, .move 0 .task, .move 0 .task, .move 0 .recv,
        .move 0 .task, .move 0 .task, .write (some ⟨3, 30⟩), .move 0 .task, .move 0 .task,
        .move 0 .recv, .move 0 .task, .move 0 .task, .move 0 .task, .move 0 .recv,
        .write (some ⟨4, 40⟩)]
      = some ⟨⟨0, 4, [some ⟨1, 10⟩, some ⟨2, 20⟩, some ⟨3, 30⟩, some ⟨4, 40⟩, none, none, none,
          none, none, none], [0], 1, 0⟩,
        [⟨.from, ⟨0, [], 0, [some ⟨1, 10⟩, some ⟨2, 20⟩, some ⟨3, 30⟩, some ⟨4, 40⟩], false⟩,
          ⟨4, 0⟩, false, true, .exited, 3, 0, some ⟨3, 30⟩, .notCalled⟩]⟩ ∧
    ∃ r, (⟨⟨0, 4, [some ⟨1, 10⟩, some ⟨2, 20⟩, some ⟨3, 30⟩, some ⟨4, 40⟩, none, none, none,
          none, none, none], [0], 1, 0⟩,
        [⟨.from, ⟨0, [], 0, [some ⟨1, 10⟩, some ⟨2, 20⟩, some ⟨3, 30⟩, some ⟨4, 40⟩], false⟩,
          ⟨4, 0⟩, false, true, .exited, 3, 0, some ⟨3, 30⟩, .notCalled⟩]⟩ : System).rs[0]?
        = some r ∧
      r.stats.Dropped = 0 ∧
      r.ch.delivered = [some ⟨1, 10⟩, some ⟨2, 20⟩, some ⟨3, 30⟩, some ⟨4, 40⟩] := by
  refine ⟨by decide, by decide, ?_⟩
  obtain ⟨r, hr, hd, -, -, hfol, -⟩ := C7_replay_handoff [10]
    [.write (some ⟨1, 10⟩), .write (some ⟨2, 20⟩)]
    [.move 0 .task, .move 0 .recv, .move 0 .task, .move 0 .task, .move 0 .recv,
      .move 0 .task, .move 0 .task, .write (some ⟨3, 30⟩), .move 0 .task, .move 0 .task,
      .move 0 .recv, .move 0 .task, .move 0 .task, .move 0 .task, .move 0 .recv,
      .write (some ⟨4, 40⟩)] 0
    ⟨⟨0, 2, [some ⟨1, 10⟩, some ⟨2, 20⟩, none, none, none, none, none, none, none, none], [], 0, 0⟩,
      []⟩
    ⟨⟨0, 2, [some ⟨1, 10⟩, some ⟨2, 20⟩, none, none, none, none, none, none, none, none], [], 0, 0⟩,
      [⟨.from, ⟨0, [], 0, [], false⟩, ⟨0, 0⟩, false, false, .top, 0, 0, none, .notCalled⟩]⟩
    ⟨⟨0, 4, [some ⟨1, 10⟩, some ⟨2, 20⟩, some ⟨3, 30⟩, some ⟨4, 40⟩, none, none, none, none,
        none, none], [0], 1, 0⟩,
      [⟨.from, ⟨0, [], 0, [some ⟨1, 10⟩, some ⟨2, 20⟩, some ⟨3, 30⟩, some ⟨4, 40⟩], false⟩,
        ⟨4, 0⟩, false, true, .exited, 3, 0, some ⟨3, 30⟩, .notCalled⟩]⟩
    (by decide) (by decide) (by decide) (by decide) (by decide) (by decide) (by decide)
  exact ⟨r, hr, hd, hfol (by decide)⟩

/-! ## Writes never fail -/

theorem fanout_total {e : EventRef} : ∀ (ids : List Nat) (s : System), ids.Nodup →
    (∀ id ∈ ids, ∃ r, s.rs[id]? = some r ∧ r.ch.closed = false) →
    ∃ s2, ids.foldlM (deliver e) s = some s2 := by
  intro ids
  induction ids with
  | nil => intro s _ _; exact ⟨s, rfl⟩
  | cons id ids ih =>
    intro s hnd hall
    obtain ⟨r, hr, hcl⟩ := hall id (List.mem_cons_self _ _)
    obtain ⟨r2, sent, ho⟩ := offer_total r e hcl
    have hd : deliver e s id
        = some ⟨if sent then { s.b with sent := s.b.sent + 1 }
                else { s.b with dropped := s.b.dropped + 1 }, s.rs.set id r2⟩ := by
      unfold deliver
      simp only [hr, ho, Option.bind_eq_bind, Option.some_bind]
    rw [List.foldlM_cons, hd]
    obtain ⟨hnotin, hnd2⟩ := List.nodup_cons.mp hnd
    apply ih _ hnd2
    intro j hj
    have hne : ¬ id = j := fun hEq => hnotin (hEq ▸ hj)
    obtain ⟨rj, hrj, hclj⟩ := hall j (List.mem_cons_of_mem _ hj)
    exact ⟨rj, by simp only [List.getElem?_set, if_neg hne]; exact hrj, hclj⟩

/-- In a state reached from `NewRingBuffer`, `Write` returns: the slot exists
and no registered channel is closed. -/
theorem Write_total {s : System} {es : List EventRef} (hs : Sound s) (hinv : RingInv s.b es)
    (e : EventRef) : ∃ s2, Write s e = some s2 := by
  obtain ⟨b2, hb, -, -, hrd, -, -⟩ := writeRing_inv hinv e
  unfold Write
  simp only [hb, Option.bind_eq_bind, Option.some_bind]
  rw [hrd]
  apply fanout_total _ _ hs.nodup
  intro id hid
  have hlt := hs.bound id hid
  refine ⟨s.rs[id], List.getElem?_eq_getElem hlt, ?_⟩
  have hok := hs.ok id _ (List.getElem?_eq_getElem hlt)
  have hdec : decide (id ∈ s.b.readers) = true := by simpa using hid
  rw [hdec] at hok
  exact (hok.1 rfl).2.1

theorem writes_total (es : List EventRef) : ∀ {s : System} {es0 : List EventRef},
    Sound s → RingInv s.b es0 → ∃ s2, run s (es.map Action.write) = some s2 := by
  induction es with
  | nil => intro s _ _ _; exact ⟨s, rfl⟩
  | cons e es ih =>
    intro s es0 hs hinv
    obtain ⟨s1, h1⟩ := Write_total hs hinv e
    have hstep : step s (.write e) = some s1 := h1
    obtain ⟨s2, h2⟩ := ih (step_sound hs hstep) (step_ringInv hinv hstep).1
    refine ⟨s2, ?_⟩
    rw [List.map_cons, run_cons, hstep]
    exact h2

theorem run_next {s s2 : System} {acts : List Action} (hs : Sound s) (h : run s acts = some s2) :
    s2.b.next = s.b.next + ((writtenBy acts).length : Int) := by
  have key : Sound s2 ∧ s2.b.next = s.b.next + ((writtenBy acts).length : Int) :=
    run_induction (P := fun s2 acts => Sound s2 ∧
        s2.b.next = s.b.next + ((writtenBy acts).length : Int))
      ⟨hs, by simp [writtenBy]⟩
      (fun s1 acts1 a s3 _ hP hst => by
        refine ⟨step_sound hP.1 hst, ?_⟩
        rw [writtenBy_append, List.length_append]
        by_cases hw : ∃ e, a = .write e
        · obtain ⟨e, rfl⟩ := hw
          obtain ⟨-, -, a3, -⟩ := Write_reader hst hP.1.nodup
          rw [a3, hP.2, writtenBy_cons_write]
          simp [writtenBy]
          omega
        · have hnw : ∀ e, a ≠ .write e := fun e he => hw ⟨e, he⟩
          rw [(step_ring hst hnw).2.1, hP.2, writtenBy_cons_other _ hnw]
          simp [writtenBy]) h
  exact key.2

/-- C15. Monotonicity. In every state reached from `NewRingBuffer`, `next` is
the number of events written so far; `Write` of any event returns, leaves
`last` no smaller and adds exactly 1 to `next`; across every further run
(writes, and steps of readers between them) `last` and `next` do not decrease
and `next` grows by the number of writes; and every sequence of writes runs to
its end. -/
theorem C15_monotonicity (caps : List Int) (acts : List Action) (s : System)
    (h : runNew caps acts = some s) :
    s.b.next = ((writtenBy acts).length : Int) ∧
    (∀ e : EventRef, ∃ s2, step s (.write e) = some s2 ∧
      s.b.last ≤ s2.b.last ∧ s2.b.next = s.b.next + 1) ∧
    (∀ (more : List Action) (s3 : System), run s more = some s3 →
      s.b.last ≤ s3.b.last ∧ s.b.next ≤ s3.b.next ∧
      s3.b.next = s.b.next + ((writtenBy more).length : Int)) ∧
    (∀ es : List EventRef, ∃ s3, run s (es.map Action.write) = some s3 ∧
      s3.b.next = s.b.next + (es.length : Int)) := by
  have hs := runNew_sound h
  have hinv := runNew_ringInv h
  refine ⟨hinv.next_eq, ?_, ?_, ?_⟩
  · intro e
    obtain ⟨s2, h2⟩ := Write_total hs hinv e
    obtain ⟨-, -, a3, a4, -⟩ := Write_reader h2 hs.nodup
    exact ⟨s2, h2, a4, a3⟩
  · intro more s3 h3
    have hn := run_next hs h3
    exact ⟨run_last_mono h3, by omega, hn⟩
  · intro es
    obtain ⟨s3, h3⟩ := writes_total es hs hinv
    refine ⟨s3, h3, ?_⟩
    rw [run_next hs h3, writtenBy_map_write]

theorem C15_monotonicity_witness :
    runNew [2] [.write (some ⟨1, 10⟩), .readNew 0, .write (some ⟨2, 20⟩), .write (some ⟨3, 30⟩)]
        = some ⟨⟨1, 3, [some ⟨3, 30⟩, some ⟨2, 20⟩], [0], 0, 2⟩,
            [⟨.new, ⟨0, [], 0, [], false⟩, ⟨0, 2⟩, false, true, .exited, 0, 0, none, .notCalled⟩]⟩ ∧
      ∃ s2, step ⟨⟨1, 3, [some ⟨3, 30⟩, some ⟨2, 20⟩], [0], 0, 2⟩,
            [⟨.new, ⟨0, [], 0, [], false⟩, ⟨0, 2⟩, false, true, .exited, 0, 0, none, .notCalled⟩]⟩
          (.write (some ⟨4, 40⟩)) = some s2 ∧
        (1 : Int) ≤ s2.b.last ∧ s2.b.next = 3 + 1 :=
  ⟨by decide, (C15_monotonicity [2]
    [.write (some ⟨1, 10⟩), .readNew 0, .write (some ⟨2, 20⟩), .write (some ⟨3, 30⟩)]
    ⟨⟨1, 3, [some ⟨3, 30⟩, some ⟨2, 20⟩], [0], 0, 2⟩,
      [⟨.new, ⟨0, [], 0, [], false⟩, ⟨0, 2⟩, false, true, .exited, 0, 0, none, .notCalled⟩]⟩
    (by decide)).2.1 (some ⟨4, 40⟩)⟩

/-- C17 fails on the code for a capacity that is not negative but larger than
`make` allocates: `NewRingBuffer(WithCapacity(1 << 62))` panics
("makeslice: len out of range") and returns no buffer. -/
theorem C17_huge_capacity_panics :
    (0 : Int) ≤ 4611686018427387904 ∧
      NewRingBuffer [WithCapacity 4611686018427387904] = none := by
  decide

/-- C17, corrected for the limit of `make`. Invalid capacity is rejected at construction:
`NewRingBuffer(WithCapacity(c))` panics and returns no buffer when `c` is
negative, and also when `c` pointers take more than `maxAlloc` bytes. For every
other `c` it returns a buffer of exactly `c` nil slots with `last = next = 0`,
no reader and zero counters; without options the buffer has no slot. -/
theorem C17_capacity_checked (c : Int) :
    (c < 0 → NewRingBuffer [WithCapacity c] = none) ∧
    ((maxAlloc : Int) < c * (ptrSize : Int) → NewRingBuffer [WithCapacity c] = none) ∧
    (0 ≤ c → c * (ptrSize : Int) ≤ (maxAlloc : Int) →
      ∃ b, NewRingBuffer [WithCapacity c] = some b ∧
        (b.buffer.length : Int) = c ∧ (∀ x ∈ b.buffer, x = none) ∧
        b.last = 0 ∧ b.next = 0 ∧ b.readers = [] ∧ b.sent = 0 ∧ b.dropped = 0) ∧
    NewRingBuffer [] = some ⟨0, 0, [], [], 0, 0⟩ := by
  refine ⟨fun hc => ?_, fun hc => ?_, fun hc hm => ?_, rfl⟩
  · have : ¬ 0 ≤ c := by omega
    simp [NewRingBuffer, WithCapacity, this]
  · have : ¬ c * (ptrSize : Int) ≤ (maxAlloc : Int) := by omega
    simp [NewRingBuffer, WithCapacity, this]
  · refine ⟨⟨0, 0, List.replicate c.toNat none, [], 0, 0⟩, ?_, ?_, ?_, rfl, rfl, rfl, rfl, rfl⟩
    · simp [NewRingBuffer, WithCapacity, hc, hm]
    · simp only [List.length_replicate]; omega
    · intro x hx; exact (List.mem_replicate.mp hx).2

theorem C17_capacity_checked_witness :
    NewRingBuffer [WithCapacity (-1)] = none ∧
    NewRingBuffer [WithCapacity 9223372036854775807] = none ∧
    ∃ b, NewRingBuffer [WithCapacity 3] = some b ∧
      (b.buffer.length : Int) = 3 ∧ (∀ x ∈ b.buffer, x = none) ∧
      b.last = 0 ∧ b.next = 0 ∧ b.readers = [] ∧ b.sent = 0 ∧ b.dropped = 0 :=
  ⟨(C17_capacity_checked (-1)).1 (by decide),
    (C17_capacity_checked 9223372036854775807).2.1 (by decide),
    (C17_capacity_checked 3).2.2.1 (by decide) (by decide)⟩

/-! ## Capacity zero -/

theorem runNew_zero {caps : List Int} {acts : List Action} {s : System}
    (hcaps : caps = [] ∨ caps = [0]) (h : runNew caps acts = some s) : s.b.buffer = [] := by
  obtain ⟨s0, h0, h1⟩ := runNew_eq h
  have hs0 : s0 = ⟨⟨0, 0, [], [], 0, 0⟩, []⟩ := by
    rcases hcaps with rfl | rfl
    · exact (Option.some.inj h0).symm
    · exact (Option.some.inj h0).symm
  subst hs0
  have := (run_ringInv (ringInv_new 0 [] 0 0) h1).2
  exact List.length_eq_zero.mp this

/-- C11. Capacity zero is follow-only. In every state reached from
`NewRingBuffer()` or `NewRingBuffer(WithCapacity(0))`: there is no slot;
`last = next` is the number of events written; `Write` of any event returns
(it indexes no slot) and leaves `last = next` one larger; every sequence of
writes runs to its end; `Status` returns `NumEvents = 0`, `SeenEvents = next`
and zero times (its loops have no iteration); `Buffer(dst)` returns `dst[:0]`;
`ReadAll(k)` and `ReadSince(t, k)` are `ReadNew(k)`: the reader is registered
as a follower at once, with an empty channel and no goroutine; and
`ReadCurrent(k)` returns a closed, empty channel with a cancel function that
returns `{0, 0}`. -/
theorem C11_capacity_zero (caps : List Int) (acts : List Action) (s : System)
    (hcaps : caps = [] ∨ caps = [0]) (h : runNew caps acts = some s) :
    s.b.buffer = [] ∧
    s.b.last = ((writtenBy acts).length : Int) ∧ s.b.next = ((writtenBy acts).length : Int) ∧
    (∀ e : EventRef, ∃ s2, step s (.write e) = some s2 ∧ s2.b.buffer = [] ∧
      s2.b.last = s.b.next + 1 ∧ s2.b.next = s.b.next + 1) ∧
    (∀ es : List EventRef, ∃ s3, runNew caps (es.map Action.write) = some s3 ∧
      s3.b.last = (es.length : Int) ∧ s3.b.next = (es.length : Int)) ∧
    Status s.b = some ⟨0, s.b.next, 0, 0⟩ ∧
    (∀ dst : Slice, Buffer s.b dst = some ⟨dst.backing, 0⟩) ∧
    (∀ k : Int, step s (.readAll k) = step s (.readNew k)) ∧
    (∀ (t : Time) (k : Int), step s (.readSince t k) = step s (.readNew k)) ∧
    (∀ k : Int, 0 ≤ k → ∃ s2 r, step s (.readAll k) = some s2 ∧
      s2.rs = s.rs ++ [r] ∧ s.rs.length ∈ s2.b.readers ∧ r.pc = .exited ∧
      r.ch.delivered = [] ∧ r.ch.closed = false ∧ r.stats = ⟨0, 0⟩) ∧
    (∀ k : Int, 0 ≤ k → ∃ s2 r r2, step s (.readCurrent k) = some s2 ∧ s2.b = s.b ∧
      s2.rs = s.rs ++ [r] ∧ r.ch.closed = true ∧ r.ch.delivered = [] ∧ r.pc = .exited ∧
      cancelStep false r = some (r2, .keep) ∧ r2.cancel = .returned ⟨0, 0⟩) := by
  have hbuf := runNew_zero hcaps h
  have hlen : s.b.buffer.length = 0 := by rw [hbuf]; rfl
  have hs := runNew_sound h
  have hinv := runNew_ringInv h
  have hlast : s.b.last = ((writtenBy acts).length : Int) := by
    rw [hinv.last_eq, hlen]; rfl
  have hnext := hinv.next_eq
  refine ⟨hbuf, hlast, hnext, ?_, ?_, ?_, ?_, ?_, ?_, ?_, ?_⟩
  · intro e
    obtain ⟨s2, h2⟩ := Write_total hs hinv e
    have hstep : step s (.write e) = some s2 := h2
    obtain ⟨hinv2, hlen2⟩ := step_ringInv hinv hstep
    have hlen3 : s2.b.buffer.length = 0 := by rw [hlen2, hlen]
    refine ⟨s2, hstep, List.length_eq_zero.mp hlen3, ?_, ?_⟩
    · rw [hinv2.last_eq, hlen3, hnext, writtenBy_cons_write]
      simp [writtenBy]
    · rw [hinv2.next_eq, hnext, writtenBy_cons_write]
      simp [writtenBy]
  · intro es
    obtain ⟨s0, h0, -⟩ := runNew_eq h
    have hs0 : s0 = ⟨⟨0, 0, [], [], 0, 0⟩, []⟩ := by
      rcases hcaps with rfl | rfl
      · exact (Option.some.inj h0).symm
      · exact (Option.some.inj h0).symm
    subst hs0
    obtain ⟨s3, h3⟩ := writes_total es (s := ⟨⟨0, 0, [], [], 0, 0⟩, []⟩)
      ⟨by simp, by simp, by simp⟩ (ringInv_new 0 [] 0 0)
    have h3n : runNew caps (es.map Action.write) = some s3 := by
      unfold runNew
      rw [h0]
      exact h3
    have hinv3 := runNew_ringInv h3n
    have hlen3 : s3.b.buffer.length = 0 := by rw [runNew_zero hcaps h3n]; rfl
    refine ⟨s3, h3n, ?_, ?_⟩
    · rw [hinv3.last_eq, hlen3, writtenBy_map_write]; rfl
    · rw [hinv3.next_eq, writtenBy_map_write]
  · simp [Status, hlast, hnext, oldestTime, newestTime]
  · intro dst
    simp [Buffer, hlen]
  · intro k
    simp [step, ReadAll, hlen]
  · intro t k
    simp [step, ReadSince, hlen]
  · intro k hk
    have hnot : s.rs.length ∉ s.b.readers := fun hmem => absurd (hs.bound _ hmem) (lt_irrefl _)
    refine ⟨⟨{ s.b with readers := Reg.insert.apply s.b.readers s.rs.length },
        s.rs ++ [newReader .new ⟨k.toNat, [], 0, [], false⟩ true .exited 0 0 none]⟩,
      newReader .new ⟨k.toNat, [], 0, [], false⟩ true .exited 0 0 none, ?_, rfl, ?_,
      rfl, rfl, rfl, rfl⟩
    · simp [step, ReadAll, hlen, ReadNew, makeChan, hk, System.add]
    · simp [Reg.apply, insertReader, hnot]
  · intro k hk
    refine ⟨⟨s.b, s.rs ++ [newReader .currentEmpty ⟨k.toNat, [], 0, [], true⟩ true .exited 0 0
        none]⟩,
      newReader .currentEmpty ⟨k.toNat, [], 0, [], true⟩ true .exited 0 0 none, _, ?_,
      rfl, rfl, rfl, rfl, rfl, rfl, rfl⟩
    simp [step, ReadCurrent, hlen, makeChan, hk, Chan.close, System.add, Reg.apply]

theorem C11_capacity_zero_witness :
    runNew [0] [.write (some ⟨1, 10⟩), .write (some ⟨2, 20⟩)]
        = some ⟨⟨2, 2, [], [], 0, 0⟩, []⟩ ∧
      Status (⟨2, 2, [], [], 0, 0⟩ : RingBuffer) = some ⟨0, 2, 0, 0⟩ ∧
      Buffer (⟨2, 2, [], [], 0, 0⟩ : RingBuffer) ⟨[some ⟨7, 70⟩, none], 1⟩
        = some ⟨[some ⟨7, 70⟩, none], 0⟩ :=
  have key := C11_capacity_zero [0] [.write (some ⟨1, 10⟩), .write (some ⟨2, 20⟩)]
    ⟨⟨2, 2, [], [], 0, 0⟩, []⟩ (Or.inr rfl) (by decide)
  ⟨by decide, key.2.2.2.2.2.1, key.2.2.2.2.2.2.1 ⟨[some ⟨7, 70⟩, none], 1⟩⟩

/-! ## `Status` and `Buffer` on every reachable state -/

theorem oldestTime_congr {b b2 : RingBuffer} (hn : b2.next = b.next)
    (hb : b2.buffer = b.buffer) : ∀ (fuel : Nat) (i : Int),
    oldestTime b2 fuel i = oldestTime b fuel i := by
  intro fuel
  induction fuel with
  | zero => intro i; rfl
  | succ n ih => intro i; simp only [oldestTime, hn, hb, ih]

theorem newestTime_congr {b b2 : RingBuffer} (hl : b2.last = b.last)
    (hb : b2.buffer = b.buffer) : ∀ (fuel : Nat) (i : Int),
    newestTime b2 fuel i = newestTime b fuel i := by
  intro fuel
  induction fuel with
  | zero => intro i; rfl
  | succ n ih => intro i; simp only [newestTime, hl, hb, ih]

/-- `Status` reads `last`, `next` and the slots, and nothing else. -/
theorem Status_congr {b b2 : RingBuffer} (hl : b2.last = b.last) (hn : b2.next = b.next)
    (hb : b2.buffer = b.buffer) : Status b2 = Status b := by
  simp only [Status, hl, hn, oldestTime_congr hn hb, newestTime_congr hl hb]

/-- A run without a write leaves the ring as it is. -/
theorem run_ring : ∀ (acts : List Action) {s s2 : System}, run s acts = some s2 →
    (∀ a ∈ acts, ∀ e, a ≠ .write e) →
    s2.b.last = s.b.last ∧ s2.b.next = s.b.next ∧ s2.b.buffer = s.b.buffer := by
  intro acts
  induction acts with
  | nil =>
    intro s s2 h _
    simp [run] at h
    subst h
    exact ⟨rfl, rfl, rfl⟩
  | cons a acts ih =>
    intro s s2 h hnw
    rw [run_cons] at h
    cases h1 : step s a with
    | none => simp [h1] at h
    | some s1 =>
      simp only [h1, Option.some_bind] at h
      obtain ⟨a1, a2, a3⟩ := step_ring h1 (hnw a (List.mem_cons_self _ _))
      obtain ⟨b1, b2, b3⟩ := ih h (fun x hx => hnw x (List.mem_cons_of_mem _ hx))
      exact ⟨b1.trans a1, b2.trans a2, b3.trans a3⟩

/-- C18. Idempotent status. `Status` holds the read lock and assigns no field
of the buffer (it is a function of the buffer in this development). Between
two calls of `Status` in a state reached from `NewRingBuffer`, let anything
happen but a `Write` (readers are made, their goroutines and cancel functions
run, consumers receive): `last`, `next` and the slots are the same at both
calls and both calls return the same `RingBufferStatus`; when only events that
are not nil were written, they do return. -/
theorem C18_status_idempotent (caps : List Int) (acts between : List Action) (s s2 : System)
    (h : runNew caps acts = some s) (h2 : run s between = some s2)
    (hnw : ∀ a ∈ between, ∀ e, a ≠ .write e) :
    s2.b.last = s.b.last ∧ s2.b.next = s.b.next ∧ s2.b.buffer = s.b.buffer ∧
    Status s2.b = Status s.b ∧
    (∀ evs : List Event, writtenBy acts = evs.map some →
      ∃ st, Status s.b = some st ∧ Status s2.b = some st) := by
  obtain ⟨a1, a2, a3⟩ := run_ring between h2 hnw
  have hst := Status_congr a1 a2 a3
  refine ⟨a1, a2, a3, hst, ?_⟩
  intro evs hev
  have hinv := runNew_ringInv h
  rw [hev] at hinv
  exact ⟨_, Status_eq hinv, by rw [hst]; exact Status_eq hinv⟩

theorem C18_status_idempotent_witness :
    runNew [2] [.write (some ⟨1, 10⟩), .write (some ⟨2, 0⟩), .write (some ⟨3, 30⟩)]
        = some ⟨⟨1, 3, [some ⟨3, 30⟩, some ⟨2, 0⟩], [], 0, 0⟩, []⟩ ∧
      run ⟨⟨1, 3, [some ⟨3, 30⟩, some ⟨2, 0⟩], [], 0, 0⟩, []⟩
          [.readNew 0, .readAll 0, .move 1 .task, .move 0 .cancel]
        = some ⟨⟨1, 3, [some ⟨3, 30⟩, some ⟨2, 0⟩], [], 0, 0⟩,
            [⟨.new, ⟨0, [], 0, [], false⟩, ⟨0, 0⟩, false, true, .exited, 0, 0, none,
                .unlocked (some ⟨0, 0⟩)⟩,
             ⟨.from, ⟨0, [], 0, [], false⟩, ⟨0, 0⟩, false, true, .send, 1, 0, some ⟨2, 0⟩,
                .notCalled⟩]⟩ ∧
      ∃ st, Status (⟨1, 3, [some ⟨3, 30⟩, some ⟨2, 0⟩], [], 0, 0⟩ : RingBuffer) = some st ∧
        Status (⟨1, 3, [some ⟨3, 30⟩, some ⟨2, 0⟩], [], 0, 0⟩ : RingBuffer) = some st :=
  ⟨by decide, by decide,
    (C18_status_idempotent [2]
      [.write (some ⟨1, 10⟩), .write (some ⟨2, 0⟩), .write (some ⟨3, 30⟩)]
      [.readNew 0, .readAll 0, .move 1 .task, .move 0 .cancel]
      ⟨⟨1, 3, [some ⟨3, 30⟩, some ⟨2, 0⟩], [], 0, 0⟩, []⟩
      ⟨⟨1, 3, [some ⟨3, 30⟩, some ⟨2, 0⟩], [], 0, 0⟩,
        [⟨.new, ⟨0, [], 0, [], false⟩, ⟨0, 0⟩, false, true, .exited, 0, 0, none,
            .unlocked (some ⟨0, 0⟩)⟩,
         ⟨.from, ⟨0, [], 0, [], false⟩, ⟨0, 0⟩, false, true, .send, 1, 0, some ⟨2, 0⟩,
            .notCalled⟩]⟩
      (by decide) (by decide)
      (by intro a ha e; simp at ha; rcases ha with rfl | rfl | rfl | rfl <;> simp)).2.2.2.2
      [⟨1, 10⟩, ⟨2, 0⟩, ⟨3, 30⟩] (by decide)⟩

/-- The destination as `Buffer` sizes it, for every destination: at least as
many elements as are buffered, in an array of at least as many slots as the
ring has. -/
theorem resize_total {b : RingBuffer} {m : Nat} (hm : b.next - b.last = (m : Int))
    (hmC : m ≤ b.buffer.length) (dst : Slice) (hwf : dst.WF) :
    ∃ ev : Slice, resize b dst = some ev ∧ m ≤ ev.len ∧ b.buffer.length ≤ ev.cap ∧ ev.WF := by
  by_cases hfit : dst.cap < b.buffer.length ∨ dst.len ≤ m
  · obtain ⟨ev, h1, h2, h3⟩ := resize_fits hm hmC dst hwf hfit
    refine ⟨ev, h1, by omega, h3, ?_⟩
    show ev.len ≤ ev.cap
    omega
  · have h1 : ¬ dst.cap < b.buffer.length := fun hlt => hfit (Or.inl hlt)
    have h2 : ¬ dst.len ≤ m := fun hle => hfit (Or.inr hle)
    have h1b : ¬ (dst.cap : Int) < (b.buffer.length : Int) := by exact_mod_cast h1
    have h2b : ¬ (dst.len : Int) < (m : Int) := by omega
    refine ⟨dst, ?_, by omega, by omega, hwf⟩
    unfold resize
    rw [hm, if_neg h1b, if_neg h2b]

/-- The copy out of a ring reached by writes checks no bound in vain, whatever
the length of the destination (from the number of buffered events up). -/
theorem copyOut_total {b : RingBuffer} {es : List EventRef} (h : RingInv b es)
    (hC : 0 < b.buffer.length) (hne : es.length ≠ 0) (ev : Slice) (hwf : ev.WF)
    (hlen : es.length - (es.length - b.buffer.length) ≤ ev.len)
    (hcap : b.buffer.length ≤ ev.cap) :
    ∃ r, copyOut b ev = some r := by
  have hn := h.next_eq
  have hl := h.last_eq
  have hwf2 : ev.len ≤ ev.cap := hwf
  simp only [copyOut, hn, hl, tmod_natCast]
  rcases Nat.lt_or_ge es.length b.buffer.length with hfull | hfull
  · have e1 : es.length % b.buffer.length = es.length := Nat.mod_eq_of_lt hfull
    have e2 : es.length - b.buffer.length = 0 := by omega
    have hgt : ((es.length : Nat) : Int) > ((0 : Nat) : Int) := by omega
    simp only [e1, e2, Nat.zero_mod, hgt, if_true, bounds_natCast (Nat.zero_le _) (le_of_lt hfull)]
    exact ⟨_, rfl⟩
  · have e1 : (es.length - b.buffer.length) % b.buffer.length = es.length % b.buffer.length := by
      conv_rhs => rw [← Nat.sub_add_cancel hfull, Nat.add_mod_right]
    have hlt2 : es.length % b.buffer.length < b.buffer.length := Nat.mod_lt _ hC
    have hlenC : b.buffer.length ≤ ev.len := by omega
    have e3 : (b.buffer.length : Int) - ((es.length % b.buffer.length : Nat) : Int)
        = ((b.buffer.length - es.length % b.buffer.length : Nat) : Int) := by omega
    have hb1 := bounds_natCast (Nat.zero_le (b.buffer.length - es.length % b.buffer.length))
      (show b.buffer.length - es.length % b.buffer.length ≤ ev.cap by omega)
    have hb2 := bounds_natCast (le_of_lt hlt2) (le_refl b.buffer.length)
    have hb4 := bounds_natCast (Nat.zero_le (es.length % b.buffer.length)) (le_of_lt hlt2)
    simp only [Nat.cast_zero] at hb1 hb4
    have htk : List.take (b.buffer.length - es.length % b.buffer.length)
        (List.drop (es.length % b.buffer.length) b.buffer)
          = List.drop (es.length % b.buffer.length) b.buffer :=
      List.take_of_length_le (by simp)
    simp only [e1, gt_iff_lt, lt_self_iff_false, if_false, e3, hb1, hb2, hb4,
      Option.bind_eq_bind, Option.some_bind, htk]
    have hlen1 : (copyAt ev 0 (b.buffer.length - es.length % b.buffer.length)
        (List.drop (es.length % b.buffer.length) b.buffer)).len = ev.len := rfl
    have hcap1 : (copyAt ev 0 (b.buffer.length - es.length % b.buffer.length)
        (List.drop (es.length % b.buffer.length) b.buffer)).cap = ev.cap :=
      copyAt_cap _ _ _ _ (by simp) (by simp; omega)
    have hb3 := bounds_natCast
      (show b.buffer.length - es.length % b.buffer.length ≤ ev.len by omega)
      (show ev.len ≤ ev.cap from hwf2)
    rw [hlen1, hcap1, hb3]
    exact ⟨_, rfl⟩

/-- On a state reached by writes `Buffer` returns, for every destination. -/
theorem Buffer_total {b : RingBuffer} {es : List EventRef} (h : RingInv b es) (dst : Slice)
    (hwf : dst.WF) : ∃ r, Buffer b dst = some r := by
  by_cases hC0 : b.buffer.length = 0
  · exact ⟨⟨dst.backing, 0⟩, by simp [Buffer, hC0]⟩
  · have hC : 0 < b.buffer.length := by omega
    by_cases hne : es.length = 0
    · have : b.last = b.next := by rw [h.last_eq, h.next_eq, hne]; simp
      exact ⟨Slice.nil, by simp [Buffer, hC0, this]⟩
    · have hlt : b.last ≠ b.next := by rw [h.last_eq, h.next_eq]; omega
      have hnl : b.next - b.last = ((es.length - (es.length - b.buffer.length) : Nat) : Int) := by
        rw [h.last_eq, h.next_eq]; omega
      obtain ⟨ev, hev, hlen, hcap, hwf2⟩ := resize_total hnl (by omega) dst hwf
      obtain ⟨r, hr⟩ := copyOut_total h hC hne ev hwf2 hlen hcap
      exact ⟨r, by simp [Buffer, hC0, hlt, hev, hr]⟩

/-- C19. `Buffer` is safe on reachable states. In every state reached from
`NewRingBuffer` (by writes, and by steps of readers) `Buffer` returns for
every destination slice: no slice expression or index in it is out of range.
With slots, such a state has `last = 0` and `next` at most the number of
slots, or exactly as many buffered events as slots, so that with events in the
buffer the branch `headIndex <= tailIndex` is taken only when the buffer is
full. The state with 4 slots, `last = 3` and `next = 5` satisfies
`0 <= next - last <= 4` only, and there `Buffer(nil)` panics. -/
theorem C19_buffer_safe (caps : List Int) (acts : List Action) (s : System) (dst : Slice)
    (h : runNew caps acts = some s) (hwf : dst.WF) :
    (∃ r, Buffer s.b dst = some r) ∧
    (0 < s.b.buffer.length →
      (s.b.last = 0 ∧ s.b.next ≤ (s.b.buffer.length : Int)) ∨
        s.b.next - s.b.last = (s.b.buffer.length : Int)) ∧
    (0 < s.b.buffer.length → s.b.last ≠ s.b.next →
      Int.tmod s.b.next s.b.buffer.length ≤ Int.tmod s.b.last s.b.buffer.length →
      s.b.next - s.b.last = (s.b.buffer.length : Int)) ∧
    (∃ b : RingBuffer, b.buffer.length = 4 ∧ b.last = 3 ∧ b.next = 5 ∧
      0 ≤ b.next - b.last ∧ b.next - b.last ≤ (b.buffer.length : Int) ∧
      Buffer b Slice.nil = none) := by
  have hinv := runNew_ringInv h
  have hn := hinv.next_eq
  have hl := hinv.last_eq
  refine ⟨Buffer_total hinv dst hwf, ?_, ?_, ?_⟩
  · intro _
    omega
  · intro hC hne hmod
    rw [hn, hl, tmod_natCast, tmod_natCast] at hmod
    rcases Nat.lt_or_ge (writtenBy acts).length s.b.buffer.length with hfull | hfull
    · have e1 : (writtenBy acts).length % s.b.buffer.length = (writtenBy acts).length :=
        Nat.mod_eq_of_lt hfull
      have e2 : (writtenBy acts).length - s.b.buffer.length = 0 := by omega
      rw [e1, e2, Nat.zero_mod] at hmod
      omega
    · omega
  · exact ⟨⟨3, 5, [some ⟨5, 50⟩, some ⟨2, 20⟩, some ⟨3, 30⟩, some ⟨4, 40⟩], [], 0, 0⟩,
      by decide, by decide, by decide, by decide, by decide, by decide⟩

theorem C19_buffer_safe_witness :
    runNew [3] [.write (some ⟨1, 10⟩), .write (some ⟨2, 20⟩), .write (some ⟨3, 30⟩),
        .write (some ⟨4, 40⟩)]
      = some ⟨⟨1, 4, [some ⟨4, 40⟩, some ⟨2, 20⟩, some ⟨3, 30⟩], [], 0, 0⟩, []⟩ ∧
    (⟨[some ⟨7, 70⟩, none, none, none, none], 5⟩ : Slice).WF ∧
    ∃ r, Buffer (⟨1, 4, [some ⟨4, 40⟩, some ⟨2, 20⟩, some ⟨3, 30⟩], [], 0, 0⟩ : RingBuffer)
      ⟨[some ⟨7, 70⟩, none, none, none, none], 5⟩ = some r :=
  ⟨by decide, by decide,
    (C19_buffer_safe [3] [.write (some ⟨1, 10⟩), .write (some ⟨2, 20⟩), .write (some ⟨3, 30⟩),
        .write (some ⟨4, 40⟩)]
      ⟨⟨1, 4, [some ⟨4, 40⟩, some ⟨2, 20⟩, some ⟨3, 30⟩], [], 0, 0⟩, []⟩
      ⟨[some ⟨7, 70⟩, none, none, none, none], 5⟩ (by decide) (by decide)).1⟩

/-! ## Two runs on which the code departs from its documentation -/

/-- C12, at a run of the source. One slot, no event. `ReadAll(0)` starts its
goroutine, which finds `seq == b.next` under the read lock and releases it;
`ReadAll` returns. The caller calls the cancel function, which deletes the
channel from `b.readers` (it is not there), closes `doneCh` and returns
`{0, 0}`. Now the goroutine takes the write lock, finds `seq == b.next` again
and registers the channel: after cancel has returned the reader is a follower.
The consumer starts a receive and `Write(e1)` delivers `e1` to it and counts
it. -/
theorem C12_registered_after_cancel :
    ∃ s4 r4 s5 s r,
      runNew [1] [.readAll 0, .move 0 .task, .move 0 .cancel, .move 0 .cancel] = some s4 ∧
      s4.rs[0]? = some r4 ∧ r4.cancel = .returned ⟨0, 0⟩ ∧ r4.done = true ∧
      0 ∉ s4.b.readers ∧
      step s4 (.move 0 .task) = some s5 ∧ 0 ∈ s5.b.readers ∧
      run s5 [.move 0 .recv, .write (some ⟨1, 10⟩)] = some s ∧
      0 ∈ s.b.readers ∧ s.rs[0]? = some r ∧ r.cancel = .returned ⟨0, 0⟩ ∧
      r.ch.received = [some ⟨1, 10⟩] ∧ r.stats = ⟨1, 0⟩ :=
  ⟨⟨⟨0, 0, [none], [], 0, 0⟩,
      [⟨.from, ⟨0, [], 0, [], false⟩, ⟨0, 0⟩, true, true, .upgrade, 0, 0, none,
        .returned ⟨0, 0⟩⟩]⟩,
    ⟨.from, ⟨0, [], 0, [], false⟩, ⟨0, 0⟩, true, true, .upgrade, 0, 0, none, .returned ⟨0, 0⟩⟩,
    ⟨⟨0, 0, [none], [0], 0, 0⟩,
      [⟨.from, ⟨0, [], 0, [], false⟩, ⟨0, 0⟩, true, true, .exited, 0, 0, none,
        .returned ⟨0, 0⟩⟩]⟩,
    ⟨⟨0, 1, [some ⟨1, 10⟩], [0], 1, 0⟩,
      [⟨.from, ⟨0, [], 0, [some ⟨1, 10⟩], false⟩, ⟨1, 0⟩, true, true, .exited, 0, 0, none,
        .returned ⟨0, 0⟩⟩]⟩,
    ⟨.from, ⟨0, [], 0, [some ⟨1, 10⟩], false⟩, ⟨1, 0⟩, true, true, .exited, 0, 0, none,
      .returned ⟨0, 0⟩⟩,
    by decide, by decide, by decide, by decide, by decide, by decide, by decide, by decide,
    by decide, by decide, by decide, by decide, by decide⟩

/-- C14, at a run of the source. Three slots, one event `e1`. `Buffer` is
called with a destination of length and capacity 3: it returns the destination
with `e1` in front and its old elements behind, length 3. After `Write(e2)`
that slice is passed to `Buffer` again: the result has length 3, not
`next - last = 2`, and its last element is not a buffered event. -/
theorem C14_reused_result_not_truncated :
    ∃ s1 r1 s2 r2, runNew [3] [.write (some ⟨1, 10⟩)] = some s1 ∧
      Buffer s1.b ⟨[some ⟨7, 70⟩, some ⟨8, 80⟩, some ⟨9, 90⟩], 3⟩ = some r1 ∧
      step s1 (.write (some ⟨2, 20⟩)) = some s2 ∧
      Buffer s2.b r1 = some r2 ∧
      s2.b.next - s2.b.last = 2 ∧ r2.len = 3 ∧
      r2.elems = [some ⟨1, 10⟩, some ⟨2, 20⟩, some ⟨9, 90⟩] :=
  ⟨⟨⟨0, 1, [some ⟨1, 10⟩, none, none], [], 0, 0⟩, []⟩,
    ⟨[some ⟨1, 10⟩, some ⟨8, 80⟩, some ⟨9, 90⟩], 3⟩,
    ⟨⟨0, 2, [some ⟨1, 10⟩, some ⟨2, 20⟩, none], [], 0, 0⟩, []⟩,
    ⟨[some ⟨1, 10⟩, some ⟨2, 20⟩, some ⟨9, 90⟩], 3⟩,
    by decide, by decide, by decide, by decide, by decide, by decide, by decide⟩

theorem take_drop_mono {α : Type} (es : List α) {i j : Nat} (h : i ≤ j) (n : Nat) :
    ((es.take i).drop n).Sublist ((es.take j).drop n) :=
  (List.take_prefix_take_left es h).sublist.drop n

theorem take_succ_drop {α : Type} (es : List α) (j n : Nat) (x : α) (hn : n ≤ j)
    (hx : es[j]? = some x) : (es.take (j + 1)).drop n = (es.take j).drop n ++ [x] := by
  have hj : j < es.length := (List.getElem?_eq_some_iff.mp hx).1
  rw [List.take_succ, hx, List.drop_append_of_le_length]
  · rfl
  · rw [List.length_take]; omega

/-- The copy under the read lock in `readFrom`, when the cursor is behind
`next`: the cursor moves to `last` if it was older, and the event copied is
the one written with the sequence of the cursor. -/
theorem replayCopy_at {b : RingBuffer} {es : List EventRef} (h : RingInv b es)
    (hC : 0 < b.buffer.length) {r r2 : Reader} (h0 : 0 ≤ r.seq) (h1 : r.seq < b.next)
    (hcp : replayCopy b r = some r2) :
    r2.kind = r.kind ∧ r2.ch = r.ch ∧ r2.pc = .send ∧ r2.stats.Sent = r.stats.Sent ∧
    r2.stats.Dropped = r.stats.Dropped + (r2.seq - r.seq) ∧
    r.seq ≤ r2.seq ∧ b.last ≤ r2.seq ∧ r2.seq < b.next ∧ r2.seq = max r.seq b.last ∧
    es[r2.seq.toNat]? = some r2.event := by
  obtain ⟨event, hr2, hload⟩ := replayCopy_eq hcp
  have hn := h.next_eq
  have hl := h.last_eq
  have hlen : 0 < es.length := by omega
  have e1 : r2.kind = r.kind := by rw [hr2]
  have e2 : r2.ch = r.ch := by rw [hr2]
  have e3 : r2.pc = .send := by rw [hr2]
  have e4 : r2.stats.Sent = r.stats.Sent := by rw [hr2]
  have e5 : r2.stats.Dropped
      = if r.seq < b.last then r.stats.Dropped + (b.last - r.seq) else r.stats.Dropped := by
    rw [hr2]
  have e6 : r2.seq = if r.seq < b.last then b.last else r.seq := by rw [hr2]
  have e7 : r2.event = event := by rw [hr2]
  by_cases hlt : r.seq < b.last
  · rw [if_pos hlt] at hload e5 e6
    have hk : b.last = ((es.length - b.buffer.length : Nat) : Int) := hl
    rw [hk] at hload
    rw [load_slot h (es.length - b.buffer.length) (le_refl _) (by omega)] at hload
    refine ⟨e1, e2, e3, e4, by rw [e5, e6], by rw [e6]; exact le_of_lt hlt, by rw [e6],
      by rw [e6]; omega, by rw [e6]; exact (max_eq_right (le_of_lt hlt)).symm, ?_⟩
    rw [e6, e7, hk, Int.toNat_ofNat]
    exact hload
  · rw [if_neg hlt] at hload e5 e6
    have hge : b.last ≤ r.seq := not_lt.mp hlt
    have hk : r.seq = ((r.seq.toNat : Nat) : Int) := by omega
    rw [hk] at hload
    rw [load_slot h r.seq.toNat (by omega) (by omega)] at hload
    refine ⟨e1, e2, e3, e4, by rw [e5, e6]; ring, by rw [e6], by rw [e6]; exact hge,
      by rw [e6]; exact h1, by rw [e6]; exact (max_eq_left hge).symm, ?_⟩
    rw [e6, e7]
    exact hload

/-- Every step keeps the invariant of a reader started by `readFrom`. -/
theorem from_step {s s2 : System} {a : Action} {es : List EventRef} {id : Nat} {q : Int}
    {r : Reader} (hs : Sound s) (hinv : RingInv s.b es) (hC : 0 < s.b.buffer.length)
    (hr : s.rs[id]? = some r) (hri : FromInv es q (decide (id ∈ s.b.readers)) r)
    (h : step s a = some s2) :
    ∃ r2, s2.rs[id]? = some r2 ∧
      FromInv (es ++ writtenBy [a]) q (decide (id ∈ s2.b.readers)) r2 := by
  have hok := hs.ok id r hr
  have hn := hinv.next_eq
  obtain ⟨hk, hq0, hqn, hlow, hrep, hrel, hheld, hfol, hsub⟩ := hri
  have hqt : q.toNat ≤ es.length := by omega
  have hnoreg : r.pc ≠ .exited → decide (id ∈ s.b.readers) = false := by
    intro hp
    cases hdec : decide (id ∈ s.b.readers)
    · rfl
    · rw [hdec] at hok; exact absurd (hok.1 rfl).1 hp
  obtain ⟨r2, hr2, hcase⟩ := step_reader hs h hr
  refine ⟨r2, hr2, ?_⟩
  rcases hcase with ⟨e, rfl, -, -, hmem, ⟨hreg, sent, ho⟩ | ⟨hno, hsame⟩⟩ |
    ⟨m, g, rfl, hm, -, -, -, hmem⟩ | ⟨hnw, -, hsame, -, -, -, hmem⟩
  · -- a write offered to the registered reader
    obtain ⟨a1, a2, -, -, -, a6, -, -, -, -, -, -, -, a14, a15⟩ := offer_eq ho hok.2.2.2.2.2
    have hdec : decide (id ∈ s.b.readers) = true := by simpa using hreg
    have hpc : r.pc = .exited := by rw [hdec] at hok; exact (hok.1 rfl).1
    have hreg2 : decide (id ∈ s2.b.readers) = true := by simpa using hmem.mpr hreg
    have hf := hfol hdec
    have hlen : (es ++ writtenBy [Action.write e]).length = es.length + 1 := by
      rw [writtenBy_cons_write]; simp [writtenBy]
    have hsum : r2.stats.Sent + r2.stats.Dropped = (es.length : Int) + 1 - q := by
      cases sent
      · rw [(a15 rfl).2]; simp only; omega
      · rw [(a14 rfl).2]; simp only; omega
    rw [hreg2]
    refine ⟨by rw [a1, hk], hq0, by rw [hlen]; push_cast; omega, by rw [a6]; exact hlow,
      fun hp => absurd (a2.trans hpc) hp, fun hp => ?_, fun hp => ?_,
      fun _ => by rw [hlen]; push_cast; exact hsum, ?_⟩
    · rw [a2, hpc] at hp; cases hp
    · rw [a2, hpc] at hp; cases hp
    · rw [a2, hpc, if_pos rfl, List.take_length, writtenBy_cons_write]
      simp only [writtenBy, List.filterMap_nil]
      rw [hpc, if_pos rfl, List.take_length] at hsub
      rw [List.drop_append_of_le_length hqt]
      cases sent
      · rw [(a15 rfl).1]
        exact hsub.trans (List.sublist_append_left _ _)
      · rw [(a14 rfl).1]
        exact hsub.append (List.Sublist.refl _)
  · -- a write while the reader is not registered
    have hreg2 : decide (id ∈ s2.b.readers) = false := by simpa using (not_congr hmem).mpr hno
    have hlen : (es ++ writtenBy [Action.write e]).length = es.length + 1 := by
      rw [writtenBy_cons_write]; simp [writtenBy]
    rw [hreg2, hsame]
    refine ⟨hk, hq0, by rw [hlen]; push_cast; omega, hlow, fun hp => ?_, fun hp => ?_,
      fun hp => ?_, fun hf => (by cases hf), ?_⟩
    · obtain ⟨c1, c2⟩ := hrep hp
      exact ⟨by rw [hlen]; push_cast; omega, c2⟩
    · have := hrel hp
      rw [hlen]; push_cast; omega
    · have := hheld hp
      have hjl : r.seq.toNat < es.length := (List.getElem?_eq_some_iff.mp this).1
      rw [List.getElem?_append_left hjl]
      exact this
    · rw [writtenBy_cons_write]
      simp only [writtenBy, List.filterMap_nil]
      by_cases hp : r.pc = .exited
      · rw [if_pos hp, List.take_length]
        rw [if_pos hp, List.take_length] at hsub
        rw [List.drop_append_of_le_length hqt]
        exact hsub.trans (List.sublist_append_left _ _)
      · rw [if_neg hp]
        rw [if_neg hp] at hsub
        have := (hrep hp).1
        rw [List.take_append_of_le_length (by omega)]
        exact hsub
  · -- a move of the reader
    have hnw : ∀ e, Action.move id m ≠ .write e := by simp
    have hnw2 : writtenBy [Action.move id m] = [] := by
      rw [writtenBy_cons_other _ hnw]; rfl
    rw [hnw2, List.append_nil]
    have hkeep : g = .keep → decide (id ∈ s2.b.readers) = decide (id ∈ s.b.readers) := by
      intro hg
      subst hg
      cases hdec : decide (id ∈ s.b.readers) <;> simp [hmem, Reg.after, hdec]
    cases m with
    | cancel =>
      simp only [Reader.move] at hm
      obtain ⟨-, hc⟩ := cancelStep_cases hm
      rcases hc with ⟨hk2, -⟩ | ⟨hk2, -⟩ | ⟨hk2, -⟩ | ⟨hk2, -⟩ | ⟨-, -, rfl, rfl⟩ |
        ⟨-, -, -, rfl, rfl⟩
      · rw [hk] at hk2; cases hk2
      · rw [hk] at hk2; cases hk2
      · rw [hk] at hk2; cases hk2
      · rw [hk] at hk2; cases hk2
      · have hreg2 : decide (id ∈ s2.b.readers) = false := by simp [hmem, Reg.after]
        rw [hreg2]
        exact ⟨hk, hq0, hqn, hlow, hrep, hrel, hheld, fun hf => (by cases hf), hsub⟩
      · rw [hkeep rfl]
        exact ⟨hk, hq0, hqn, hlow, hrep, hrel, hheld, hfol, hsub⟩
    | taskDone =>
      simp only [Reader.move] at hm
      obtain ⟨-, rfl, hc⟩ := taskDone_cases hm
      rcases hc with ⟨hp, rfl⟩ | ⟨hp, -⟩
      · have hno := hnoreg (by rw [hp]; simp)
        rw [hkeep rfl, hno]
        have hp0 : r.pc ≠ .exited := by rw [hp]; simp
        rw [if_neg hp0] at hsub
        refine ⟨hk, hq0, hqn, hlow, fun hp2 => absurd rfl hp2, fun hp2 => (by cases hp2),
          fun hp2 => (by cases hp2), fun hf => (by cases hf), ?_⟩
        show r.ch.delivered.Sublist _
        rw [if_pos rfl]
        exact hsub.trans (take_drop_mono es (by have := (hrep hp0).1; omega) _)
      · have := hok.2.2.2.2.1 (Or.inl hp); rw [hk] at this; cases this
    | recv =>
      simp only [Reader.move] at hm
      split_ifs at hm
      simp only [Option.some.injEq, Prod.mk.injEq] at hm
      obtain ⟨rfl, rfl⟩ := hm
      rw [hkeep rfl]
      refine ⟨hk, hq0, hqn, hlow, hrep, hrel, hheld, hfol, ?_⟩
      simp only [recv_delivered]; exact hsub
    | stopRecv =>
      simp only [Reader.move, Option.bind_eq_bind] at hm
      cases hcs : r.ch.stopRecv with
      | none => simp [hcs] at hm
      | some c =>
        simp only [hcs, Option.some_bind, Option.some.injEq, Prod.mk.injEq] at hm
        obtain ⟨rfl, rfl⟩ := hm
        have hdel := stopRecv_delivered hcs
        rw [hkeep rfl]
        refine ⟨hk, hq0, hqn, hlow, hrep, hrel, hheld, hfol, ?_⟩
        simp only [hdel]; exact hsub
    | task =>
      simp only [Reader.move] at hm
      have hpc2 : r.pc ≠ .curSend ∧ r.pc ≠ .curRelock := by
        constructor
        · intro hp; have := hok.2.2.2.2.1 (Or.inl hp); rw [hk] at this; cases this
        · intro hp; have := hok.2.2.2.2.1 (Or.inr hp); rw [hk] at this; cases this
      obtain ⟨hp, hs1, rfl, rfl⟩ | ⟨hp, hs1, hcp, rfl⟩ | ⟨hp, hs1, rfl, rfl⟩ |
        ⟨hp, hs1, rfl, rfl⟩ | ⟨hp, hcp, rfl⟩ | ⟨hp, rfl, c, hts, rfl⟩ :=
        taskStep_from_cases hm hpc2
      · -- caught up, under the read lock
        have hp0 : r.pc ≠ .exited := by rw [hp]; simp
        rw [hkeep rfl, hnoreg hp0]
        rw [if_neg hp0] at hsub
        refine ⟨hk, hq0, hqn, hlow, fun _ => hrep hp0, fun hp2 => (by cases hp2),
          fun hp2 => (by cases hp2), fun hf => (by cases hf), ?_⟩
        show r.ch.delivered.Sublist _
        rw [if_neg (by simp)]
        exact hsub
      · -- behind: copy the event at the cursor
        have hp0 : r.pc ≠ .exited := by rw [hp]; simp
        obtain ⟨c1, c2⟩ := hrep hp0
        have hlt : r.seq < s.b.next := by
          rw [hn]; exact lt_of_le_of_ne c1 (by rw [← hn]; exact hs1)
        obtain ⟨d1, d2, d3, d4, d5, d6, d7, d8, -, d10⟩ :=
          replayCopy_at hinv hC (r := { r with ready := true }) (by show 0 ≤ r.seq; omega) hlt hcp
        simp only at d1 d2 d4 d5 d6
        rw [hkeep rfl, hnoreg hp0]
        rw [if_neg hp0] at hsub
        refine ⟨d1.trans hk, hq0, hqn, by omega, fun _ => ⟨by rw [← hn]; omega, by omega⟩,
          fun hp2 => ?_, fun _ => d10, fun hf => (by cases hf), ?_⟩
        · rw [d3] at hp2; cases hp2
        · rw [d2, d3, if_neg (by simp)]
          exact hsub.trans (take_drop_mono es (by omega) _)
      · -- caught up, under the write lock: register
        have hp0 : r.pc ≠ .exited := by rw [hp]; simp
        obtain ⟨c1, c2⟩ := hrep hp0
        have hreg2 : decide (id ∈ s2.b.readers) = true := by simp [hmem, Reg.after]
        rw [if_neg hp0] at hsub
        have hseq : r.seq.toNat = es.length := by omega
        rw [hreg2]
        refine ⟨hk, hq0, hqn, hlow, fun hp2 => absurd rfl hp2, fun hp2 => (by cases hp2),
          fun hp2 => (by cases hp2), fun _ => ?_, ?_⟩
        · show r.stats.Sent + r.stats.Dropped = _
          omega
        · show r.ch.delivered.Sublist _
          rw [if_pos rfl, ← hseq]
          exact hsub
      · -- a write came in between: back to the replay
        have hp0 : r.pc ≠ .exited := by rw [hp]; simp
        obtain ⟨c1, c2⟩ := hrep hp0
        rw [hkeep rfl, hnoreg hp0]
        rw [if_neg hp0] at hsub
        refine ⟨hk, hq0, hqn, hlow, fun _ => hrep hp0, fun _ => ?_,
          fun hp2 => (by cases hp2), fun hf => (by cases hf), ?_⟩
        · show r.seq < _
          exact lt_of_le_of_ne c1 (by rw [← hn]; exact hs1)
        · show r.ch.delivered.Sublist _
          rw [if_neg (by simp)]
          exact hsub
      · -- the read lock retaken: copy the event at the cursor
        have hp0 : r.pc ≠ .exited := by rw [hp]; simp
        obtain ⟨c1, c2⟩ := hrep hp0
        have hlt : r.seq < s.b.next := by rw [hn]; exact hrel hp
        obtain ⟨d1, d2, d3, d4, d5, d6, d7, d8, -, d10⟩ :=
          replayCopy_at hinv hC (by omega) hlt hcp
        rw [hkeep rfl, hnoreg hp0]
        rw [if_neg hp0] at hsub
        refine ⟨d1.trans hk, hq0, hqn, by omega, fun _ => ⟨by rw [← hn]; omega, by omega⟩,
          fun hp2 => ?_, fun _ => d10, fun hf => (by cases hf), ?_⟩
        · rw [d3] at hp2; cases hp2
        · rw [d2, d3, if_neg (by simp)]
          exact hsub.trans (take_drop_mono es (by omega) _)
      · -- the send
        have hp0 : r.pc ≠ .exited := by rw [hp]; simp
        obtain ⟨c1, c2⟩ := hrep hp0
        have he := hheld hp
        have hjl : r.seq.toNat < es.length := (List.getElem?_eq_some_iff.mp he).1
        obtain ⟨-, -, -, -, t5, -⟩ := trySend_sent hts hok.2.2.2.2.2
        rw [hkeep rfl, hnoreg hp0]
        rw [if_neg hp0] at hsub
        refine ⟨hk, hq0, hqn, ?_, fun _ => ⟨?_, ?_⟩, fun hp2 => (by cases hp2),
          fun hp2 => (by cases hp2), fun hf => (by cases hf), ?_⟩
        · show q ≤ r.seq + 1
          omega
        · show r.seq + 1 ≤ _
          omega
        · show r.stats.Sent + 1 + r.stats.Dropped = r.seq + 1 - q
          omega
        · show c.delivered.Sublist _
          rw [if_neg (by simp), t5]
          have h1 : (r.seq + 1).toNat = r.seq.toNat + 1 := by omega
          show (r.ch.delivered ++ [r.event]).Sublist
            (List.drop q.toNat (List.take (r.seq + 1).toNat es))
          rw [h1, take_succ_drop es r.seq.toNat q.toNat r.event (by omega) he]
          exact hsub.append (List.Sublist.refl _)
  · -- any other step
    have hnw2 : writtenBy [a] = [] := by
      rw [writtenBy_cons_other _ hnw]; rfl
    have hreg2 : decide (id ∈ s2.b.readers) = decide (id ∈ s.b.readers) := by
      simp only [hmem]
    rw [hnw2, List.append_nil, hreg2, hsame]
    exact ⟨hk, hq0, hqn, hlow, hrep, hrel, hheld, hfol, hsub⟩

/-- Every run keeps the invariant of a reader started by `readFrom`. -/
theorem from_run (id : Nat) (q : Int) : ∀ (acts : List Action) (s1 s : System)
    (es1 : List EventRef) (r1 : Reader),
    Sound s1 → RingInv s1.b es1 → 0 < s1.b.buffer.length → s1.rs[id]? = some r1 →
    FromInv es1 q (decide (id ∈ s1.b.readers)) r1 → run s1 acts = some s →
    Sound s ∧ RingInv s.b (es1 ++ writtenBy acts) ∧ 0 < s.b.buffer.length ∧
    ∃ r, s.rs[id]? = some r ∧ FromInv (es1 ++ writtenBy acts) q (decide (id ∈ s.b.readers)) r := by
  intro acts
  induction acts with
  | nil =>
    intro s1 s es1 r1 hs hinv hC hr hri h
    simp [run] at h
    subst h
    simp only [writtenBy, List.filterMap_nil, List.append_nil]
    exact ⟨hs, hinv, hC, r1, hr, hri⟩
  | cons a acts ih =>
    intro s1 s es1 r1 hs hinv hC hr hri h
    rw [run_cons] at h
    cases h1 : step s1 a with
    | none => simp [h1] at h
    | some s1' =>
      simp only [h1, Option.some_bind] at h
      obtain ⟨r2, hr2, hri2⟩ := from_step hs hinv hC hr hri h1
      obtain ⟨hinv2, hlen2⟩ := step_ringInv hinv h1
      obtain ⟨c1, c2, c3, r, c4, c5⟩ := ih s1' s (es1 ++ writtenBy [a]) r2 (step_sound hs h1)
        hinv2 (by rw [hlen2]; exact hC) hr2 hri2 h
      have happ : es1 ++ writtenBy [a] ++ writtenBy acts = es1 ++ writtenBy (a :: acts) := by
        rw [List.append_assoc, ← writtenBy_append]; rfl
      rw [happ] at c2 c5
      exact ⟨c1, c2, c3, r, c4, c5⟩

/-- The argument that `ReadSince` passes to `readFrom` is 0 or the sequence
after a buffered one. -/
theorem sinceLoop_bounds {b : RingBuffer} {t : Time} : ∀ (fuel : Nat) (seq q : Int),
    sinceLoop b t fuel seq = some q → q = 0 ∨ (b.last + 1 ≤ q ∧ q ≤ seq + 1) := by
  intro fuel
  induction fuel with
  | zero =>
    intro seq q h
    simp only [sinceLoop, Option.some.injEq] at h
    exact Or.inl h.symm
  | succ n ih =>
    intro seq q h
    unfold sinceLoop at h
    by_cases hge : seq ≥ b.last
    · rw [if_pos hge] at h
      cases hld : load b.buffer (Int.tmod seq b.buffer.length) with
      | none => simp [hld] at h
      | some event =>
        cases het : eventTime event with
        | none => simp [hld, het] at h
        | some et =>
          simp only [hld, het, Option.bind_eq_bind, Option.some_bind] at h
          by_cases hc : (!et.IsZero && et.Before t) = true
          · rw [if_pos hc] at h
            obtain rfl := Option.some.inj h
            exact Or.inr ⟨by omega, le_refl _⟩
          · rw [if_neg hc] at h
            rcases ih _ _ h with h0 | ⟨h1, h2⟩
            · exact Or.inl h0
            · exact Or.inr ⟨h1, by omega⟩
    · rw [if_neg hge] at h
      exact Or.inl (Option.some.inj h).symm

/-- The reader that `ReadAll` or `ReadSince` starts on a buffer with slots:
a reader of `readFrom` at a sequence between 0 and `next`, not registered. -/
theorem from_made {s0 s1 : System} {es : List EventRef} (hs : Sound s0)
    (hinv : RingInv s0.b es) (hC : 0 < s0.b.buffer.length)
    (h1 : (∃ k, step s0 (.readAll k) = some s1) ∨ (∃ t k, step s0 (.readSince t k) = some s1)) :
    ∃ (q : Int) (c : Chan), 0 ≤ q ∧ q ≤ s0.b.next ∧ c.queue = [] ∧ c.received = [] ∧
      s1 = ⟨s0.b, s0.rs ++ [newReader .from c false .top q 0 none]⟩ ∧
      s0.rs.length ∉ s0.b.readers ∧
      ((∃ k, step s0 (.readAll k) = some s1) → q = s0.b.last) ∧
      (∀ t k, step s0 (.readSince t k) = some s1 → sinceSeq s0.b t = some q) := by
  have hC0 : s0.b.buffer.length ≠ 0 := by omega
  have hn := hinv.next_eq
  have hl := hinv.last_eq
  have hnot : s0.rs.length ∉ s0.b.readers := fun hmem => absurd (hs.bound _ hmem) (lt_irrefl _)
  have inj : ∀ (q q2 : Int) (c c2 : Chan),
      (⟨s0.b, s0.rs ++ [newReader .from c false .top q 0 none]⟩ : System)
      = ⟨s0.b, s0.rs ++ [newReader .from c2 false .top q2 0 none]⟩ → q = q2 := by
    intro q q2 c c2 heq
    have h3 := congrArg (fun x : System => x.rs[s0.rs.length]?.map Reader.seq) heq
    simpa [newReader] using h3
  have hall : ∀ k, step s0 (.readAll k) = some s1 →
      s1 = ⟨s0.b,
        s0.rs ++ [newReader .from ⟨k.toNat, [], 0, [], false⟩ false .top s0.b.last 0 none]⟩ := by
    intro k hk
    obtain ⟨r1, g, hmade, rfl⟩ := add_eq hk
    unfold ReadAll at hmade
    rw [if_neg hC0] at hmade
    have := readFrom_eq hmade
    simp only [Prod.mk.injEq] at this
    obtain ⟨rfl, rfl⟩ := this
    rfl
  have hsince : ∀ t k, step s0 (.readSince t k) = some s1 →
      ∃ q, sinceSeq s0.b t = some q ∧
      s1 = ⟨s0.b, s0.rs ++ [newReader .from ⟨k.toNat, [], 0, [], false⟩ false .top q 0 none]⟩ := by
    intro t k hk
    obtain ⟨r1, g, hmade, rfl⟩ := add_eq hk
    unfold ReadSince at hmade
    rw [if_neg hC0] at hmade
    cases hq : sinceSeq s0.b t with
    | none => simp [hq] at hmade
    | some q =>
      simp only [hq, Option.bind_eq_bind, Option.some_bind] at hmade
      have := readFrom_eq hmade
      simp only [Prod.mk.injEq] at this
      obtain ⟨rfl, rfl⟩ := this
      exact ⟨q, rfl, rfl⟩
  rcases h1 with ⟨k, hk⟩ | ⟨t, k, hk⟩
  · have e := hall k hk
    refine ⟨s0.b.last, _, by omega, by omega, rfl, rfl, e, hnot, fun _ => rfl, ?_⟩
    intro t2 k2 hk2
    obtain ⟨q2, hq2, e2⟩ := hsince t2 k2 hk2
    rw [hq2, inj _ _ _ _ (e.symm.trans e2)]
  · obtain ⟨q, hq, e⟩ := hsince t k hk
    have hb : 0 ≤ q ∧ q ≤ s0.b.next := by
      rcases sinceLoop_bounds _ _ _ hq with h0 | ⟨h1, h2⟩
      · omega
      · omega
    refine ⟨q, _, hb.1, hb.2, rfl, rfl, e, hnot, ?_, ?_⟩
    · rintro ⟨k2, hk2⟩
      exact inj _ _ _ _ (e.symm.trans (hall k2 hk2))
    · intro t2 k2 hk2
      obtain ⟨q2, hq2, e2⟩ := hsince t2 k2 hk2
      rw [hq2, inj _ _ _ _ (e.symm.trans e2)]

/-- The invariant holds of a reader as `readFrom` makes it. -/
theorem from_init (es : List EventRef) (q : Int) (c : Chan) (hq0 : 0 ≤ q)
    (hqn : q ≤ (es.length : Int)) (h1 : c.queue = []) (h2 : c.received = []) :
    FromInv es q false (newReader .from c false .top q 0 none) := by
  refine ⟨rfl, hq0, hqn, le_refl _, fun _ => ⟨hqn, ?_⟩, fun hp => (by cases hp),
    fun hp => (by cases hp), fun hf => (by cases hf), ?_⟩
  · show (0 : Int) + 0 = q - q
    omega
  · show (c.received ++ c.queue).Sublist _
    rw [h1, h2]
    exact List.nil_sublist _

/-- C20. Replay accounting. On a buffer with slots in a reachable state
`s0`, `ReadAll` or `ReadSince` starts `readFrom` at a sequence `q` with
`0 ≤ q ≤ next`; then any run follows (writes, steps of the goroutine and of
the cancel function, receives, other readers). In the state reached: if the
goroutine is at the top of its loop, its cursor is at most `next` and
`Sent + Dropped = seq - q`; if its next step copies a slot, it reads it at a
sequence `seq` with `last ≤ seq < next`, and the event copied is the one that
was written with that sequence; and if the reader is registered as a follower,
`Sent + Dropped = next - q`. -/
theorem C20_replay_accounting (caps : List Int) (pre acts : List Action) (s0 s1 s : System)
    (h0 : runNew caps pre = some s0) (hC : 0 < s0.b.buffer.length)
    (h1 : (∃ k, step s0 (.readAll k) = some s1) ∨ (∃ t k, step s0 (.readSince t k) = some s1))
    (h2 : run s1 acts = some s) :
    ∃ (q : Int) (r1 r : Reader), s1.rs[s0.rs.length]? = some r1 ∧ r1.kind = .from ∧
      r1.seq = q ∧ r1.pc = .top ∧ r1.stats = ⟨0, 0⟩ ∧ 0 ≤ q ∧ q ≤ s0.b.next ∧
      s.rs[s0.rs.length]? = some r ∧
      (r.pc = .top → r.seq ≤ s.b.next ∧ r.stats.Sent + r.stats.Dropped = r.seq - q) ∧
      (∀ (s2 : System) (r2 : Reader), step s (.move s0.rs.length .task) = some s2 →
        s2.rs[s0.rs.length]? = some r2 → r2.pc = .send →
        s.b.last ≤ r2.seq ∧ r2.seq < s.b.next ∧
        (writtenBy pre ++ writtenBy acts)[r2.seq.toNat]? = some r2.event) ∧
      (s0.rs.length ∈ s.b.readers → r.stats.Sent + r.stats.Dropped = s.b.next - q) := by
  have hs0 := runNew_sound h0
  have hinv0 := runNew_ringInv h0
  have hs1 : Sound s1 := by
    rcases h1 with ⟨k, hk⟩ | ⟨t, k, hk⟩
    · exact step_sound hs0 hk
    · exact step_sound hs0 hk
  obtain ⟨q, c, hq0, hqn, hc1, hc2, rfl, hnot, -, -⟩ := from_made hs0 hinv0 hC h1
  have hri1 := from_init (writtenBy pre) q c hq0 (by rw [← hinv0.next_eq]; exact hqn) hc1 hc2
  have hdec : decide (s0.rs.length ∈ s0.b.readers) = false := by simpa using hnot
  obtain ⟨hs, hinv, hC2, r, hr, hri⟩ := from_run s0.rs.length q acts _ s (writtenBy pre)
    (newReader .from c false .top q 0 none) hs1 hinv0 hC (by simp)
    (by rw [hdec]; exact hri1) h2
  have hn := hinv.next_eq
  refine ⟨q, newReader .from c false .top q 0 none, r, by simp, rfl, rfl, rfl, rfl, hq0, hqn,
    hr, ?_, ?_, ?_⟩
  · intro hp
    have := hri.replay (by rw [hp]; simp)
    rw [hn]
    exact this
  · intro s2 r2 hstep hr2 hp2
    obtain ⟨r', r2', g, hr', hm, rfl⟩ := move_eq hstep
    rw [hr] at hr'
    obtain rfl := Option.some.inj hr'
    have hlt : s0.rs.length < s.rs.length := (List.getElem?_eq_some_iff.mp hr).1
    simp only [List.getElem?_set, hlt, if_true, Option.some.injEq] at hr2
    subst hr2
    have hok := hs.ok _ r hr
    have hk := hri.kind
    simp only [Reader.move] at hm
    have hpc2 : r.pc ≠ .curSend ∧ r.pc ≠ .curRelock := by
      constructor
      · intro hp; have := hok.2.2.2.2.1 (Or.inl hp); rw [hk] at this; cases this
      · intro hp; have := hok.2.2.2.2.1 (Or.inr hp); rw [hk] at this; cases this
    have hlow := hri.low
    obtain ⟨hp, hs1, rfl, rfl⟩ | ⟨hp, hs1, hcp, rfl⟩ | ⟨hp, hs1, rfl, rfl⟩ |
      ⟨hp, hs1, rfl, rfl⟩ | ⟨hp, hcp, rfl⟩ | ⟨hp, rfl, c, hts, rfl⟩ :=
      taskStep_from_cases hm hpc2
    · cases hp2
    · obtain ⟨c1, -⟩ := hri.replay (by rw [hp]; simp)
      have hlt2 : r.seq < s.b.next := by
        rw [hn]; exact lt_of_le_of_ne c1 (by rw [← hn]; exact hs1)
      obtain ⟨-, -, -, -, -, -, d7, d8, -, d10⟩ :=
        replayCopy_at hinv hC2 (r := { r with ready := true }) (by show 0 ≤ r.seq; omega) hlt2 hcp
      exact ⟨d7, d8, d10⟩
    · cases hp2
    · cases hp2
    · have hlt2 : r.seq < s.b.next := by rw [hn]; exact hri.relock hp
      obtain ⟨-, -, -, -, -, -, d7, d8, -, d10⟩ := replayCopy_at hinv hC2 (by omega) hlt2 hcp
      exact ⟨d7, d8, d10⟩
    · cases hp2
  · intro hreg
    rw [hn]
    exact hri.follow (by simpa using hreg)

theorem C20_replay_accounting_witness :
    runNew [2] [.write (some ⟨1, 10⟩), .write (some ⟨2, 20⟩), .write (some ⟨3, 30⟩)]
      = some ⟨⟨1, 3, [some ⟨3, 30⟩, some ⟨2, 20⟩], [], 0, 0⟩, []⟩ ∧
    run ⟨⟨1, 3, [some ⟨3, 30⟩, some ⟨2, 20⟩], [], 0, 0⟩,
        [⟨.from, ⟨0, [], 0, [], false⟩, ⟨0, 0⟩, false, false, .top, 1, 0, none, .notCalled⟩]⟩
      [.move 0 .task, .write (some ⟨4, 40⟩), .write (some ⟨5, 50⟩), .move 0 .recv, .move 0 .task]
      = some ⟨⟨3, 5, [some ⟨5, 50⟩, some ⟨4, 40⟩], [], 0, 0⟩,
          [⟨.from, ⟨0, [], 0, [some ⟨2, 20⟩], false⟩, ⟨1, 0⟩, false, true, .top, 2, 0,
            some ⟨2, 20⟩, .notCalled⟩]⟩ ∧
    ∃ (q : Int) (r1 r : Reader),
      (⟨⟨1, 3, [some ⟨3, 30⟩, some ⟨2, 20⟩], [], 0, 0⟩,
        [⟨.from, ⟨0, [], 0, [], false⟩, ⟨0, 0⟩, false, false, .top, 1, 0, none, .notCalled⟩]⟩
          : System).rs[(⟨⟨1, 3, [some ⟨3, 30⟩, some ⟨2, 20⟩], [], 0, 0⟩, []⟩ : System).rs.length]?
        = some r1 ∧ r1.kind = .from ∧
      r1.seq = q ∧ r1.pc = .top ∧ r1.stats = ⟨0, 0⟩ ∧ 0 ≤ q ∧
      q ≤ (⟨⟨1, 3, [some ⟨3, 30⟩, some ⟨2, 20⟩], [], 0, 0⟩, []⟩ : System).b.next ∧
      (⟨⟨3, 5, [some ⟨5, 50⟩, some ⟨4, 40⟩], [], 0, 0⟩,
          [⟨.from, ⟨0, [], 0, [some ⟨2, 20⟩], false⟩, ⟨1, 0⟩, false, true, .top, 2, 0,
            some ⟨2, 20⟩, .notCalled⟩]⟩ : System).rs[
          (⟨⟨1, 3, [some ⟨3, 30⟩, some ⟨2, 20⟩], [], 0, 0⟩, []⟩ : System).rs.length]? = some r ∧
      (r.pc = .top → r.seq ≤ (5 : Int) ∧ r.stats.Sent + r.stats.Dropped = r.seq - q) :=
  ⟨by decide, by decide,
    (C20_replay_accounting [2]
      [.write (some ⟨1, 10⟩), .write (some ⟨2, 20⟩), .write (some ⟨3, 30⟩)]
      [.move 0 .task, .write (some ⟨4, 40⟩), .write (some ⟨5, 50⟩), .move 0 .recv, .move 0 .task]
      ⟨⟨1, 3, [some ⟨3, 30⟩, some ⟨2, 20⟩], [], 0, 0⟩, []⟩
      ⟨⟨1, 3, [some ⟨3, 30⟩, some ⟨2, 20⟩], [], 0, 0⟩,
        [⟨.from, ⟨0, [], 0, [], false⟩, ⟨0, 0⟩, false, false, .top, 1, 0, none, .notCalled⟩]⟩
      ⟨⟨3, 5, [some ⟨5, 50⟩, some ⟨4, 40⟩], [], 0, 0⟩,
        [⟨.from, ⟨0, [], 0, [some ⟨2, 20⟩], false⟩, ⟨1, 0⟩, false, true, .top, 2, 0,
          some ⟨2, 20⟩, .notCalled⟩]⟩
      (by decide) (by decide) (Or.inl ⟨0, by decide⟩) (by decide)).imp
      (fun _ hq => hq.imp (fun _ hr1 => hr1.imp (fun _ hr =>
        ⟨hr.1, hr.2.1, hr.2.2.1, hr.2.2.2.1, hr.2.2.2.2.1, hr.2.2.2.2.2.1, hr.2.2.2.2.2.2.1,
          hr.2.2.2.2.2.2.2.1, hr.2.2.2.2.2.2.2.2.1⟩)))⟩

/-! ## `ReadSince` at a time after the newest event -/

theorem taskStep_upgrade (b : RingBuffer) (r : Reader) (hp : r.pc = .upgrade) :
    taskStep b r =
      if r.seq = b.next then some ({ r with pc := .exited }, .insert)
      else some ({ r with pc := .relock }, .keep) := by
  unfold taskStep
  simp only [hp]

/-- The loop of `ReadSince` stops at its first iteration when the newest event
is before `t`: `readFrom` starts at `next`. -/
theorem sinceSeq_newest {b : RingBuffer} {es : List EventRef} (h : RingInv b es)
    (hC : 0 < b.buffer.length) {e : Event} {t : Time}
    (hnew : es.getLast? = some (some e)) (hnz : e.timestamp ≠ 0) (hlt : e.timestamp < t) :
    sinceSeq b t = some b.next := by
  have hn := h.next_eq
  have hl := h.last_eq
  have hne : es ≠ [] := by intro h0; rw [h0] at hnew; cases hnew
  have hlen : 0 < es.length := List.length_pos.mpr hne
  have hget : es[es.length - 1]? = some (some e) := by
    rw [List.getLast?_eq_getElem?] at hnew
    exact hnew
  obtain ⟨f, hf⟩ : ∃ f, (b.next - b.last).toNat = f + 1 := ⟨(b.next - b.last).toNat - 1, by omega⟩
  have hseq : b.next - 1 = ((es.length - 1 : Nat) : Int) := by omega
  have hload : load b.buffer (Int.tmod (b.next - 1) b.buffer.length) = some (some e) := by
    rw [hseq, load_slot h (es.length - 1) (by omega) (by omega)]
    exact hget
  have hge : b.next - 1 ≥ b.last := by omega
  have hcond : (!e.timestamp.IsZero && e.timestamp.Before t) = true := by
    simp [Time.IsZero, Time.Before, hnz, hlt]
  unfold sinceSeq
  rw [hf]
  unfold sinceLoop
  rw [if_pos hge]
  simp only [hload, eventTime, Option.map_some', Option.bind_eq_bind, Option.some_bind]
  rw [if_pos hcond]
  congr 1
  omega

/-- C16. `ReadSince` with `t` newer than the buffer. On a buffer with slots in
a reachable state in which the newest event has a time that is not zero and
strictly before `t`, the loop of `ReadSince(t, k)` yields `next`, and the
reader starts at the top of its loop with the cursor at `next`, not registered
and with an empty channel. If no write comes in, the first pass of its
goroutine through the loop (the section under the read lock, then the section
under the write lock) registers it as a follower, nothing sent. In every run
that follows the call the cursor never goes below that `next`, what is put on
the channel is, in order, among the events written after the call, and a
registered reader has sent or dropped each event written after the call. -/
theorem C16_readSince_newer (caps : List Int) (pre : List Action) (s0 : System) (e : Event)
    (t : Time) (k : Int)
    (h0 : runNew caps pre = some s0) (hC : 0 < s0.b.buffer.length) (hk : 0 ≤ k)
    (hnew : (writtenBy pre).getLast? = some (some e))
    (hnz : e.timestamp ≠ 0) (hlt : e.timestamp < t) :
    sinceSeq s0.b t = some s0.b.next ∧
    ∃ (s1 : System) (r1 : Reader), step s0 (.readSince t k) = some s1 ∧
      s1.rs[s0.rs.length]? = some r1 ∧ r1.kind = .from ∧ r1.seq = s0.b.next ∧ r1.pc = .top ∧
      r1.ch.delivered = [] ∧ s0.rs.length ∉ s1.b.readers ∧
      (∃ (s2 s3 : System) (r3 : Reader), step s1 (.move s0.rs.length .task) = some s2 ∧
        step s2 (.move s0.rs.length .task) = some s3 ∧ s0.rs.length ∈ s3.b.readers ∧
        s3.rs[s0.rs.length]? = some r3 ∧ r3.pc = .exited ∧ r3.ch.delivered = [] ∧
        r3.stats = ⟨0, 0⟩) ∧
      (∀ (acts : List Action) (s : System), run s1 acts = some s →
        ∃ r, s.rs[s0.rs.length]? = some r ∧ s0.b.next ≤ r.seq ∧
          r.ch.delivered.Sublist (writtenBy acts) ∧
          (s0.rs.length ∈ s.b.readers →
            r.stats.Sent + r.stats.Dropped = ((writtenBy acts).length : Int))) := by
  have hs0 := runNew_sound h0
  have hinv0 := runNew_ringInv h0
  have hC0 : s0.b.buffer.length ≠ 0 := by omega
  have hn := hinv0.next_eq
  have hq := sinceSeq_newest hinv0 hC hnew hnz hlt
  have hch : makeChan k = some ⟨k.toNat, [], 0, [], false⟩ := by simp [makeChan, hk]
  have hnot : s0.rs.length ∉ s0.b.readers := fun hmem => absurd (hs0.bound _ hmem) (lt_irrefl _)
  have h1 : step s0 (.readSince t k)
      = some ⟨s0.b,
          s0.rs ++ [newReader .from ⟨k.toNat, [], 0, [], false⟩ false .top s0.b.next 0 none]⟩ := by
    simp [step, ReadSince, hC0, hq, readFrom, hch, System.add, Reg.apply]
  have hr1 : (s0.rs ++ [newReader .from ⟨k.toNat, [], 0, [], false⟩ false .top s0.b.next 0
      none])[s0.rs.length]?
      = some (newReader .from ⟨k.toNat, [], 0, [], false⟩ false .top s0.b.next 0 none) := by
    simp
  refine ⟨hq, _, _, h1, hr1, rfl, rfl, rfl, rfl, hnot, ?_, ?_⟩
  · -- the first pass through the loop
    have hm1 : (newReader .from ⟨k.toNat, [], 0, [], false⟩ false .top s0.b.next 0 none).move
        s0.b (decide (s0.rs.length ∈ s0.b.readers)) .task
        = some ({ newReader .from ⟨k.toNat, [], 0, [], false⟩ false .top s0.b.next 0 none with
            ready := true, pc := .upgrade }, .keep) := by
      rw [Reader.move, taskStep_top _ _ rfl]
      exact if_pos rfl
    have hst1 := step_move_of (s := ⟨s0.b,
      s0.rs ++ [newReader .from ⟨k.toNat, [], 0, [], false⟩ false .top s0.b.next 0 none]⟩)
      hr1 hm1
    have hr2 : ((s0.rs ++ [newReader .from ⟨k.toNat, [], 0, [], false⟩ false .top s0.b.next 0
        none]).set s0.rs.length
          { newReader .from ⟨k.toNat, [], 0, [], false⟩ false .top s0.b.next 0 none with
            ready := true, pc := .upgrade })[s0.rs.length]?
        = some { newReader .from ⟨k.toNat, [], 0, [], false⟩ false .top s0.b.next 0 none with
            ready := true, pc := .upgrade } := getElem?_concat_set _ _ _
    have hm2 : ({ newReader .from ⟨k.toNat, [], 0, [], false⟩ false .top s0.b.next 0 none with
            ready := true, pc := .upgrade } : Reader).move
        s0.b (decide (s0.rs.length ∈ s0.b.readers)) .task
        = some ({ newReader .from ⟨k.toNat, [], 0, [], false⟩ false .top s0.b.next 0 none with
            ready := true, pc := .exited }, .insert) := by
      rw [Reader.move, taskStep_upgrade _ _ rfl]
      exact if_pos rfl
    have hst2 := step_move_of (s := ⟨s0.b,
      (s0.rs ++ [newReader .from ⟨k.toNat, [], 0, [], false⟩ false .top s0.b.next 0
        none]).set s0.rs.length
          { newReader .from ⟨k.toNat, [], 0, [], false⟩ false .top s0.b.next 0 none with
            ready := true, pc := .upgrade }⟩) hr2 hm2
    refine ⟨_, _,
      { newReader .from ⟨k.toNat, [], 0, [], false⟩ false .top s0.b.next 0 none with
        ready := true, pc := .exited }, hst1, hst2, ?_, ?_, rfl, rfl, rfl⟩
    · simp [Reg.apply, insertReader, hnot]
    · simp
  · -- every run after the call
    intro acts s h2
    have hri1 := from_init (writtenBy pre) s0.b.next ⟨k.toNat, [], 0, [], false⟩
      (by omega) (by omega) rfl rfl
    have hdec : decide (s0.rs.length ∈ s0.b.readers) = false := by simpa using hnot
    obtain ⟨hs, hinv, -, r, hr, hri⟩ := from_run s0.rs.length s0.b.next acts _ s (writtenBy pre)
      (newReader .from ⟨k.toNat, [], 0, [], false⟩ false .top s0.b.next 0 none)
      (step_sound hs0 h1) hinv0 hC hr1 (by rw [hdec]; exact hri1) h2
    have hq2 : s0.b.next.toNat = (writtenBy pre).length := by omega
    refine ⟨r, hr, hri.low, ?_, ?_⟩
    · have h3 := hri.sub.trans ((List.take_sublist _ _).drop _)
      rw [hq2, List.drop_left] at h3
      exact h3
    · intro hreg
      have := hri.follow (by simpa using hreg)
      rw [this, List.length_append]
      push_cast
      omega

theorem C16_readSince_newer_witness :
    runNew [3] [.write (some ⟨1, 10⟩), .write (some ⟨2, 20⟩)]
      = some ⟨⟨0, 2, [some ⟨1, 10⟩, some ⟨2, 20⟩, none], [], 0, 0⟩, []⟩ ∧
    sinceSeq (⟨⟨0, 2, [some ⟨1, 10⟩, some ⟨2, 20⟩, none], [], 0, 0⟩, []⟩ : System).b 25
      = some (⟨⟨0, 2, [some ⟨1, 10⟩, some ⟨2, 20⟩, none], [], 0, 0⟩, []⟩ : System).b.next ∧
    run ⟨⟨0, 2, [some ⟨1, 10⟩, some ⟨2, 20⟩, none], [], 0, 0⟩, []⟩
        [.readSince 25 0, .move 0 .task, .move 0 .task, .move 0 .recv, .write (some ⟨3, 30⟩)]
      = some ⟨⟨0, 3, [some ⟨1, 10⟩, some ⟨2, 20⟩, some ⟨3, 30⟩], [0], 1, 0⟩,
          [⟨.from, ⟨0, [], 0, [some ⟨3, 30⟩], false⟩, ⟨1, 0⟩, false, true, .exited, 2, 0, none,
            .notCalled⟩]⟩ :=
  ⟨by decide,
    (C16_readSince_newer [3] [.write (some ⟨1, 10⟩), .write (some ⟨2, 20⟩)]
      ⟨⟨0, 2, [some ⟨1, 10⟩, some ⟨2, 20⟩, none], [], 0, 0⟩, []⟩ ⟨2, 20⟩ 25 0
      (by decide) (by decide) (by decide) (by decide) (by decide) (by decide)).1,
    by decide⟩

theorem delivered_close (c : Chan) :
    ({ c with closed := true, receivers := 0 } : Chan).delivered = c.delivered := rfl

/-- A step other than a write or a step of the reader's cancel function keeps
the invariant of a `ReadCurrent` reader. -/
theorem current_step {s s2 : System} {a : Action} {es : List EventRef} {id l0 : Nat}
    {r : Reader} (hs : Sound s) (hinv : RingInv s.b es) (hl : s.b.last = (l0 : Int))
    (hr : s.rs[id]? = some r) (hri : CurrentInv es l0 r) (h : step s a = some s2)
    (hw : ∀ e, a ≠ .write e) (ha : a ≠ .move id .cancel) :
    ∃ r2, s2.rs[id]? = some r2 ∧ CurrentInv es l0 r2 := by
  have hok := hs.ok id r hr
  obtain ⟨hk, hrd, hd, hc, hlast, hdr, j, hj1, hj2, hj3, hj4, hj5, hj6, hj7, hj8⟩ := hri
  obtain ⟨r2, hr2, hcase⟩ := step_reader hs h hr
  refine ⟨r2, hr2, ?_⟩
  rcases hcase with ⟨e, rfl, -⟩ | ⟨m, g, rfl, hm, -, -, -, -⟩ | ⟨-, -, hsame, -⟩
  · exact absurd rfl (hw e)
  · cases m with
    | cancel => exact absurd rfl ha
    | taskDone =>
      simp only [Reader.move] at hm
      obtain ⟨h1, -⟩ := taskDone_cases hm
      rw [hd] at h1; cases h1
    | recv =>
      simp only [Reader.move] at hm
      split_ifs at hm
      simp only [Option.some.injEq, Prod.mk.injEq] at hm
      obtain ⟨rfl, rfl⟩ := hm
      have hcl := (recv_ok r.ch hok.2.2.2.2.2).1
      refine ⟨hk, hrd, hd, hc, hlast, hdr, j, hj1, hj2, hj3, hj4, ?_, ?_, ?_, ?_⟩
      · simp only [recv_delivered]; exact hj5
      · intro hp; obtain ⟨c1, c2, c3⟩ := hj6 hp; exact ⟨c1, c2, hcl.trans c3⟩
      · intro hp; obtain ⟨c1, c2⟩ := hj7 hp; exact ⟨c1, hcl.trans c2⟩
      · intro hp; obtain ⟨c1, c2⟩ := hj8 hp; exact ⟨c1, hcl.trans c2⟩
    | stopRecv =>
      simp only [Reader.move, Option.bind_eq_bind] at hm
      cases hcs : r.ch.stopRecv with
      | none => simp [hcs] at hm
      | some c =>
        simp only [hcs, Option.some_bind, Option.some.injEq, Prod.mk.injEq] at hm
        obtain ⟨rfl, rfl⟩ := hm
        have hdel := stopRecv_delivered hcs
        have hcl := (stopRecv_ok hcs hok.2.2.2.2.2).1
        refine ⟨hk, hrd, hd, hc, hlast, hdr, j, hj1, hj2, hj3, hj4, ?_, ?_, ?_, ?_⟩
        · simp only [hdel]; exact hj5
        · intro hp; obtain ⟨c1, c2, c3⟩ := hj6 hp; exact ⟨c1, c2, hcl.trans c3⟩
        · intro hp; obtain ⟨c1, c2⟩ := hj7 hp; exact ⟨c1, hcl.trans c2⟩
        · intro hp; obtain ⟨c1, c2⟩ := hj8 hp; exact ⟨c1, hcl.trans c2⟩
    | task =>
      simp only [Reader.move] at hm
      have hpc : r.pc = .curSend ∨ r.pc = .curRelock := by
        cases hp : r.pc with
        | top => have := hok.2.2.2.1 (Or.inl hp); rw [hk] at this; cases this
        | upgrade => have := hok.2.2.2.1 (Or.inr (Or.inl hp)); rw [hk] at this; cases this
        | relock =>
          have := hok.2.2.2.1 (Or.inr (Or.inr (Or.inl hp))); rw [hk] at this; cases this
        | send =>
          have := hok.2.2.2.1 (Or.inr (Or.inr (Or.inr hp))); rw [hk] at this; cases this
        | curSend => exact Or.inl rfl
        | curRelock => exact Or.inr rfl
        | exited => unfold taskStep at hm; simp [hp] at hm
      obtain ⟨-, hc2⟩ := taskStep_current_cases hm hpc
      rcases hc2 with ⟨hp, hge, c, hts, hcc, rfl⟩ | ⟨hp, hlt, c, hts, rfl⟩ |
        ⟨hp, hlt, -⟩ | ⟨hp, hlt, -⟩ | ⟨hp, hnlt, event, hload, rfl⟩
      · -- the last send
        obtain ⟨c1, c2, -⟩ := hj6 hp
        obtain ⟨-, -, -, -, t5, -⟩ := trySend_sent hts hok.2.2.2.2.2
        refine ⟨hk, hrd, hd, hc, hlast, hdr, j + 1, ?_, by omega, by omega, ?_, ?_,
          fun hp2 => (by cases hp2), fun hp2 => (by cases hp2), fun _ => ⟨?_, rfl⟩⟩
        · show r.seq + 1 = _
          rw [hj1]; push_cast; rfl
        · show r.stats.Sent + 1 = _
          rw [hj4]; omega
        · show ({ c with closed := true, receivers := 0 } : Chan).delivered = _
          rw [delivered_close, t5, hj5]
          exact take_drop_snoc es l0 j r.event hj2 c2
        · omega
      · -- a send that is not the last
        obtain ⟨c1, c2, -⟩ := hj6 hp
        obtain ⟨-, -, t3, -, t5, -⟩ := trySend_sent hts hok.2.2.2.2.2
        refine ⟨hk, hrd, hd, hc, hlast, hdr, j + 1, ?_, by omega, by omega, ?_, ?_,
          fun hp2 => (by cases hp2), fun _ => ⟨?_, t3⟩, fun hp2 => (by cases hp2)⟩
        · show r.seq + 1 = _
          rw [hj1]; push_cast; rfl
        · show r.stats.Sent + 1 = _
          rw [hj4]; omega
        · show c.delivered = _
          rw [t5, hj5]
          exact take_drop_snoc es l0 j r.event hj2 c2
        · omega
      · rw [hl, hj1] at hlt; omega
      · rw [hl, hj1] at hlt; omega
      · -- the read lock retaken: copy the event at the cursor
        obtain ⟨c1, c2⟩ := hj7 hp
        have hll := hinv.last_eq
        rw [hj1, load_slot hinv j (by omega) c1, List.getElem?_eq_getElem c1] at hload
        obtain rfl := Option.some.inj hload
        refine ⟨hk, hrd, hd, hc, hlast, hdr, j, hj1, hj2, hj3, hj4, hj5,
          fun _ => ⟨c1, List.getElem?_eq_getElem c1, c2⟩, fun hp2 => (by cases hp2),
          fun hp2 => (by cases hp2)⟩
  · rw [hsame]
    exact ⟨hk, hrd, hd, hc, hlast, hdr, j, hj1, hj2, hj3, hj4, hj5, hj6, hj7, hj8⟩

/-- A run without a write and without a call of the reader's cancel function
keeps the invariant of a `ReadCurrent` reader. -/
theorem current_run (id l0 : Nat) (es : List EventRef) : ∀ (acts : List Action)
    (s1 s : System) (r1 : Reader),
    Sound s1 → RingInv s1.b es → s1.b.last = (l0 : Int) → s1.rs[id]? = some r1 →
    CurrentInv es l0 r1 → run s1 acts = some s →
    (∀ a ∈ acts, (∀ e, a ≠ .write e) ∧ a ≠ .move id .cancel) →
    ∃ r, s.rs[id]? = some r ∧ CurrentInv es l0 r := by
  intro acts
  induction acts with
  | nil =>
    intro s1 s r1 _ _ _ hr hri h _
    simp [run] at h
    subst h
    exact ⟨r1, hr, hri⟩
  | cons a acts ih =>
    intro s1 s r1 hs hinv hl hr hri h hacts
    rw [run_cons] at h
    cases h1 : step s1 a with
    | none => simp [h1] at h
    | some s1' =>
      simp only [h1, Option.some_bind] at h
      obtain ⟨hw, ha⟩ := hacts a (List.mem_cons_self _ _)
      obtain ⟨r2, hr2, hri2⟩ := current_step hs hinv hl hr hri h1 hw ha
      obtain ⟨a1, a2, a3⟩ := step_ring h1 hw
      have hinv2 : RingInv s1'.b es := hinv.congr a1 a2 a3
      exact ih s1' s r2 (step_sound hs h1) hinv2 (a1.trans hl) hr2 hri2 h
        (fun x hx => hacts x (List.mem_cons_of_mem _ hx))

/-! ## A consumer that receives until the channel of `ReadCurrent` closes -/

theorem step_move_at {s : System} {es : List EventRef} {id : Nat} {m : Move} {r r2 : Reader}
    {g : Reg} (hs : Sound s) (hinv : RingInv s.b es) (hr : s.rs[id]? = some r)
    (hm : r.move s.b (decide (id ∈ s.b.readers)) m = some (r2, g)) :
    ∃ s2, step s (.move id m) = some s2 ∧ s2.rs[id]? = some r2 ∧ Sound s2 ∧
      RingInv s2.b es ∧ s2.b.last = s.b.last := by
  have h := step_move_of hr hm
  have hlt : id < s.rs.length := (List.getElem?_eq_some_iff.mp hr).1
  exact ⟨_, h, by simp [hlt], step_sound hs h, hinv.congr rfl rfl rfl, rfl⟩

theorem recv_trySend (c : Chan) (v : EventRef) (h1 : c.closed = false) (h2 : c.queue = [])
    (h3 : c.receivers = 0) :
    c.recv.trySend v = .sent { c with received := c.received ++ [v] } := by
  obtain ⟨capacity, queue, receivers, received, closed⟩ := c
  simp only at h1 h2 h3
  subst h1 h2 h3
  simp [Chan.recv, Chan.trySend]

theorem taskStep_curSend_last {b : RingBuffer} {r : Reader} {c : Chan} (hp : r.pc = .curSend)
    (hts : r.ch.trySend r.event = .sent c) (hcl : c.closed = false)
    (hge : r.seq + 1 ≥ r.last) :
    taskStep b r = some
      ({ r with
          ch := { c with closed := true, receivers := 0 }
          stats := ⟨r.stats.Sent + 1, r.stats.Dropped⟩
          seq := r.seq + 1
          pc := .exited }, .keep) := by
  unfold taskStep
  simp only [hp, hts]
  rw [if_pos hge]
  simp [Chan.close, hcl]

theorem taskStep_curSend_more {b : RingBuffer} {r : Reader} {c : Chan} (hp : r.pc = .curSend)
    (hts : r.ch.trySend r.event = .sent c) (hlt : r.seq + 1 < r.last) :
    taskStep b r = some
      ({ r with
          ch := c
          stats := ⟨r.stats.Sent + 1, r.stats.Dropped⟩
          seq := r.seq + 1
          pc := .curRelock }, .keep) := by
  have hge : ¬ (r.seq + 1 ≥ r.last) := not_le.mpr hlt
  unfold taskStep
  simp only [hp, hts]
  rw [if_neg hge]

theorem taskStep_curRelock {b : RingBuffer} {r : Reader} {event : EventRef}
    (hp : r.pc = .curRelock) (hnlt : ¬ r.seq < b.last)
    (hload : load b.buffer (Int.tmod r.seq b.buffer.length) = some event) :
    taskStep b r = some ({ r with event := event, pc := .curSend }, .keep) := by
  unfold taskStep
  simp only [hp]
  rw [if_neg hnlt]
  simp only [hload, Option.bind_eq_bind, Option.some_bind]

/-- The consumer's moves take the events that are left: from a state in which
the goroutine is at its send with the event of sequence `j` and nobody is
receiving, the run of `drain id (k + 1)`, for the `k + 1` events from `j` to
`next`, ends with the goroutine returned, the channel closed and empty, and
these events received in order and counted as sent. -/
theorem drain_run (id l0 : Nat) (es : List EventRef) : ∀ (k : Nat) (s : System) (r : Reader)
    (j : Nat), Sound s → RingInv s.b es → s.b.last = (l0 : Int) → s.rs[id]? = some r →
    r.ready = true → r.pc = .curSend → r.seq = (j : Int) → r.last = (es.length : Int) →
    es[j]? = some r.event → r.ch.closed = false → r.ch.queue = [] → r.ch.receivers = 0 →
    l0 ≤ j → j + (k + 1) = es.length →
    ∃ s2 r2, run s (drain id (k + 1)) = some s2 ∧ s2.rs[id]? = some r2 ∧ Sound s2 ∧
      r2.pc = .exited ∧ r2.ch.closed = true ∧ r2.ch.queue = [] ∧
      r2.ch.received = r.ch.received ++ es.drop j ∧
      r2.stats = ⟨r.stats.Sent + ((k + 1 : Nat) : Int), r.stats.Dropped⟩ ∧
      r2.kind = r.kind ∧ r2.ready = true ∧ r2.done = r.done ∧ r2.cancel = r.cancel := by
  intro k
  induction k with
  | zero =>
    intro s r j hs hinv hl hr hrd hp hseq hlast hev hcl hq hrc hlj hjn
    have hm1 : r.move s.b (decide (id ∈ s.b.readers)) .recv
        = some ({ r with ch := r.ch.recv }, .keep) := by
      simp [Reader.move, hrd]
    obtain ⟨s1, h1, hr1, hs1, hinv1, hl1⟩ := step_move_at hs hinv hr hm1
    have hts := recv_trySend r.ch r.event hcl hq hrc
    have hm2 : ({ r with ch := r.ch.recv } : Reader).move s1.b (decide (id ∈ s1.b.readers)) .task
        = some ({ r with ch := { r.ch with received := r.ch.received ++ [r.event],
                                           closed := true, receivers := 0 },
                         stats := ⟨r.stats.Sent + 1, r.stats.Dropped⟩, seq := r.seq + 1,
                         pc := .exited }, .keep) := by
      simp only [Reader.move]
      exact taskStep_curSend_last (r := { r with ch := r.ch.recv }) hp hts hcl
        (by show r.seq + 1 ≥ r.last; omega)
    obtain ⟨s2, h2, hr2, hs2, -, -⟩ := step_move_at hs1 hinv1 hr1 hm2
    refine ⟨s2, _, ?_, hr2, hs2, rfl, rfl, hq, ?_, ?_, rfl, hrd, rfl, rfl⟩
    · show run s [.move id .recv, .move id .task] = some s2
      rw [run_cons, h1, Option.some_bind, run_cons, h2, Option.some_bind]
      rfl
    · show r.ch.received ++ [r.event] = _
      have hjl : j < es.length := by omega
      rw [List.drop_eq_getElem_cons hjl, List.drop_of_length_le (by omega)]
      rw [List.getElem?_eq_getElem hjl] at hev
      rw [Option.some.inj hev]
    · show (⟨r.stats.Sent + 1, r.stats.Dropped⟩ : ReaderStats) = _
      simp
  | succ k ih =>
    intro s r j hs hinv hl hr hrd hp hseq hlast hev hcl hq hrc hlj hjn
    have hm1 : r.move s.b (decide (id ∈ s.b.readers)) .recv
        = some ({ r with ch := r.ch.recv }, .keep) := by
      simp [Reader.move, hrd]
    obtain ⟨s1, h1, hr1, hs1, hinv1, hl1⟩ := step_move_at hs hinv hr hm1
    have hts := recv_trySend r.ch r.event hcl hq hrc
    have hm2 : ({ r with ch := r.ch.recv } : Reader).move s1.b (decide (id ∈ s1.b.readers)) .task
        = some ({ r with ch := { r.ch with received := r.ch.received ++ [r.event] },
                         stats := ⟨r.stats.Sent + 1, r.stats.Dropped⟩, seq := r.seq + 1,
                         pc := .curRelock }, .keep) := by
      simp only [Reader.move]
      exact taskStep_curSend_more (r := { r with ch := r.ch.recv }) hp hts
        (by show r.seq + 1 < r.last; omega)
    obtain ⟨s2, h2, hr2, hs2, hinv2, hl2⟩ := step_move_at hs1 hinv1 hr1 hm2
    have hjl : j + 1 < es.length := by omega
    have hload : load s2.b.buffer (Int.tmod (r.seq + 1) s2.b.buffer.length)
        = some es[j + 1] := by
      have hll := hinv2.last_eq
      have hcast : r.seq + 1 = ((j + 1 : Nat) : Int) := by rw [hseq]; push_cast; rfl
      rw [hcast, load_slot hinv2 (j + 1) (by rw [hl2, hl1, hl] at hll; omega) hjl,
        List.getElem?_eq_getElem hjl]
    have hm3 : ({ r with ch := { r.ch with received := r.ch.received ++ [r.event] },
                         stats := ⟨r.stats.Sent + 1, r.stats.Dropped⟩, seq := r.seq + 1,
                         pc := .curRelock } : Reader).move s2.b
          (decide (id ∈ s2.b.readers)) .task
        = some ({ r with ch := { r.ch with received := r.ch.received ++ [r.event] },
                         stats := ⟨r.stats.Sent + 1, r.stats.Dropped⟩, seq := r.seq + 1,
                         event := es[j + 1], pc := .curSend }, .keep) := by
      simp only [Reader.move]
      exact taskStep_curRelock rfl (by show ¬ r.seq + 1 < s2.b.last; rw [hl2, hl1, hl]; omega)
        hload
    obtain ⟨s3, h3, hr3, hs3, hinv3, hl3⟩ := step_move_at hs2 hinv2 hr2 hm3
    obtain ⟨s4, r4, h4, hr4, hs4, e1, e2, e3, e4, e5, e6, e7, e8, e9⟩ := ih s3 _ (j + 1) hs3 hinv3
      (by rw [hl3, hl2, hl1, hl]) hr3 hrd rfl (by show r.seq + 1 = _; rw [hseq]; push_cast; rfl)
      hlast (List.getElem?_eq_getElem hjl) hcl hq hrc (by omega) (by omega)
    refine ⟨s4, r4, ?_, hr4, hs4, e1, e2, e3, ?_, ?_, e6, e7, e8, e9⟩
    · show run s ([.move id .recv, .move id .task, .move id .task] ++ drain id (k + 1)) = some s4
      rw [run_append, run_cons, h1, Option.some_bind, run_cons, h2, Option.some_bind, run_cons,
        h3, Option.some_bind]
      exact h4
    · rw [e4]
      show r.ch.received ++ [r.event] ++ List.drop (j + 1) es = _
      have hjl0 : j < es.length := by omega
      rw [List.append_assoc, List.singleton_append, List.drop_eq_getElem_cons hjl0]
      rw [List.getElem?_eq_getElem hjl0] at hev
      rw [Option.some.inj hev]
    · rw [e5]
      show (⟨r.stats.Sent + 1 + ((k + 1 : Nat) : Int), r.stats.Dropped⟩ : ReaderStats) = _
      congr 1
      push_cast
      ring

/-- C13. `ReadCurrent` without interference. `ReadCurrent(k)` is called on a
buffer with slots in a reachable state `s0` that holds `m = next - last`
events. When `m = 0` it returns a closed, empty channel and a cancel function
that returns `{0, 0}`. When `m > 0`: if the consumer receives until the channel
closes (the run `drain`), the goroutine returns, the channel is closed and
empty, the consumer has received exactly the `m` buffered events, oldest
first, the statistics are `{m, 0}`, and the cancel function returns them. And
in every run without a write and without a call of the cancel function
(receives at any time, other readers), nothing is dropped, `Sent` is the
number of events put on the channel, these are an initial segment of the
buffered events, and once the channel is closed they are all of them and the
statistics are `{m, 0}`. -/
theorem C13_readCurrent_quiet (caps : List Int) (pre : List Action) (s0 : System) (k : Int)
    (h0 : runNew caps pre = some s0) (hC : 0 < s0.b.buffer.length) (hk : 0 ≤ k) :
    ∃ s1 r1, step s0 (.readCurrent k) = some s1 ∧ s1.rs[s0.rs.length]? = some r1 ∧
      (s0.b.next - s0.b.last = 0 →
        r1.ch.closed = true ∧ r1.ch.delivered = [] ∧ r1.pc = .exited ∧
        ∃ r2, cancelStep false r1 = some (r2, .keep) ∧ r2.cancel = .returned ⟨0, 0⟩) ∧
      (0 < s0.b.next - s0.b.last →
        (∃ s2 r2 s3 r3, run s1 (drain s0.rs.length (s0.b.next - s0.b.last).toNat) = some s2 ∧
          s2.rs[s0.rs.length]? = some r2 ∧ r2.pc = .exited ∧ r2.ch.closed = true ∧
          r2.ch.queue = [] ∧ r2.ch.received = (writtenBy pre).drop s0.b.last.toNat ∧
          r2.stats = ⟨s0.b.next - s0.b.last, 0⟩ ∧
          step s2 (.move s0.rs.length .cancel) = some s3 ∧ s3.rs[s0.rs.length]? = some r3 ∧
          r3.cancel = .returned ⟨s0.b.next - s0.b.last, 0⟩) ∧
        (∀ (acts : List Action) (s : System), run s1 acts = some s →
          (∀ a ∈ acts, (∀ e, a ≠ .write e) ∧ a ≠ .move s0.rs.length .cancel) →
          ∃ r, s.rs[s0.rs.length]? = some r ∧ r.stats.Dropped = 0 ∧
            r.stats.Sent = (r.ch.delivered.length : Int) ∧
            r.ch.delivered <+: (writtenBy pre).drop s0.b.last.toNat ∧
            (r.ch.closed = true →
              r.ch.delivered = (writtenBy pre).drop s0.b.last.toNat ∧
              r.stats = ⟨s0.b.next - s0.b.last, 0⟩))) := by
  have hs0 := runNew_sound h0
  have hinv0 := runNew_ringInv h0
  have hC0 : s0.b.buffer.length ≠ 0 := by omega
  have hn := hinv0.next_eq
  have hl := hinv0.last_eq
  have hch : makeChan k = some ⟨k.toNat, [], 0, [], false⟩ := by simp [makeChan, hk]
  have hlt : (s0.b.last.toNat : Int) = s0.b.last := by omega
  by_cases hm : s0.b.last = s0.b.next
  · -- no event in the buffer
    have h1 : step s0 (.readCurrent k)
        = some ⟨s0.b, s0.rs ++ [newReader .currentEmpty ⟨k.toNat, [], 0, [], true⟩ true .exited
            0 0 none]⟩ := by
      simp only [step, ReadCurrent, hch, Option.bind_eq_bind, Option.some_bind, hC0, if_false]
      rw [if_pos hm]
      simp [Chan.close, System.add, Reg.apply]
    refine ⟨_, newReader .currentEmpty ⟨k.toNat, [], 0, [], true⟩ true .exited 0 0 none, h1,
      by simp, fun _ => ⟨rfl, rfl, rfl,
      { newReader .currentEmpty ⟨k.toNat, [], 0, [], true⟩ true .exited 0 0 none with
        cancel := .returned ⟨0, 0⟩ }, rfl, rfl⟩, fun hpos => ?_⟩
    omega
  · -- events in the buffer
    have hpos : 0 < s0.b.next - s0.b.last := by omega
    have hjl : s0.b.last.toNat < (writtenBy pre).length := by omega
    have hload : load s0.b.buffer (Int.tmod s0.b.last s0.b.buffer.length)
        = some (writtenBy pre)[s0.b.last.toNat] := by
      have hidx : Int.tmod s0.b.last s0.b.buffer.length
          = Int.tmod ((s0.b.last.toNat : Nat) : Int) s0.b.buffer.length := by rw [hlt]
      rw [hidx, load_slot hinv0 s0.b.last.toNat (by omega) hjl, List.getElem?_eq_getElem hjl]
    have h1 : step s0 (.readCurrent k)
        = some ⟨s0.b, s0.rs ++ [newReader .current ⟨k.toNat, [], 0, [], false⟩ true .curSend
            s0.b.last s0.b.next (writtenBy pre)[s0.b.last.toNat]]⟩ := by
      simp only [step, ReadCurrent, hch, Option.bind_eq_bind, Option.some_bind, hC0, if_false]
      rw [if_neg hm]
      simp [hload, System.add, Reg.apply]
    have hs1 := step_sound hs0 h1
    have hr1 : (s0.rs ++ [newReader .current ⟨k.toNat, [], 0, [], false⟩ true .curSend
        s0.b.last s0.b.next (writtenBy pre)[s0.b.last.toNat]])[s0.rs.length]?
        = some (newReader .current ⟨k.toNat, [], 0, [], false⟩ true .curSend
            s0.b.last s0.b.next (writtenBy pre)[s0.b.last.toNat]) := by
      simp
    refine ⟨_, newReader .current ⟨k.toNat, [], 0, [], false⟩ true .curSend
        s0.b.last s0.b.next (writtenBy pre)[s0.b.last.toNat], h1, hr1, fun h0 => (by omega),
      fun _ => ⟨?_, ?_⟩⟩
    · -- the consumer receives until the channel closes
      obtain ⟨f, hf⟩ : ∃ f, (s0.b.next - s0.b.last).toNat = f + 1 :=
        ⟨(s0.b.next - s0.b.last).toNat - 1, by omega⟩
      obtain ⟨s2, r2, h2, hr2, hs2, e1, e2, e3, e4, e5, e6, e7, e8, e9⟩ :=
        drain_run s0.rs.length s0.b.last.toNat (writtenBy pre) f _ _ s0.b.last.toNat hs1 hinv0
          hlt.symm hr1 rfl rfl hlt.symm hn (List.getElem?_eq_getElem hjl) rfl rfl rfl
          (le_refl _) (by omega)
      have hst : r2.stats = ⟨s0.b.next - s0.b.last, 0⟩ := by
        rw [e5]
        show (⟨0 + ((f + 1 : Nat) : Int), 0⟩ : ReaderStats) = _
        congr 1
        omega
      have hmc : r2.move s2.b (decide (s0.rs.length ∈ s2.b.readers)) .cancel
          = some ({ r2 with done := true, cancel := .returned r2.stats }, .keep) := by
        have k1 : r2.kind = .current := e6
        have k2 : r2.done = false := e8
        have k3 : r2.cancel = .notCalled := e9
        simp [Reader.move, cancelStep, e7, k1, k2, k3]
      have h3 := step_move_of hr2 hmc
      have hlt2 : s0.rs.length < s2.rs.length := (List.getElem?_eq_some_iff.mp hr2).1
      refine ⟨s2, r2, _, { r2 with done := true, cancel := .returned r2.stats }, ?_, hr2, e1, e2,
        e3, e4, hst, h3, by simp [hlt2], ?_⟩
      · rw [hf]; exact h2
      · show CancelState.returned r2.stats = _
        rw [hst]
    · -- every run without a write and without cancel
      intro acts s h2 hacts
      have hri1 : CurrentInv (writtenBy pre) s0.b.last.toNat
          (newReader .current ⟨k.toNat, [], 0, [], false⟩ true .curSend
            s0.b.last s0.b.next (writtenBy pre)[s0.b.last.toNat]) :=
        ⟨rfl, rfl, rfl, rfl, hn, rfl, s0.b.last.toNat, hlt.symm, le_refl _, le_of_lt hjl,
          by simp [newReader], by simp [newReader, Chan.delivered],
          fun _ => ⟨hjl, List.getElem?_eq_getElem hjl, rfl⟩, fun hp => (by cases hp),
          fun hp => (by cases hp)⟩
      obtain ⟨r, hr, hri⟩ := current_run s0.rs.length s0.b.last.toNat (writtenBy pre) acts _ s _
        hs1 hinv0 hlt.symm hr1 hri1 h2 hacts
      obtain ⟨j, hj1, hj2, hj3, hj4, hj5, hj6, hj7, hj8⟩ := hri.cursor
      have hlen : r.ch.delivered.length = j - s0.b.last.toNat := by
        rw [hj5, List.length_take, List.length_drop]; omega
      have hok := (run_sound hs1 h2).ok _ r hr
      have hclosed : r.ch.closed = true → j = (writtenBy pre).length := by
        intro hcl
        cases hp : r.pc with
        | top => have := hok.2.2.2.1 (Or.inl hp); rw [hri.kind] at this; cases this
        | upgrade =>
          have := hok.2.2.2.1 (Or.inr (Or.inl hp)); rw [hri.kind] at this; cases this
        | relock =>
          have := hok.2.2.2.1 (Or.inr (Or.inr (Or.inl hp))); rw [hri.kind] at this; cases this
        | send =>
          have := hok.2.2.2.1 (Or.inr (Or.inr (Or.inr hp))); rw [hri.kind] at this; cases this
        | curSend => have := (hj6 hp).2.2; rw [hcl] at this; cases this
        | curRelock => have := (hj7 hp).2; rw [hcl] at this; cases this
        | exited => exact (hj8 hp).1
      refine ⟨r, hr, hri.dropped, by rw [hj4, hlen], by rw [hj5]; exact List.take_prefix _ _,
        fun hcl => ⟨?_, ?_⟩⟩
      · rw [hj5, hclosed hcl]
        exact List.take_of_length_le (by simp)
      · have hjn := hclosed hcl
        have e1 : r.stats.Sent = s0.b.next - s0.b.last := by rw [hj4]; omega
        have e2 := hri.dropped
        cases hst : r.stats with
        | mk a b =>
          rw [hst] at e1 e2
          simp only at e1 e2
          rw [e1, e2]

theorem C13_readCurrent_quiet_witness :
    runNew [2] [.write (some ⟨1, 10⟩), .write (some ⟨2, 20⟩)]
      = some ⟨⟨0, 2, [some ⟨1, 10⟩, some ⟨2, 20⟩], [], 0, 0⟩, []⟩ ∧
    run ⟨⟨0, 2, [some ⟨1, 10⟩, some ⟨2, 20⟩], [], 0, 0⟩, []⟩
        [.readCurrent 0, .move 0 .recv, .move 0 .task, .move 0 .task, .move 0 .recv,
          .move 0 .task, .move 0 .cancel]
      = some ⟨⟨0, 2, [some ⟨1, 10⟩, some ⟨2, 20⟩], [], 0, 0⟩,
          [⟨.current, ⟨0, [], 0, [some ⟨1, 10⟩, some ⟨2, 20⟩], true⟩, ⟨2, 0⟩, true, true,
            .exited, 2, 2, some ⟨2, 20⟩, .returned ⟨2, 0⟩⟩]⟩ ∧
    ∃ s1 r1, step ⟨⟨0, 2, [some ⟨1, 10⟩, some ⟨2, 20⟩], [], 0, 0⟩, []⟩ (.readCurrent 0)
        = some s1 ∧
      s1.rs[(⟨⟨0, 2, [some ⟨1, 10⟩, some ⟨2, 20⟩], [], 0, 0⟩, []⟩ : System).rs.length]?
        = some r1 :=
  ⟨by decide, by decide,
    (C13_readCurrent_quiet [2] [.write (some ⟨1, 10⟩), .write (some ⟨2, 20⟩)]
      ⟨⟨0, 2, [some ⟨1, 10⟩, some ⟨2, 20⟩], [], 0, 0⟩, []⟩ 0
      (by decide) (by decide) (by decide)).imp
      (fun _ h1 => h1.imp (fun _ h2 => ⟨h2.1, h2.2.1⟩))⟩

/-! ## Re-using the result of `Buffer` -/

/-- The destination as `Buffer` sizes it keeps the array of a destination with
enough capacity. -/
theorem resize_cap {b : RingBuffer} {m : Nat} (hm : b.next - b.last = (m : Int))
    (hmC : m ≤ b.buffer.length) (dst : Slice) (hwf : dst.WF)
    (hcap : b.buffer.length ≤ dst.cap) {ev : Slice} (h : resize b dst = some ev) :
    ev.cap = dst.cap := by
  have hwf2 : dst.len ≤ dst.cap := hwf
  unfold resize at h
  rw [hm] at h
  have h1b : ¬ (dst.cap : Int) < (b.buffer.length : Int) := by omega
  rw [if_neg h1b] at h
  by_cases h2 : (dst.len : Int) < (m : Int)
  · rw [if_pos h2] at h
    have hk : ((m : Int) - (dst.len : Int)).toNat = m - dst.len := by omega
    have hk2 : ¬ ((m : Int) - (dst.len : Int) < 0) := by omega
    have hk3 : dst.len + (m - dst.len) ≤ dst.cap := by omega
    simp only [appendNil, hk2, if_false, hk, hk3, if_true, Option.some.injEq] at h
    subst h
    simp only [Slice.cap, List.length_append, List.length_take, List.length_replicate,
      List.length_drop]
    simp only [Slice.cap] at hk3 hwf2
    omega
  · rw [if_neg h2] at h
    rw [← Option.some.inj h]

/-- The copy out of the ring changes neither the length nor the capacity of
the destination. -/
theorem copyOut_shape {b : RingBuffer} {es : List EventRef} (h : RingInv b es)
    (hC : 0 < b.buffer.length) (hne : es.length ≠ 0) (ev : Slice) (hwf : ev.WF)
    (hlen : es.length - (es.length - b.buffer.length) ≤ ev.len)
    (hcap : b.buffer.length ≤ ev.cap) {r : Slice} (hr : copyOut b ev = some r) :
    r.len = ev.len ∧ r.cap = ev.cap := by
  have hn := h.next_eq
  have hl := h.last_eq
  have hwf2 : ev.len ≤ ev.cap := hwf
  simp only [copyOut, hn, hl, tmod_natCast] at hr
  rcases Nat.lt_or_ge es.length b.buffer.length with hfull | hfull
  · have e1 : es.length % b.buffer.length = es.length := Nat.mod_eq_of_lt hfull
    have e2 : es.length - b.buffer.length = 0 := by omega
    have hgt : ((es.length : Nat) : Int) > ((0 : Nat) : Int) := by omega
    simp only [e1, e2, Nat.zero_mod, hgt, if_true, bounds_natCast (Nat.zero_le _) (le_of_lt hfull),
      Option.bind_eq_bind, Option.some_bind, Option.some.injEq] at hr
    subst hr
    refine ⟨rfl, copyAt_cap _ _ _ _ ?_ ?_⟩
    · simp only [List.drop_zero, List.length_take, Nat.sub_zero]; omega
    · simp only [List.drop_zero, List.length_take, Nat.sub_zero]; omega
  · have e1 : (es.length - b.buffer.length) % b.buffer.length = es.length % b.buffer.length := by
      conv_rhs => rw [← Nat.sub_add_cancel hfull, Nat.add_mod_right]
    have hlt2 : es.length % b.buffer.length < b.buffer.length := Nat.mod_lt _ hC
    have hlenC : b.buffer.length ≤ ev.len := by omega
    have e3 : (b.buffer.length : Int) - ((es.length % b.buffer.length : Nat) : Int)
        = ((b.buffer.length - es.length % b.buffer.length : Nat) : Int) := by omega
    have hb1 := bounds_natCast (Nat.zero_le (b.buffer.length - es.length % b.buffer.length))
      (show b.buffer.length - es.length % b.buffer.length ≤ ev.cap by omega)
    have hb2 := bounds_natCast (le_of_lt hlt2) (le_refl b.buffer.length)
    have hb4 := bounds_natCast (Nat.zero_le (es.length % b.buffer.length)) (le_of_lt hlt2)
    simp only [Nat.cast_zero] at hb1 hb4
    have htk : List.take (b.buffer.length - es.length % b.buffer.length)
        (List.drop (es.length % b.buffer.length) b.buffer)
          = List.drop (es.length % b.buffer.length) b.buffer :=
      List.take_of_length_le (by simp)
    simp only [e1, gt_iff_lt, lt_self_iff_false, if_false, e3, hb1, hb2, hb4,
      Option.bind_eq_bind, Option.some_bind, htk] at hr
    have hlen1 : (copyAt ev 0 (b.buffer.length - es.length % b.buffer.length)
        (List.drop (es.length % b.buffer.length) b.buffer)).len = ev.len := rfl
    have hcap1 : (copyAt ev 0 (b.buffer.length - es.length % b.buffer.length)
        (List.drop (es.length % b.buffer.length) b.buffer)).cap = ev.cap :=
      copyAt_cap _ _ _ _ (by simp) (by simp; omega)
    have hb3 := bounds_natCast
      (show b.buffer.length - es.length % b.buffer.length ≤ ev.len by omega)
      (show ev.len ≤ ev.cap from hwf2)
    rw [hlen1, hcap1, hb3] at hr
    simp only [Option.some_bind, Option.some.injEq] at hr
    subst hr
    refine ⟨rfl, (copyAt_cap _ _ _ _ ?_ ?_).trans hcap1⟩
    · simp only [List.length_take]; omega
    · rw [hcap1]; simp only [List.length_take]; omega

/-- The slice that `Buffer` returns on a state reached by writes, for a
destination that is too small or not longer than the buffered events: nil when
the buffer has no event, and otherwise a slice as long as there are buffered
events, with at least as much capacity as the ring has slots. -/
theorem Buffer_shape {b : RingBuffer} {es : List EventRef} (h : RingInv b es)
    (hC : 0 < b.buffer.length) (dst : Slice) (hwf : dst.WF)
    (hfit : dst.cap < b.buffer.length ∨ dst.len ≤ es.length - (es.length - b.buffer.length))
    {r : Slice} (hr : Buffer b dst = some r) :
    r.WF ∧ r.len = es.length - (es.length - b.buffer.length) ∧
      (es.length = 0 → r = Slice.nil) ∧ (es.length ≠ 0 → b.buffer.length ≤ r.cap) := by
  have hC0 : b.buffer.length ≠ 0 := by omega
  by_cases hne : es.length = 0
  · have hlast : b.last = b.next := by rw [h.last_eq, h.next_eq, hne]; simp
    simp only [Buffer, hC0, if_false, hlast, if_true, Option.some.injEq] at hr
    subst hr
    exact ⟨by decide, by simp [Slice.nil, hne], fun _ => rfl, fun hx => absurd hne hx⟩
  · have hlt : b.last ≠ b.next := by rw [h.last_eq, h.next_eq]; omega
    have hnl : b.next - b.last = ((es.length - (es.length - b.buffer.length) : Nat) : Int) := by
      rw [h.last_eq, h.next_eq]; omega
    obtain ⟨ev, hev, hlen, hcap⟩ := resize_fits hnl (by omega) dst hwf hfit
    have hwfe : ev.WF := by show ev.len ≤ ev.cap; omega
    simp only [Buffer, hC0, if_false, hlt, hev, Option.bind_eq_bind, Option.some_bind] at hr
    obtain ⟨a1, a2⟩ := copyOut_shape h hC hne ev hwfe (by omega) hcap hr
    refine ⟨?_, a1.trans hlen, fun hx => absurd hx hne, fun _ => by omega⟩
    show r.len ≤ r.cap
    omega

/-- Re-use of a result of `Buffer`. On a buffer with slots, let `r1` be what
`Buffer` returned, after the events `es` had been written, for a destination
that was too small or not longer than the events buffered then; let the events
`more` be written after that. Then `Buffer(r1)` returns exactly the events
buffered now, oldest first, as many as `next - last`; and it returns them in
the array of `r1`, unless `r1` is the nil slice that `Buffer` returns on a
buffer without events. -/
theorem Buffer_reuse {b1 b2 : RingBuffer} {es more : List EventRef} (h1 : RingInv b1 es)
    (h2 : RingInv b2 (es ++ more)) (hsame : b2.buffer.length = b1.buffer.length)
    (hC : 0 < b1.buffer.length) (dst : Slice) (hwf : dst.WF)
    (hfit : dst.cap < b1.buffer.length ∨ dst.len ≤ es.length - (es.length - b1.buffer.length))
    {r1 : Slice} (hr1 : Buffer b1 dst = some r1) :
    ∃ r2, Buffer b2 r1 = some r2 ∧
      r2.elems = (es ++ more).drop ((es ++ more).length - b2.buffer.length) ∧
      (r2.len : Int) = b2.next - b2.last ∧
      (es.length ≠ 0 → r2.cap = r1.cap) := by
  obtain ⟨a1, a2, a3, a4⟩ := Buffer_shape h1 hC dst hwf hfit hr1
  have hC2 : 0 < b2.buffer.length := by omega
  have hlen : (es ++ more).length = es.length + more.length := List.length_append _ _
  have hfit2 : r1.cap < b2.buffer.length ∨
      r1.len ≤ (es ++ more).length - ((es ++ more).length - b2.buffer.length) := by
    right; omega
  obtain ⟨r2, b1', b2', b3'⟩ := Buffer_fits h2 hC2 r1 a1 hfit2
  refine ⟨r2, b1', b2', ?_, ?_⟩
  · rw [b3', h2.next_eq, h2.last_eq]; omega
  · intro hne
    have hne2 : (es ++ more).length ≠ 0 := by omega
    have hC0 : b2.buffer.length ≠ 0 := by omega
    have hlt : b2.last ≠ b2.next := by rw [h2.last_eq, h2.next_eq]; omega
    have hnl : b2.next - b2.last
        = (((es ++ more).length - ((es ++ more).length - b2.buffer.length) : Nat) : Int) := by
      rw [h2.last_eq, h2.next_eq]; omega
    have hr2 := b1'
    simp only [Buffer, hC0, if_false, hlt, Option.bind_eq_bind] at hr2
    cases hev : resize b2 r1 with
    | none => simp [hev] at hr2
    | some ev =>
      simp only [hev, Option.some_bind] at hr2
      have hcap := a4 hne
      have c1 := resize_cap hnl (by omega) r1 a1 (by omega) hev
      obtain ⟨ev2, hev2, d1, d2⟩ := resize_fits hnl (by omega) r1 a1 hfit2
      rw [hev] at hev2
      obtain rfl := Option.some.inj hev2
      have hwfe : ev.WF := by show ev.len ≤ ev.cap; omega
      obtain ⟨-, c2⟩ := copyOut_shape h2 hC2 hne2 ev hwfe (by omega) d2 hr2
      rw [c2, c1]

/-! ## `ReadSince` never starts before an event that is older than `t` -/

/-- C21. `ReadSince` never replays an older event. On a buffer with slots in
a reachable state, whatever the times of the events (in any order, zero or
not) and whatever `t`, the loop of `ReadSince(t, k)` returns a sequence `q`
with `0 ≤ q ≤ next`, and the reader starts at `q`. Every buffered event with a
sequence from `q` on has the zero time or a time at or after `t`. If `q > 0`,
the event with sequence `q - 1` is buffered, its time is not zero and is
strictly before `t`, and no event written after it has a time that is not zero
and before `t`. -/
theorem C21_readSince_no_older (caps : List Int) (acts : List Action) (s : System)
    (evs : List Event) (t : Time) (k : Int)
    (h : runNew caps acts = some s) (hev : writtenBy acts = evs.map some)
    (hC : 0 < s.b.buffer.length) (hk : 0 ≤ k) :
    ∃ (q : Int) (s1 : System) (r1 : Reader), sinceSeq s.b t = some q ∧
      step s (.readSince t k) = some s1 ∧ s1.rs[s.rs.length]? = some r1 ∧
      r1.kind = .from ∧ r1.pc = .top ∧ r1.seq = q ∧ 0 ≤ q ∧ q ≤ s.b.next ∧
      (∀ (j : Nat) (e : Event), s.b.last ≤ (j : Int) → q ≤ (j : Int) → evs[j]? = some e →
        e.timestamp = 0 ∨ t ≤ e.timestamp) ∧
      (0 < q → ∃ (j : Nat) (e : Event), (j : Int) = q - 1 ∧ s.b.last ≤ (j : Int) ∧
        (j : Int) < s.b.next ∧ evs[j]? = some e ∧ e.timestamp ≠ 0 ∧ e.timestamp < t ∧
        ∀ (i : Nat) (d : Event), j < i → evs[i]? = some d →
          ¬ (d.timestamp ≠ 0 ∧ d.timestamp < t)) := by
  have hinv := runNew_ringInv h
  rw [hev] at hinv
  have hn := hinv.next_eq
  have hl := hinv.last_eq
  simp only [List.length_map] at hn hl
  have hC0 : s.b.buffer.length ≠ 0 := by omega
  have hch : makeChan k = some ⟨k.toNat, [], 0, [], false⟩ := by simp [makeChan, hk]
  obtain ⟨q, hq, hcase⟩ := sinceSeq_eq hinv t
  have h1 : step s (.readSince t k)
      = some ⟨s.b, s.rs ++ [newReader .from ⟨k.toNat, [], 0, [], false⟩ false .top q 0 none]⟩ := by
    simp [step, ReadSince, hC0, hq, readFrom, hch, System.add, Reg.apply]
  have hnot : ∀ {d : Event}, ¬ (d.timestamp ≠ 0 ∧ d.timestamp < t) →
      d.timestamp = 0 ∨ t ≤ d.timestamp := by
    intro d hd
    by_cases h0 : d.timestamp = 0
    · exact Or.inl h0
    · exact Or.inr (not_lt.mp (fun hlt => hd ⟨h0, hlt⟩))
  refine ⟨q, _, newReader .from ⟨k.toNat, [], 0, [], false⟩ false .top q 0 none, hq, h1,
    by simp, rfl, rfl, rfl, ?_, ?_, ?_, ?_⟩
  · rcases hcase with ⟨rfl, -⟩ | ⟨j, e, -, rfl, -⟩
    · exact le_refl _
    · omega
  · rcases hcase with ⟨rfl, -⟩ | ⟨j, e, -, rfl, he, -⟩
    · omega
    · have := (List.getElem?_eq_some_iff.mp he).1
      omega
  · intro j e hj hqj he
    rcases hcase with ⟨rfl, hall⟩ | ⟨j0, e0, -, rfl, -, -, -, hafter⟩
    · exact hnot (hall j e (by omega) he)
    · exact hnot (hafter j e (by omega) he)
  · intro hpos
    rcases hcase with ⟨rfl, -⟩ | ⟨j0, e0, hj0, rfl, he0, hz, hb, hafter⟩
    · exact absurd hpos (lt_irrefl _)
    · have := (List.getElem?_eq_some_iff.mp he0).1
      exact ⟨j0, e0, by omega, by omega, by omega, he0, hz, hb, hafter⟩

theorem C21_readSince_no_older_witness :
    runNew [3] [.write (some ⟨1, 30⟩), .write (some ⟨2, 10⟩), .write (some ⟨3, 0⟩),
        .write (some ⟨4, 20⟩), .write (some ⟨5, 0⟩)]
      = some ⟨⟨2, 5, [some ⟨4, 20⟩, some ⟨5, 0⟩, some ⟨3, 0⟩], [], 0, 0⟩, []⟩ ∧
    sinceSeq (⟨2, 5, [some ⟨4, 20⟩, some ⟨5, 0⟩, some ⟨3, 0⟩], [], 0, 0⟩ : RingBuffer) 25
      = some 4 ∧
    ∃ (q : Int) (s1 : System) (r1 : Reader),
      sinceSeq (⟨⟨2, 5, [some ⟨4, 20⟩, some ⟨5, 0⟩, some ⟨3, 0⟩], [], 0, 0⟩, []⟩ : System).b 25
        = some q ∧
      step ⟨⟨2, 5, [some ⟨4, 20⟩, some ⟨5, 0⟩, some ⟨3, 0⟩], [], 0, 0⟩, []⟩ (.readSince 25 0)
        = some s1 ∧
      s1.rs[(⟨⟨2, 5, [some ⟨4, 20⟩, some ⟨5, 0⟩, some ⟨3, 0⟩], [], 0, 0⟩, []⟩
        : System).rs.length]? = some r1 ∧
      r1.kind = .from ∧ r1.pc = .top ∧ r1.seq = q :=
  ⟨by decide, by decide,
    (C21_readSince_no_older [3]
      [.write (some ⟨1, 30⟩), .write (some ⟨2, 10⟩), .write (some ⟨3, 0⟩),
        .write (some ⟨4, 20⟩), .write (some ⟨5, 0⟩)]
      ⟨⟨2, 5, [some ⟨4, 20⟩, some ⟨5, 0⟩, some ⟨3, 0⟩], [], 0, 0⟩, []⟩
      [⟨1, 30⟩, ⟨2, 10⟩, ⟨3, 0⟩, ⟨4, 20⟩, ⟨5, 0⟩] 25 0
      (by decide) (by decide) (by decide) (by decide)).imp
      (fun _ hq => hq.imp (fun _ hs => hs.imp (fun _ hr =>
        ⟨hr.1, hr.2.1, hr.2.2.1, hr.2.2.2.1, hr.2.2.2.2.1, hr.2.2.2.2.2.1⟩)))⟩

end Container2
